import Mathlib

/-!
# Lazy bootstrap attempt

A shallow embedding of `nano/node/bootstrap/bootstrap_lazy.cpp` and
`bootstrap_lazy.hpp`.  The attempt object becomes a record that is passed
explicitly through every member function; the node the attempt talks to
(storage, ledger, flags, network parameters) is a read-only environment.
Each member function is modelled as one atomic step: the mutexes, the
condition variable and the log lines of the source have no counterpart here.

Containers:
* `std::deque` is a `List`, front of the deque first;
* `std::unordered_set` is a `List` without repetition, `std::unordered_map` an
  association `List` with unique keys; the iteration order of the source is
  unspecified and is taken to be the list order;
* the `boost::multi_index_container` of destinations is the `List` of its items
  in the order of its first index (count, descending).
-/

namespace nano

/-- A 256-bit value of the source (`block_hash`, `link`, `hash_or_account`). -/
abbrev block_hash := Nat

/-- A 256-bit public identity. -/
abbrev account := Nat

/-- The value `std::numeric_limits<unsigned>::max ()`. -/
def unsigned_max : Nat := 2 ^ 32 - 1

/-- The enumeration `nano::bootstrap_mode`. -/
inductive bootstrap_mode where
  | legacy
  | lazy
  | wallet_lazy
  deriving DecidableEq, Repr

/-- The enumeration `nano::block_type`, restricted to the types of real blocks. -/
inductive block_type where
  | send
  | receive
  | open_
  | change
  | state
  deriving DecidableEq, Repr

/-- Modelled from the spec: the block classes of `nano/lib/blocks.hpp`, which are not
among the sources.  Every block has a content hash; send blocks carry `destination` and
`balance`, receive blocks carry `source`, open blocks carry `source`, state blocks carry
`balance` and `link`; all blocks except open blocks carry `previous`.  Fields the
bootstrap code never reads (representative, signature, work) are left out. -/
inductive block where
  | send (hash previous destination balance : Nat)
  | receive (hash previous source : Nat)
  | open_ (hash source : Nat)
  | change (hash previous : Nat)
  | state (hash previous balance link : Nat)
  deriving DecidableEq, Repr

namespace block

/-- The virtual `block::type ()`. -/
def type : block → block_type
  | send _ _ _ _ => block_type.send
  | receive _ _ _ => block_type.receive
  | open_ _ _ => block_type.open_
  | change _ _ => block_type.change
  | state _ _ _ _ => block_type.state

/-- The virtual `block::hash ()`. -/
def hash : block → block_hash
  | send h _ _ _ => h
  | receive h _ _ => h
  | open_ h _ => h
  | change h _ => h
  | state h _ _ _ => h

/-- The virtual `block::previous ()`: zero for an open block. -/
def previous : block → block_hash
  | send _ p _ _ => p
  | receive _ p _ => p
  | open_ _ _ => 0
  | change _ p => p
  | state _ p _ _ => p

/-- The virtual `block::source ()`: the pocketed send for receive and open blocks, zero
for every other type. -/
def source : block → block_hash
  | receive _ _ s => s
  | open_ _ s => s
  | _ => 0

/-- The virtual `block::balance ()`: the stated balance of send and state blocks, zero
for every other type. -/
def balance : block → Nat
  | send _ _ _ b => b
  | state _ _ b _ => b
  | _ => 0

end block

/-- Modelled from the spec: the class `nano::pull_info` of `bootstrap_bulk_pull.hpp`, which
is not among the sources: a pull descriptor with the fields the attempt reads and writes. -/
structure pull_info where
  account_or_head : block_hash
  head : block_hash
  head_original : block_hash
  «end» : block_hash
  count : Nat
  attempts : Nat
  processed : Nat
  retry_limit : Nat
  deriving DecidableEq, Repr

/-- The five-argument constructor of `nano::pull_info`: a fresh pull has made no attempt
and processed no block. -/
def pull_info.make (account_or_head_a head_a end_a : block_hash) (count_a retry_limit_a : Nat) :
    pull_info :=
  { account_or_head := account_or_head_a, head := head_a, head_original := head_a,
    «end» := end_a, count := count_a, attempts := 0, processed := 0,
    retry_limit := retry_limit_a }

/-- The class `nano::lazy_state_backlog_item`. -/
structure lazy_state_backlog_item where
  link : block_hash
  balance : Nat
  retry_limit : Nat
  deriving DecidableEq, Repr

/-- The class `nano::lazy_destinations_item`; `count` is a `uint64_t`, which the increment
of `destinations_modify` keeps below 2^64. -/
structure lazy_destinations_item where
  account : account
  count : Nat
  deriving DecidableEq, Repr

/-- The arguments of one `node->block_processor.add (info)` call: the block, the known
account and the last constructor argument of `nano::unchecked_info`, the flag the spec
calls `verified`. -/
structure unchecked_info where
  block : block
  account : account
  modified : Nat
  confirmed : Bool
  deriving DecidableEq, Repr

/-- The node as seen by the attempt.  Storage and ledger queries are functions of the
hash; the constants of `bootstrap_limits`, `network_params.bootstrap` and `flags`, which
are declared outside the sources, are fields.  `hash_digest` is
`std::hash<nano::block_hash>`; `batch_count_resized` is the floating-point expression of
`lazy_pull_flush` (ratio test, `std::pow`, `std::sqrt`), kept abstract. -/
structure node where
  block_exists : block_hash → Bool
  balance : block_hash → Nat
  is_epoch_link : block_hash → Bool
  genesis_account : account
  disable_legacy_bootstrap : Bool
  lazy_max_pull_blocks : Nat
  lazy_min_pull_blocks : Nat
  lazy_retry_limit : Nat
  lazy_destinations_retry_limit : Nat
  bootstrap_connection_scale_target_blocks_lazy : Nat
  lazy_batch_pull_count_resize_blocks_limit : Nat
  lazy_blocks_restart_limit : Nat
  lazy_destinations_request_limit : Nat
  hash_digest : block_hash → Nat
  batch_count_resized : Nat → Nat → Nat

/-- The data members of `nano::bootstrap_attempt_lazy`, those inherited from
`nano::bootstrap_attempt` included.  `cache` records the pulls handed to
`node->bootstrap_initiator.cache.add`, `block_processor` the items handed to
`node->block_processor.add`, `bulk_pull_failed_account` the statistics counter. -/
structure bootstrap_attempt_lazy where
  mode : bootstrap_mode
  stopped : Bool
  pulls : List pull_info
  pulling : Nat
  requeued_pulls : Nat
  total_blocks : Nat
  lazy_blocks : List Nat
  lazy_state_backlog : List (block_hash × lazy_state_backlog_item)
  lazy_undefined_links : List block_hash
  lazy_balances : List (block_hash × Nat)
  lazy_keys : List block_hash
  lazy_pulls : List (block_hash × Nat)
  lazy_start_time : Nat
  last_lazy_flush : Nat
  lazy_destinations : List lazy_destinations_item
  lazy_blocks_count : Nat
  lazy_destinations_flushed : Bool
  cache : List pull_info
  block_processor : List unchecked_info
  bulk_pull_failed_account : Nat
  deriving DecidableEq, Repr

/-! ## Container operations -/

/-- The call `unordered_map::find`. -/
def map_find {β : Type} (k : block_hash) (m : List (block_hash × β)) : Option β :=
  List.lookup k m

/-- The call `unordered_map::emplace`: no effect when the key is present. -/
def map_emplace {β : Type} (k : block_hash) (v : β) (m : List (block_hash × β)) :
    List (block_hash × β) :=
  if (map_find k m).isSome then m else m ++ [(k, v)]

/-- The call `unordered_map::erase` of one key. -/
def map_erase {β : Type} (k : block_hash) (m : List (block_hash × β)) : List (block_hash × β) :=
  m.filter (fun e => e.1 != k)

/-- The call `unordered_set::insert`. -/
def set_insert (k : Nat) (s : List Nat) : List Nat :=
  if k ∈ s then s else s ++ [k]

/-- Insertion into the `ordered_non_unique` count index with `std::greater`: the new item
goes behind every item whose count is at least its own. -/
def destinations_link (item : lazy_destinations_item) :
    List lazy_destinations_item → List lazy_destinations_item
  | [] => [item]
  | e :: rest => if item.count > e.count then item :: e :: rest else e :: destinations_link item rest

/-- The call `lazy_destinations.emplace`: refused by the `hashed_unique` account index when
the account is present. -/
def destinations_emplace (item : lazy_destinations_item) (l : List lazy_destinations_item) :
    List lazy_destinations_item :=
  if l.any (fun e => e.account == item.account) then l else destinations_link item l

/-- The call `modify (existing, ++count)` of the account index, on the count-ordered list:
`before` holds the items in front of the current one, nearest first.  The count is a
`uint64_t`, so `++count` is taken modulo 2^64.  The item stays where it is when its new
count still fits between its neighbours, and is relinked otherwise. -/
def destinations_modify (a : account) :
    List lazy_destinations_item → List lazy_destinations_item → List lazy_destinations_item
  | _, [] => []
  | before, e :: rest =>
    if e.account = a then
      let item : lazy_destinations_item := { account := e.account, count := (e.count + 1) % 2 ^ 64 }
      let fits_before : Bool :=
        match before with
        | [] => true
        | p :: _ => !(decide (item.count > p.count))
      let fits_after : Bool :=
        match rest with
        | [] => true
        | q :: _ => !(decide (q.count > item.count))
      if fits_before && fits_after then before.reverse ++ item :: rest
      else destinations_link item (before.reverse ++ rest)
    else destinations_modify a (e :: before) rest

/-! ## Member functions of `bootstrap_attempt_lazy` -/

/-- `bootstrap_attempt_lazy::lazy_blocks_processed`. -/
def lazy_blocks_processed (n : node) (s : bootstrap_attempt_lazy) (hash_a : block_hash) : Bool :=
  decide (n.hash_digest hash_a ∈ s.lazy_blocks)

/-- `bootstrap_attempt_lazy::lazy_processed_or_exists`. -/
def lazy_processed_or_exists (n : node) (s : bootstrap_attempt_lazy) (hash_a : block_hash) :
    Bool :=
  if lazy_blocks_processed n s hash_a then true
  else if n.block_exists hash_a then true
  else false

/-- `bootstrap_attempt_lazy::lazy_blocks_insert`. -/
def lazy_blocks_insert (n : node) (s : bootstrap_attempt_lazy) (hash_a : block_hash) :
    bootstrap_attempt_lazy :=
  if n.hash_digest hash_a ∈ s.lazy_blocks then s
  else { s with lazy_blocks := set_insert (n.hash_digest hash_a) s.lazy_blocks,
                lazy_blocks_count := s.lazy_blocks_count + 1 }

/-- `bootstrap_attempt_lazy::lazy_add`: only unknown blocks are queued. -/
def lazy_add (n : node) (s : bootstrap_attempt_lazy) (hash_or_account_a : block_hash)
    (retry_limit : Nat) : bootstrap_attempt_lazy :=
  if !(lazy_blocks_processed n s hash_or_account_a) then
    { s with lazy_pulls := s.lazy_pulls ++ [(hash_or_account_a, retry_limit)] }
  else s

/-- `bootstrap_attempt_lazy::lazy_destinations_increment`: enabled only when legacy
bootstrap is not available. -/
def lazy_destinations_increment (n : node) (s : bootstrap_attempt_lazy) (destination_a : account) :
    bootstrap_attempt_lazy :=
  if n.disable_legacy_bootstrap then
    if s.lazy_destinations.any (fun e => e.account == destination_a) then
      { s with lazy_destinations := destinations_modify destination_a [] s.lazy_destinations }
    else
      { s with lazy_destinations :=
          destinations_emplace { account := destination_a, count := 1 } s.lazy_destinations }
  else s

/-- `bootstrap_attempt_lazy::lazy_block_state`. -/
def lazy_block_state (n : node) (s : bootstrap_attempt_lazy) (block_a : block)
    (retry_limit : Nat) : bootstrap_attempt_lazy :=
  match block_a with
  | block.state _ previous balance link =>
    if link ≠ 0 ∧ n.is_epoch_link link = false ∧ lazy_blocks_processed n s link = false
        ∧ n.block_exists link = false then
      if previous = 0 then
        lazy_add n s link retry_limit
      else if n.block_exists previous then
        if n.balance previous ≤ balance then lazy_add n s link retry_limit
        else lazy_destinations_increment n s link
      else if lazy_blocks_processed n s previous then
        match map_find previous s.lazy_balances with
        | some previous_balance =>
          let s1 :=
            if previous_balance ≤ balance then lazy_add n s link retry_limit
            else lazy_destinations_increment n s link
          { s1 with lazy_balances := map_erase previous s1.lazy_balances }
        | none => s
      else
        let item : lazy_state_backlog_item :=
          { link := link, balance := balance, retry_limit := retry_limit }
        { s with lazy_state_backlog := map_emplace previous item s.lazy_state_backlog }
    else s
  | _ => s

/-- `bootstrap_attempt_lazy::lazy_block_state_backlog_check`. -/
def lazy_block_state_backlog_check (n : node) (s : bootstrap_attempt_lazy) (block_a : block)
    (hash_a : block_hash) : bootstrap_attempt_lazy :=
  match map_find hash_a s.lazy_state_backlog with
  | some next_block =>
    let s1 :=
      if block_a.type = block_type.state ∨ block_a.type = block_type.send then
        if block_a.balance ≤ next_block.balance then
          lazy_add n s next_block.link next_block.retry_limit
        else lazy_destinations_increment n s next_block.link
      else if next_block.link ∉ s.lazy_undefined_links then
        let s2 := lazy_add n s next_block.link n.lazy_retry_limit
        { s2 with lazy_undefined_links := set_insert next_block.link s2.lazy_undefined_links }
      else s
    { s1 with lazy_state_backlog := map_erase hash_a s1.lazy_state_backlog }
  | none => s

/-- The part of `process_block_lazy` under the comment "Search for new dependencies". -/
def process_block_lazy_dependencies (n : node) (s : bootstrap_attempt_lazy) (block_a : block)
    (retry_limit : Nat) : bootstrap_attempt_lazy :=
  if block_a.source ≠ 0 ∧ n.block_exists block_a.source = false
      ∧ block_a.source ≠ n.genesis_account then
    lazy_add n s block_a.source retry_limit
  else if block_a.type = block_type.state then
    lazy_block_state n s block_a retry_limit
  else if block_a.type = block_type.send then
    match block_a with
    | block.send _ _ destination _ =>
      if destination ≠ 0 then lazy_destinations_increment n s destination else s
    | _ => s
  else s

/-- The part of `process_block_lazy` that keeps `lazy_balances`: "Adding lazy balances for
first processed block in pull", then "Clearing lazy balances for previous block". -/
def process_block_lazy_balances (s : bootstrap_attempt_lazy) (block_a : block)
    (hash : block_hash) (pull_blocks : Nat) : bootstrap_attempt_lazy :=
  let s1 :=
    if pull_blocks = 0
        ∧ (block_a.type = block_type.state ∨ block_a.type = block_type.send) then
      { s with lazy_balances := map_emplace hash block_a.balance s.lazy_balances }
    else s
  if block_a.previous ≠ 0 ∧ (map_find block_a.previous s1.lazy_balances).isSome then
    { s1 with lazy_balances := map_erase block_a.previous s1.lazy_balances }
  else s1

/-- `bootstrap_attempt_lazy::process_block_lazy`: the returned flag is `stop_pull`. -/
def process_block_lazy (n : node) (s : bootstrap_attempt_lazy) (block_a : block)
    (known_account_a : account) (pull_blocks max_blocks retry_limit : Nat) :
    Bool × bootstrap_attempt_lazy :=
  let hash := block_a.hash
  let s_out :=
    if !(lazy_blocks_processed n s hash) then
      let s1 := process_block_lazy_dependencies n s block_a retry_limit
      let s2 := lazy_blocks_insert n s1 hash
      let s3 := process_block_lazy_balances s2 block_a hash pull_blocks
      let s4 := lazy_block_state_backlog_check n s3 block_a hash
      { s4 with block_processor := s4.block_processor ++
          [{ block := block_a, account := known_account_a, modified := 0,
             confirmed := decide (retry_limit = unsigned_max) }] }
    else s
  (decide (pull_blocks > max_blocks), s_out)

/-- `bootstrap_attempt_lazy::lazy_finished`: the returned flag and the attempt with the
stored keys erased. -/
def lazy_finished (n : node) (s : bootstrap_attempt_lazy) : Bool × bootstrap_attempt_lazy :=
  if s.stopped then (true, s)
  else
    let keys := s.lazy_keys.dropWhile n.block_exists
    let result0 : Bool := keys.isEmpty
    let result1 : Bool :=
      if !result0 && s.lazy_pulls.isEmpty && s.lazy_state_backlog.isEmpty then true else result0
    let result2 : Bool :=
      if result1 && !s.lazy_destinations.isEmpty then false else result1
    (result2, { s with lazy_keys := keys })

/-- The value of `pull.attempts` after the `++pull.attempts` of `requeue_pull_lazy`
(an `unsigned`), which a network error skips. -/
def pull_attempts_next (pull_a : pull_info) (network_error : Bool) : Nat :=
  if !network_error then (pull_a.attempts + 1) % 2 ^ 32 else pull_a.attempts

/-- The value of `pull.retry_limit + (pull.processed / lazy_max_pull_blocks)`, computed
in `uint64_t`. -/
def lazy_retry_bound (n : node) (pull_a : pull_info) : Nat :=
  (pull_a.retry_limit + pull_a.processed / n.lazy_max_pull_blocks) % 2 ^ 64

/-- `bootstrap_attempt_lazy::requeue_pull_lazy`. -/
def requeue_pull_lazy (n : node) (s : bootstrap_attempt_lazy) (pull_a : pull_info)
    (network_error : Bool) : bootstrap_attempt_lazy :=
  let pull : pull_info := { pull_a with attempts := pull_attempts_next pull_a network_error }
  let s0 := { s with requeued_pulls := s.requeued_pulls + 1 }
  if s0.mode ≠ bootstrap_mode.lazy
      ∧ pull.attempts < (pull.retry_limit + pull.processed / 10000) % 2 ^ 64 then
    { s0 with pulls := pull :: s0.pulls }
  else if s0.mode = bootstrap_mode.lazy
      ∧ (pull.retry_limit = unsigned_max ∨ pull.attempts ≤ lazy_retry_bound n pull) then
    if !(lazy_processed_or_exists n s0 pull.account_or_head) then
      { s0 with pulls := s0.pulls ++ [pull] }
    else s0
  else
    let s1 := { s0 with bulk_pull_failed_account := s0.bulk_pull_failed_account + 1,
                        cache := s0.cache ++ [pull] }
    if s1.mode = bootstrap_mode.lazy ∧ pull.processed > 0 then
      lazy_add n s1 pull.account_or_head pull.retry_limit
    else s1

/-- The constant `max_pulls` of `lazy_pull_flush`. -/
def max_pulls (n : node) : Nat :=
  n.bootstrap_connection_scale_target_blocks_lazy * 3

/-- The `batch_count` computed by `lazy_pull_flush`. -/
def lazy_batch_count (n : node) (s : bootstrap_attempt_lazy) : Nat :=
  if s.total_blocks > n.lazy_batch_pull_count_resize_blocks_limit ∧ ¬ s.lazy_blocks = [] then
    n.batch_count_resized s.total_blocks s.lazy_blocks.length
  else n.lazy_max_pull_blocks

/-- The `while` loop of `lazy_pull_flush`: `count` pulls were appended so far. -/
def lazy_pull_flush_loop (n : node) (batch_count : Nat) (lazy_blocks : List Nat) :
    Nat → List (block_hash × Nat) → List pull_info → List (block_hash × Nat) × List pull_info
  | _, [], pulls => ([], pulls)
  | count, pull_start :: rest, pulls =>
    if count < max_pulls n then
      if !(decide (n.hash_digest pull_start.1 ∈ lazy_blocks))
          && !(n.block_exists pull_start.1) then
        lazy_pull_flush_loop n batch_count lazy_blocks (count + 1) rest
          (pulls ++ [pull_info.make pull_start.1 pull_start.1 0 batch_count pull_start.2])
      else lazy_pull_flush_loop n batch_count lazy_blocks count rest pulls
    else (pull_start :: rest, pulls)

/-- `bootstrap_attempt_lazy::lazy_pull_flush`, called at time `now`. -/
def lazy_pull_flush (n : node) (now : Nat) (s : bootstrap_attempt_lazy) :
    bootstrap_attempt_lazy :=
  if s.pulls.length < max_pulls n then
    let r := lazy_pull_flush_loop n (lazy_batch_count n s) s.lazy_blocks 0 s.lazy_pulls s.pulls
    { s with last_lazy_flush := now, lazy_pulls := r.1, pulls := r.2 }
  else s

/-- The bound `max_keys` of `lazy_start`: 1024 start blocks, 4k with disabled legacy
bootstrap. -/
def max_keys (n : node) : Nat :=
  if n.disable_legacy_bootstrap then 4 * 1024 else 1024

/-- `bootstrap_attempt_lazy::lazy_start`. -/
def lazy_start (n : node) (s : bootstrap_attempt_lazy) (hash_or_account_a : block_hash)
    (confirmed : Bool) : bootstrap_attempt_lazy :=
  if s.lazy_keys.length < max_keys n ∧ hash_or_account_a ∉ s.lazy_keys
      ∧ lazy_blocks_processed n s hash_or_account_a = false then
    { s with
        lazy_keys := set_insert hash_or_account_a s.lazy_keys,
        lazy_pulls := s.lazy_pulls ++
          [(hash_or_account_a, if confirmed then unsigned_max else n.lazy_retry_limit)] }
  else s

/-- `bootstrap_attempt_lazy::lazy_blocks_erase`. -/
def lazy_blocks_erase (n : node) (s : bootstrap_attempt_lazy) (hash_a : block_hash) :
    bootstrap_attempt_lazy :=
  if n.hash_digest hash_a ∈ s.lazy_blocks then
    { s with lazy_blocks := s.lazy_blocks.erase (n.hash_digest hash_a),
             lazy_blocks_count := s.lazy_blocks_count - 1 }
  else s

/-- `bootstrap_attempt_lazy::lazy_requeue`: only known blocks are requeued. -/
def lazy_requeue (n : node) (s : bootstrap_attempt_lazy) (hash_a previous_a : block_hash)
    (confirmed_a : Bool) : bootstrap_attempt_lazy :=
  if lazy_blocks_processed n s hash_a then
    requeue_pull_lazy n (lazy_blocks_erase n s hash_a)
      (pull_info.make hash_a hash_a previous_a 1
        (if confirmed_a then unsigned_max else n.lazy_destinations_retry_limit))
      false
  else s

/-- The number of `std::chrono::steady_clock` ticks (nanoseconds) in one minute. -/
def steady_clock_minute : Nat := 60 * 1000000000

/-- The function-local `static std::chrono::minutes const max_lazy_time` of
`lazy_has_expired`, in minutes.  `initialised` is what the static holds when the call is
made: `none` until the first call in the process, which initialises it from the flag of
the node of its attempt ("Max 30 minutes run with enabled legacy bootstrap", seven days
otherwise); every later call, for whatever attempt and node of the process, finds the
value of the first call. -/
def max_lazy_time (n : node) (initialised : Option Nat) : Nat :=
  match initialised with
  | some minutes => minutes
  | none => if n.disable_legacy_bootstrap then 7 * 24 * 60 else 30

/-- `bootstrap_attempt_lazy::lazy_has_expired`, called at time `now`; time points are
counted in ticks of the steady clock.  The result comes with what the static
`max_lazy_time` holds after the call. -/
def lazy_has_expired (n : node) (now : Nat) (initialised : Option Nat)
    (s : bootstrap_attempt_lazy) : Bool × Option Nat :=
  let minutes := max_lazy_time n initialised
  let result : Bool :=
    if now - s.lazy_start_time ≥ minutes * steady_clock_minute then true
    else if n.disable_legacy_bootstrap = false
        ∧ s.lazy_blocks_count > n.lazy_blocks_restart_limit then true
    else false
  (result, some minutes)

/-- `bootstrap_attempt_lazy::process_block`. -/
def process_block (n : node) (s : bootstrap_attempt_lazy) (block_a : block)
    (known_account_a : account) (pull_blocks max_blocks : Nat) (block_expected : Bool)
    (retry_limit : Nat) : Bool × bootstrap_attempt_lazy :=
  if block_expected then
    process_block_lazy n s block_a known_account_a pull_blocks max_blocks retry_limit
  else (true, s)

/-- The loop of `lazy_backlog_cleanup` over the entries of the backlog. -/
def lazy_backlog_cleanup_loop (n : node) :
    List (block_hash × lazy_state_backlog_item) → bootstrap_attempt_lazy → bootstrap_attempt_lazy
  | [], s => s
  | (hash, next_block) :: rest, s =>
    if n.block_exists hash then
      let s1 :=
        if n.balance hash ≤ next_block.balance then
          lazy_add n s next_block.link next_block.retry_limit
        else lazy_destinations_increment n s next_block.link
      lazy_backlog_cleanup_loop n rest
        { s1 with lazy_state_backlog := map_erase hash s1.lazy_state_backlog }
    else lazy_backlog_cleanup_loop n rest (lazy_add n s hash next_block.retry_limit)

/-- `bootstrap_attempt_lazy::lazy_backlog_cleanup`. -/
def lazy_backlog_cleanup (n : node) (s : bootstrap_attempt_lazy) : bootstrap_attempt_lazy :=
  if s.stopped then s else lazy_backlog_cleanup_loop n s.lazy_state_backlog s

/-- The loop of `lazy_destinations_flush` over the count index: `count` destinations were
requested so far. -/
def lazy_destinations_flush_loop (n : node) :
    Nat → List lazy_destinations_item → bootstrap_attempt_lazy → bootstrap_attempt_lazy
  | _, [], s => { s with lazy_destinations := [] }
  | count, item :: rest, s =>
    if count < n.lazy_destinations_request_limit then
      lazy_destinations_flush_loop n (count + 1) rest
        (lazy_add n s item.account n.lazy_destinations_retry_limit)
    else { s with lazy_destinations := item :: rest }

/-- `bootstrap_attempt_lazy::lazy_destinations_flush`. -/
def lazy_destinations_flush (n : node) (s : bootstrap_attempt_lazy) : bootstrap_attempt_lazy :=
  let s0 := { s with lazy_destinations_flushed := true }
  if s0.stopped then s0 else lazy_destinations_flush_loop n 0 s0.lazy_destinations s0

/-- The `while` loop of `request_pull_lazy`, which skips pulls whose head was processed. -/
def request_pull_lazy_loop (n : node) (s : bootstrap_attempt_lazy) :
    pull_info → List pull_info → pull_info × List pull_info
  | pull, [] => (pull, [])
  | pull, next :: rest =>
    if pull.head ≠ 0 ∧ lazy_processed_or_exists n s pull.head = true then
      request_pull_lazy_loop n s next rest
    else (pull, next :: rest)

/-- `bootstrap_attempt_lazy::request_pull_lazy`: the pull handed to the bulk pull client,
if any, and the attempt.  `connection_l` says whether `connection ()` returned a
connection.  `lazy_run` calls the function with a non-empty `pulls` only; on an empty
`pulls`, where the source is undefined, nothing is dispatched. -/
def request_pull_lazy (n : node) (connection_l : Bool) (s : bootstrap_attempt_lazy) :
    Option pull_info × bootstrap_attempt_lazy :=
  if connection_l then
    match s.pulls with
    | [] => (none, s)
    | front :: rest =>
      let r := request_pull_lazy_loop n s front rest
      (some r.1, { s with pulls := r.2, pulling := s.pulling + 1 })
  else (none, s)

/-! ## Wallet attempt -/

/-- The data members of `nano::bootstrap_attempt_wallet` the wallet functions use. -/
structure bootstrap_attempt_wallet where
  mode : bootstrap_mode
  stopped : Bool
  pulling : Nat
  wallet_accounts : List account
  deriving DecidableEq, Repr

/-- `bootstrap_attempt_wallet::request_pending`: the account handed to the bulk pull
account client, if any, and the attempt.  `wallet_run` calls the function with a non-empty
queue only; on an empty queue, where the source is undefined, nothing is dispatched. -/
def request_pending (connection_l : Bool) (s : bootstrap_attempt_wallet) :
    Option account × bootstrap_attempt_wallet :=
  if connection_l then
    match s.wallet_accounts with
    | [] => (none, s)
    | account :: rest => (some account, { s with wallet_accounts := rest, pulling := s.pulling + 1 })
  else (none, s)

/-- `bootstrap_attempt_wallet::requeue_pending`. -/
def requeue_pending (s : bootstrap_attempt_wallet) (account_a : account) :
    bootstrap_attempt_wallet :=
  { s with wallet_accounts := account_a :: s.wallet_accounts }

/-- `bootstrap_attempt_wallet::wallet_start`: the attempt and the deque the caller is left
with after the swap. -/
def wallet_start (s : bootstrap_attempt_wallet) (accounts_a : List account) :
    bootstrap_attempt_wallet × List account :=
  ({ s with wallet_accounts := accounts_a }, s.wallet_accounts)

/-- `bootstrap_attempt_wallet::wallet_finished`: the returned flag and the attempt. -/
def wallet_finished (s : bootstrap_attempt_wallet) : Bool × bootstrap_attempt_wallet :=
  let running := !s.stopped
  let more_accounts := !s.wallet_accounts.isEmpty
  let still_pulling := decide (s.pulling > 0)
  (running && (more_accounts || still_pulling), s)

/-- `bootstrap_attempt_wallet::wallet_size`. -/
def wallet_size (s : bootstrap_attempt_wallet) : Nat :=
  s.wallet_accounts.length

/-! ## Message buffer ring -/

/-- Modelled from the spec: the message buffer ring (`nano::message_buffer_manager`), of
which only the tests are among the sources.  A fixed number of slots, each either in the
free list, enqueued (oldest first), or in the hands of a producer or consumer; `overflow`
is the `udp/overflow` counter. -/
structure message_buffer_manager where
  free : List Nat
  full : List Nat
  overflow : Nat
  stopped : Bool
  deriving DecidableEq, Repr

namespace message_buffer_manager

/-- Modelled from the spec: the constructor of the ring, missing from the sources: a ring of
`count` slots, all of them free. -/
def make (count : Nat) : message_buffer_manager :=
  { free := List.range count, full := [], overflow := 0, stopped := false }

/-- Modelled from the spec: `allocate ()`, missing from the sources.  A free slot is handed
out if there is one; otherwise "overflow increments a counter and reuses the oldest slot";
with no slot free and none enqueued the producer blocks, which is the result `none`. -/
def allocate (m : message_buffer_manager) : Option Nat × message_buffer_manager :=
  match m.free with
  | slot :: rest => (some slot, { m with free := rest })
  | [] =>
    match m.full with
    | slot :: rest => (some slot, { m with full := rest, overflow := m.overflow + 1 })
    | [] => (none, m)

/-- Modelled from the spec: `enqueue ()`, missing from the sources: the producer queues a
filled slot behind the slots already enqueued. -/
def enqueue (m : message_buffer_manager) (slot : Nat) : message_buffer_manager :=
  { m with full := m.full ++ [slot] }

/-- Modelled from the spec: `dequeue ()`, missing from the sources: the consumer takes the
oldest enqueued slot; a null result when nothing is enqueued. -/
def dequeue (m : message_buffer_manager) : Option Nat × message_buffer_manager :=
  match m.full with
  | slot :: rest => (some slot, { m with full := rest })
  | [] => (none, m)

/-- Modelled from the spec: `release ()`, missing from the sources: the consumer gives the
slot back to the free list. -/
def release (m : message_buffer_manager) (slot : Nat) : message_buffer_manager :=
  { m with free := m.free ++ [slot] }

end message_buffer_manager

/-! ## Endpoint parser -/

/-- Modelled from the spec: the endpoint `parse_endpoint` yields, the eight 16-bit groups
of its IPv6 address and its port.  `nano::endpoint` is declared outside the sources. -/
structure endpoint where
  address : List Nat
  port : Nat
  deriving DecidableEq, Repr

/-- Modelled from the spec: `boost::asio::ip::address_v6::loopback ()`, the address
`::1`. -/
def address_v6_loopback : List Nat := [0, 0, 0, 0, 0, 0, 0, 1]

/-- Modelled from the spec: the value of a string of decimal digits. -/
def decimal_value (digits : List Char) : Nat :=
  digits.foldl (fun v c => 10 * v + (c.toNat - 48)) 0

/-- Modelled from the spec: the `<port>` of `<ipv6>:<port>`, a non-empty string of decimal
digits whose value fits the 16 bits of a port; `none` is the error. -/
def parse_port (string : List Char) : Option Nat :=
  if string ≠ [] ∧ string.all Char.isDigit = true ∧ decimal_value string ≤ 65535 then
    some (decimal_value string)
  else none

/-- Modelled from the spec: the fields of a text between its colons. -/
def split_colon : List Char → List (List Char)
  | [] => [[]]
  | c :: rest =>
    if c = ':' then [] :: split_colon rest
    else
      match split_colon rest with
      | [] => [[c]]
      | field :: fields => (c :: field) :: fields

/-- Modelled from the spec: the value of a hexadecimal digit. -/
def hex_value (c : Char) : Option Nat :=
  if c.isDigit then some (c.toNat - 48)
  else if 'a' ≤ c ∧ c ≤ 'f' then some (c.toNat - 87)
  else if 'A' ≤ c ∧ c ≤ 'F' then some (c.toNat - 55)
  else none

/-- Modelled from the spec: one group of an IPv6 address, one to four hexadecimal
digits. -/
def parse_group (field : List Char) : Option Nat :=
  if field = [] ∨ field.length > 4 then none
  else
    field.foldl
      (fun v c =>
        match v, hex_value c with
        | some x, some d => some (16 * x + d)
        | _, _ => none)
      (some 0)

/-- Modelled from the spec: the groups of a list of fields. -/
def parse_fields : List (List Char) → Option (List Nat)
  | [] => some []
  | field :: fields =>
    match parse_group field, parse_fields fields with
    | some g, some gs => some (g :: gs)
    | _, _ => none

/-- Modelled from the spec: the groups on one side of `::`, none for an empty side. -/
def parse_groups (part : List Char) : Option (List Nat) :=
  if part = [] then some [] else parse_fields (split_colon part)

/-- Modelled from the spec: the text in front of and behind the first `::`. -/
def split_double_colon : List Char → Option (List Char × List Char)
  | [] => none
  | c :: rest =>
    if c = ':' ∧ rest.head? = some ':' then some ([], rest.tail)
    else
      match split_double_colon rest with
      | some r => some (c :: r.1, r.2)
      | none => none

/-- Modelled from the spec: the `<ipv6>` of `<ipv6>:<port>` in the text form of RFC 4291,
eight groups of hexadecimal digits separated by colons, where one `::` stands for the
groups of zeros that are left out; `none` is the error.  The form with a dotted-quad tail
is left out. -/
def parse_address_v6 (string : List Char) : Option (List Nat) :=
  match split_double_colon string with
  | some (front, back) =>
    match parse_groups front, parse_groups back with
    | some a, some b =>
      if a.length + b.length ≤ 7 then
        some (a ++ List.replicate (8 - (a.length + b.length)) 0 ++ b)
      else none
    | _, _ => none
  | none =>
    match parse_groups string with
    | some a => if a.length = 8 then some a else none
    | none => none

/-- Modelled from the spec: the text in front of and behind the last colon, the port
separator of `<ipv6>:<port>`. -/
def split_last_colon (string : List Char) : Option (List Char × List Char) :=
  match string.reverse.dropWhile (fun c => c != ':') with
  | [] => none
  | _ :: address_reversed =>
    some (address_reversed.reverse, (string.reverse.takeWhile (fun c => c != ':')).reverse)

/-- Modelled from the spec: `nano::parse_endpoint`, which is declared outside the sources
and accepts `<ipv6>:<port>`; `none` stands for the returned error flag, `some` for no
error together with the endpoint written. -/
def parse_endpoint (string : List Char) : Option endpoint :=
  match split_last_colon string with
  | none => none
  | some (address_string, port_string) =>
    if address_string = [] then none
    else
      match parse_port port_string, parse_address_v6 address_string with
      | some port, some address => some { address := address, port := port }
      | _, _ => none

/-! ## Observations used in the statements -/

/-- The node after its storage received a block with the given hash and balance. -/
def node.with_block (n : node) (hash balance : Nat) : node :=
  { n with block_exists := fun x => if x = hash then true else n.block_exists x,
           balance := fun x => if x = hash then balance else n.balance x }

/-- The count recorded in the destinations container for an account, zero when the account
has no entry. -/
def destinations_count (l : List lazy_destinations_item) (a : account) : Nat :=
  match l.find? (fun e => e.account == a) with
  | some e => e.count
  | none => 0

/-- The invariant of the `hashed_unique` account index: no two items share an account. -/
def destinations_unique (l : List lazy_destinations_item) : Prop :=
  (l.map (fun e => e.account)).Nodup

instance (l : List lazy_destinations_item) : Decidable (destinations_unique l) := by
  unfold destinations_unique; infer_instance

/-- The node with another content of its storage; flags and constants are those of `n`.
The block processor fills the storage while the attempt runs, so every member function
may meet a different storage. -/
def node.with_storage (n : node) (block_exists : block_hash → Bool)
    (balance : block_hash → Nat) : node :=
  { n with block_exists := block_exists, balance := balance }

/-- What every member function but `lazy_start` and `lazy_finished` does to the seeds
and the destinations: the seeds stay, the accounts of the destinations stay unique. -/
def keeps (s t : bootstrap_attempt_lazy) : Prop :=
  t.lazy_keys = s.lazy_keys
    ∧ (destinations_unique s.lazy_destinations → destinations_unique t.lazy_destinations)

/-- The producer side of the ring run `count` times over: allocate a slot and enqueue it
(a call that finds no slot enqueues nothing). -/
def message_buffer_manager.fill : Nat → message_buffer_manager → message_buffer_manager
  | 0, m => m
  | count + 1, m =>
    match m.allocate with
    | (some slot, m1) => message_buffer_manager.fill count (m1.enqueue slot)
    | (none, m1) => message_buffer_manager.fill count m1

/-- The results of `count` successive `allocate ()` calls, first call first, and the ring
after them. -/
def message_buffer_manager.allocate_times :
    Nat → message_buffer_manager → List (Option Nat) × message_buffer_manager
  | 0, m => ([], m)
  | count + 1, m =>
    let r := message_buffer_manager.allocate_times count m.allocate.2
    (m.allocate.1 :: r.1, r.2)

/-- The invariant of the `ordered_non_unique` count index with `std::greater`: counts do
not increase along the container. -/
def destinations_sorted (l : List lazy_destinations_item) : Prop :=
  l.Pairwise (fun x y => y.count ≤ x.count)

instance (l : List lazy_destinations_item) : Decidable (destinations_sorted l) := by
  unfold destinations_sorted; infer_instance

/-- What every member function but `lazy_blocks_insert` and `lazy_blocks_erase` does to
the processed set, the undefined links, the backlog and the order of the destinations: the
processed set and its counter stay, no undefined link is forgotten, a new backlog entry
waits for a block that is not processed, and the destinations stay ordered by count. -/
def quiet (n : node) (s t : bootstrap_attempt_lazy) : Prop :=
  t.lazy_blocks = s.lazy_blocks ∧ t.lazy_blocks_count = s.lazy_blocks_count
    ∧ (∀ l ∈ s.lazy_undefined_links, l ∈ t.lazy_undefined_links)
    ∧ (∀ e ∈ t.lazy_state_backlog,
        e ∈ s.lazy_state_backlog ∨ lazy_blocks_processed n s e.1 = false)
    ∧ (destinations_sorted s.lazy_destinations → destinations_sorted t.lazy_destinations)

/-- A sequence of `lazy_blocks_insert` (flag `true`) and `lazy_blocks_erase` (flag `false`)
calls, first call first. -/
def lazy_blocks_calls (n : node) :
    List (Bool × block_hash) → bootstrap_attempt_lazy → bootstrap_attempt_lazy
  | [], s => s
  | (true, hash_a) :: rest, s => lazy_blocks_calls n rest (lazy_blocks_insert n s hash_a)
  | (false, hash_a) :: rest, s => lazy_blocks_calls n rest (lazy_blocks_erase n s hash_a)

/-- The hashes a block shows to the attempt: its own and, unless it is zero, that of its
predecessor. -/
def block_hashes (block_a : block) : List block_hash :=
  block_a.hash :: (if block_a.previous = 0 then [] else [block_a.previous])

/-- The hashes of the blocks in a list of items handed to the block processor. -/
def hashes_seen_of : List unchecked_info → List block_hash
  | [] => []
  | item :: rest => block_hashes item.block ++ hashes_seen_of rest

/-- The hashes an attempt has seen: those of the blocks `process_block_lazy` took as new,
each of which it handed to the block processor. -/
def hashes_seen (s : bootstrap_attempt_lazy) : List block_hash :=
  hashes_seen_of s.block_processor

/-- What every member function but `process_block` and `lazy_requeue` does to the blocks
handed to the block processor, the processed set and the backlog: nothing is handed over,
the processed set stays and no backlog entry is added. -/
def calm (s t : bootstrap_attempt_lazy) : Prop :=
  t.block_processor = s.block_processor ∧ t.lazy_blocks = s.lazy_blocks
    ∧ ∀ e ∈ t.lazy_state_backlog, e ∈ s.lazy_state_backlog

/-! ## Concrete nodes and attempts -/

/-- A node with legacy bootstrap available (the default flags): block 10 is in storage
with balance 100, 99 is an epoch link, 1 is the genesis account. -/
def node_legacy : node :=
  { block_exists := fun h => decide (h = 10),
    balance := fun h => if h = 10 then 100 else 0,
    is_epoch_link := fun h => decide (h = 99),
    genesis_account := 1,
    disable_legacy_bootstrap := false,
    lazy_max_pull_blocks := 512,
    lazy_min_pull_blocks := 32,
    lazy_retry_limit := 160,
    lazy_destinations_retry_limit := 4,
    bootstrap_connection_scale_target_blocks_lazy := 1,
    lazy_batch_pull_count_resize_blocks_limit := 4194304,
    lazy_blocks_restart_limit := 1048576,
    lazy_destinations_request_limit := 262144,
    hash_digest := fun h => h % 2 ^ 64,
    batch_count_resized := fun _ _ => 32 }

/-- The same node started with legacy bootstrap disabled. -/
def node_lazy_only : node :=
  { node_legacy with disable_legacy_bootstrap := true }

/-- A lazy attempt that has not received anything yet. -/
def attempt_fresh : bootstrap_attempt_lazy :=
  { mode := bootstrap_mode.lazy, stopped := false, pulls := [], pulling := 0,
    requeued_pulls := 0, total_blocks := 0, lazy_blocks := [], lazy_state_backlog := [],
    lazy_undefined_links := [], lazy_balances := [], lazy_keys := [], lazy_pulls := [],
    lazy_start_time := 0, last_lazy_flush := 0, lazy_destinations := [],
    lazy_blocks_count := 0, lazy_destinations_flushed := false, cache := [],
    block_processor := [], bulk_pull_failed_account := 0 }

/-- An attempt whose backlog holds one deferred state block: it waits for block 7, has
link 3, balance 50 and retry limit 2. -/
def attempt_backlog : bootstrap_attempt_lazy :=
  { attempt_fresh with
      lazy_state_backlog := [(7, { link := 3, balance := 50, retry_limit := 2 })] }

/-- The same attempt after block 3 was received through another pull. -/
def attempt_backlog_link_seen : bootstrap_attempt_lazy :=
  { attempt_backlog with lazy_blocks := [3], lazy_blocks_count := 1 }

/-- An attempt whose only seed, block 10, is in the storage of `node_legacy`, with the
pull `(5, 2)` still waiting. -/
def attempt_seed_stored : bootstrap_attempt_lazy :=
  { attempt_fresh with lazy_keys := [10], lazy_pulls := [(5, 2)] }

/-- An attempt whose only seed, block 5, is in no storage, with nothing left to pull. -/
def attempt_seed_missing : bootstrap_attempt_lazy :=
  { attempt_fresh with lazy_keys := [5] }

/-- A pull for head 5, which `node_legacy` does not store: two attempts made, retry
limit 5, nothing processed. -/
def pull_fresh_head : pull_info :=
  { account_or_head := 5, head := 5, head_original := 5, «end» := 0, count := 512,
    attempts := 2, processed := 0, retry_limit := 5 }

/-- A pull for head 10, which `node_legacy` stores: no attempt made, retry limit 5, three
blocks processed. -/
def pull_known_head : pull_info :=
  { account_or_head := 10, head := 10, head_original := 10, «end» := 0, count := 512,
    attempts := 0, processed := 3, retry_limit := 5 }

/-- A pull for head 3 that used up its retry limit of 2 after one processed block. -/
def pull_exhausted : pull_info :=
  { account_or_head := 3, head := 3, head_original := 3, «end» := 0, count := 512,
    attempts := 5, processed := 1, retry_limit := 2 }

/-- An attempt with two pulls queued and three new hashes waiting in `lazy_pulls`. -/
def attempt_pulls_waiting : bootstrap_attempt_lazy :=
  { attempt_fresh with
      pulls := [pull_fresh_head, pull_exhausted],
      lazy_pulls := [(20, 1), (21, 1), (22, 1)] }

/-- An attempt that already holds the seed 5, requested unconfirmed. -/
def attempt_seeded : bootstrap_attempt_lazy :=
  { attempt_fresh with lazy_keys := [5], lazy_pulls := [(5, 160)] }

/-- A node with legacy bootstrap disabled whose restart limit is one block. -/
def node_lazy_only_small : node :=
  { node_lazy_only with lazy_blocks_restart_limit := 1 }

/-- An attempt that received the blocks 3 and 7 and started at time 0. -/
def attempt_two_blocks : bootstrap_attempt_lazy :=
  { attempt_fresh with lazy_blocks := [3, 7], lazy_blocks_count := 2 }

/-- An attempt whose backlog holds a deferred state block that waits for block 7 and has
link 8, balance 50 and retry limit 2. -/
def attempt_backlog_same_destination : bootstrap_attempt_lazy :=
  { attempt_fresh with
      lazy_state_backlog := [(7, { link := 8, balance := 50, retry_limit := 2 })] }

/-- An attempt that recorded the balance 30 for block 6. -/
def attempt_previous_balance : bootstrap_attempt_lazy :=
  { attempt_fresh with lazy_blocks := [6], lazy_blocks_count := 1, lazy_balances := [(6, 30)] }

/-- A wallet attempt with nothing queued and nothing in flight. -/
def wallet_empty : bootstrap_attempt_wallet :=
  { mode := bootstrap_mode.wallet_lazy, stopped := false, pulling := 0, wallet_accounts := [] }

/-- A wallet attempt in which the accounts 1 and 2 wait, in this order. -/
def wallet_two_accounts : bootstrap_attempt_wallet :=
  { wallet_empty with wallet_accounts := [1, 2] }

/-- A pull for head 5 with the unlimited retry sentinel, whose counters are at the maximum
of their types. -/
def pull_unlimited : pull_info :=
  { account_or_head := 5, head := 5, head_original := 5, «end» := 0, count := 512,
    attempts := 2 ^ 32 - 1, processed := 2 ^ 64 - 1, retry_limit := unsigned_max }

/-- An attempt with the pull for head 5 waiting in `pulls` and the hashes 5, 20 and 20
queued in `lazy_pulls`. -/
def attempt_pulls_repeated : bootstrap_attempt_lazy :=
  { attempt_fresh with pulls := [pull_fresh_head], lazy_pulls := [(5, 2), (20, 1), (20, 1)] }

/-- A node with legacy bootstrap disabled that requests two destinations per flush. -/
def node_lazy_only_two_requests : node :=
  { node_lazy_only with lazy_destinations_request_limit := 2 }

/-- An attempt that received block 9 and counts three sends to account 8, two to
account 9 and one to account 4. -/
def attempt_destinations : bootstrap_attempt_lazy :=
  { attempt_fresh with
      lazy_blocks := [9], lazy_blocks_count := 1,
      lazy_destinations := [{ account := 8, count := 3 }, { account := 9, count := 2 },
        { account := 4, count := 1 }] }

/-- An attempt that counts 2^64 - 1 sends to account 8, the largest count the container
can hold, and one send to account 4. -/
def attempt_destination_full : bootstrap_attempt_lazy :=
  { attempt_fresh with
      lazy_destinations := [{ account := 8, count := 2 ^ 64 - 1 }, { account := 4, count := 1 }] }

/-! ## Reachable attempts -/

/-- One call of a member function of the lazy attempt, made by the node `n` with whatever
its storage holds at that moment.  `lazy_run_start` is the assignment of `lazy_start_time`
at the head of `lazy_run`, `stop` the setting of the `stopped` flag. -/
inductive step (n : node) : bootstrap_attempt_lazy → bootstrap_attempt_lazy → Prop where
  | lazy_start (e : block_hash → Bool) (b : block_hash → Nat) (s : bootstrap_attempt_lazy)
      (hash_or_account_a : block_hash) (confirmed : Bool) :
      step n s (lazy_start (n.with_storage e b) s hash_or_account_a confirmed)
  | lazy_finished (e : block_hash → Bool) (b : block_hash → Nat) (s : bootstrap_attempt_lazy) :
      step n s (lazy_finished (n.with_storage e b) s).2
  | process_block (e : block_hash → Bool) (b : block_hash → Nat) (s : bootstrap_attempt_lazy)
      (block_a : block) (known_account_a : account) (pull_blocks max_blocks : Nat)
      (block_expected : Bool) (retry_limit : Nat) :
      step n s (process_block (n.with_storage e b) s block_a known_account_a pull_blocks
        max_blocks block_expected retry_limit).2
  | requeue_pull_lazy (e : block_hash → Bool) (b : block_hash → Nat)
      (s : bootstrap_attempt_lazy) (pull_a : pull_info) (network_error : Bool) :
      step n s (requeue_pull_lazy (n.with_storage e b) s pull_a network_error)
  | lazy_requeue (e : block_hash → Bool) (b : block_hash → Nat) (s : bootstrap_attempt_lazy)
      (hash_a previous_a : block_hash) (confirmed_a : Bool) :
      step n s (lazy_requeue (n.with_storage e b) s hash_a previous_a confirmed_a)
  | lazy_pull_flush (e : block_hash → Bool) (b : block_hash → Nat) (now : Nat)
      (s : bootstrap_attempt_lazy) :
      step n s (lazy_pull_flush (n.with_storage e b) now s)
  | lazy_backlog_cleanup (e : block_hash → Bool) (b : block_hash → Nat)
      (s : bootstrap_attempt_lazy) :
      step n s (lazy_backlog_cleanup (n.with_storage e b) s)
  | lazy_destinations_flush (e : block_hash → Bool) (b : block_hash → Nat)
      (s : bootstrap_attempt_lazy) :
      step n s (lazy_destinations_flush (n.with_storage e b) s)
  | request_pull_lazy (e : block_hash → Bool) (b : block_hash → Nat) (connection_l : Bool)
      (s : bootstrap_attempt_lazy) :
      step n s (request_pull_lazy (n.with_storage e b) connection_l s).2
  | lazy_run_start (now : Nat) (s : bootstrap_attempt_lazy) :
      step n s { s with lazy_start_time := now }
  | stop (s : bootstrap_attempt_lazy) : step n s { s with stopped := true }

/-- The attempts a node can bring about: the attempt as its constructor leaves it, created
at any time, followed by any sequence of calls. -/
inductive reachable (n : node) : bootstrap_attempt_lazy → Prop where
  | start (now : Nat) : reachable n { attempt_fresh with last_lazy_flush := now }
  | next {s t : bootstrap_attempt_lazy} : reachable n s → step n s t → reachable n t

/-! ## The destinations container -/

theorem destinations_link_split (item : lazy_destinations_item)
    (l : List lazy_destinations_item) :
    ∃ l1 l2, l = l1 ++ l2 ∧ destinations_link item l = l1 ++ item :: l2 := by
  induction l with
  | nil => exact ⟨[], [], rfl, rfl⟩
  | cons e rest ih =>
    unfold destinations_link
    by_cases h : item.count > e.count
    · exact ⟨[], e :: rest, rfl, by simp [h]⟩
    · obtain ⟨l1, l2, h1, h2⟩ := ih
      refine ⟨e :: l1, l2, by simp [h1], ?_⟩
      simp only [h, if_false, h2, List.cons_append]

theorem destinations_modify_split (a : account) :
    ∀ (l before : List lazy_destinations_item), (∃ e ∈ l, e.account = a) →
      ∃ e l1 l2 m1 m2, l = l1 ++ e :: l2 ∧ e.account = a ∧ (∀ x ∈ l1, x.account ≠ a)
        ∧ before.reverse ++ (l1 ++ l2) = m1 ++ m2
        ∧ destinations_modify a before l
            = m1 ++ ({ account := a, count := (e.count + 1) % 2 ^ 64 } : lazy_destinations_item) :: m2 := by
  intro l
  induction l with
  | nil => intro before h; obtain ⟨e, he, _⟩ := h; cases he
  | cons e rest ih =>
    intro before h
    by_cases hea : e.account = a
    · simp only [destinations_modify, hea, if_true]
      split
      · exact ⟨e, [], rest, before.reverse, rest, rfl, hea, by simp, by simp, rfl⟩
      · obtain ⟨m1, m2, h1, h2⟩ :=
          destinations_link_split { account := a, count := (e.count + 1) % 2 ^ 64 } (before.reverse ++ rest)
        exact ⟨e, [], rest, m1, m2, rfl, hea, by simp, by simpa using h1, h2⟩
    · have h' : ∃ x ∈ rest, x.account = a := by
        obtain ⟨x, hx, hxa⟩ := h
        rcases List.mem_cons.mp hx with rfl | hx
        · exact absurd hxa hea
        · exact ⟨x, hx, hxa⟩
      obtain ⟨x, l1, l2, m1, m2, h1, h2, h3, h4, h5⟩ := ih (e :: before) h'
      refine ⟨x, e :: l1, l2, m1, m2, by simp [h1], h2, ?_, ?_, ?_⟩
      · intro y hy
        rcases List.mem_cons.mp hy with rfl | hy
        · exact hea
        · exact h3 y hy
      · simpa using h4
      · simp only [destinations_modify, hea, if_false]
        exact h5

theorem destinations_count_skip (x : lazy_destinations_item) (b : account)
    (hx : x.account ≠ b) (m1 m2 : List lazy_destinations_item) :
    destinations_count (m1 ++ x :: m2) b = destinations_count (m1 ++ m2) b := by
  have hp : (x.account == b) = false := by simpa using hx
  simp [destinations_count, List.find?_append, List.find?_cons, hp]

theorem destinations_count_absent (l : List lazy_destinations_item) (a : account)
    (h : ∀ x ∈ l, x.account ≠ a) : destinations_count l a = 0 := by
  have : l.find? (fun e => e.account == a) = none := by
    rw [List.find?_eq_none]
    intro x hx
    simpa using h x hx
  simp [destinations_count, this]

theorem destinations_count_inserted (item : lazy_destinations_item)
    (m1 m2 : List lazy_destinations_item) (h : ∀ x ∈ m1, x.account ≠ item.account) :
    destinations_count (m1 ++ item :: m2) item.account = item.count := by
  have : m1.find? (fun e => e.account == item.account) = none := by
    rw [List.find?_eq_none]
    intro x hx
    simpa using h x hx
  simp [destinations_count, List.find?_append, List.find?_cons, this]

theorem destinations_unique_inserted (item : lazy_destinations_item)
    (m1 m2 : List lazy_destinations_item) (hu : destinations_unique (m1 ++ m2))
    (h : ∀ x ∈ m1 ++ m2, x.account ≠ item.account) :
    destinations_unique (m1 ++ item :: m2) := by
  unfold destinations_unique at *
  have hperm : (m1 ++ item :: m2).Perm (item :: (m1 ++ m2)) := List.perm_middle
  rw [(hperm.map _).nodup_iff]
  simp only [List.map_cons, List.nodup_cons]
  refine ⟨?_, hu⟩
  intro hmem
  obtain ⟨x, hx, hxa⟩ := List.mem_map.mp hmem
  exact h x hx hxa

/-- With legacy bootstrap disabled, `lazy_destinations_increment` raises the count of its
account by one in `uint64_t` (from zero when the account had no entry), leaves every other
count as it was, keeps the accounts unique and touches no other member. -/
theorem lazy_destinations_increment_enabled (n : node) (s : bootstrap_attempt_lazy)
    (a : account) (hflag : n.disable_legacy_bootstrap = true)
    (hu : destinations_unique s.lazy_destinations) :
    destinations_count (lazy_destinations_increment n s a).lazy_destinations a
        = (destinations_count s.lazy_destinations a + 1) % 2 ^ 64
      ∧ (∀ b, b ≠ a → destinations_count (lazy_destinations_increment n s a).lazy_destinations b
          = destinations_count s.lazy_destinations b)
      ∧ destinations_unique (lazy_destinations_increment n s a).lazy_destinations
      ∧ lazy_destinations_increment n s a
          = { s with lazy_destinations := (lazy_destinations_increment n s a).lazy_destinations } := by
  by_cases hany : s.lazy_destinations.any (fun e => e.account == a) = true
  · have hex : ∃ e ∈ s.lazy_destinations, e.account = a := by
      obtain ⟨e, he, hea⟩ := List.any_eq_true.mp hany
      exact ⟨e, he, by simpa using hea⟩
    obtain ⟨e, l1, l2, m1, m2, h1, h2, h3, h4, h5⟩ :=
      destinations_modify_split a s.lazy_destinations [] hex
    have hres : (lazy_destinations_increment n s a).lazy_destinations
        = m1 ++ ({ account := a, count := (e.count + 1) % 2 ^ 64 } : lazy_destinations_item) :: m2 := by
      simp [lazy_destinations_increment, hflag, hany, h5]
    have h4' : l1 ++ l2 = m1 ++ m2 := by simpa using h4
    have hu' : destinations_unique (l1 ++ e :: l2) := h1 ▸ hu
    have hno : ∀ x ∈ l1 ++ l2, x.account ≠ a := by
      intro x hx
      rcases List.mem_append.mp hx with hx | hx
      · exact h3 x hx
      · intro hxa
        unfold destinations_unique at hu'
        rw [List.map_append, List.map_cons, List.nodup_append] at hu'
        have := (List.nodup_cons.mp hu'.2.1).1
        exact this (List.mem_map.mpr ⟨x, hx, by rw [hxa, h2]⟩)
    have hu2 : destinations_unique (l1 ++ l2) := by
      unfold destinations_unique at hu' ⊢
      have hperm : (l1 ++ e :: l2).Perm (e :: (l1 ++ l2)) := List.perm_middle
      rw [(hperm.map _).nodup_iff, List.map_cons, List.nodup_cons] at hu'
      exact hu'.2
    refine ⟨?_, ?_, ?_, ?_⟩
    · rw [hres]
      have hc := destinations_count_inserted
        ({ account := a, count := (e.count + 1) % 2 ^ 64 } : lazy_destinations_item) m1 m2
        (fun x hx => hno x (h4' ▸ List.mem_append_left m2 hx))
      simp only at hc
      rw [hc, h1]
      have := destinations_count_inserted e l1 l2 (fun x hx => h2 ▸ h3 x hx)
      rw [h2] at this
      rw [this]
    · intro b hb
      rw [hres, h1, destinations_count_skip _ b (fun h => hb h.symm) m1 m2,
        destinations_count_skip e b (fun h => hb (h2 ▸ h).symm) l1 l2, h4']
    · rw [hres]
      exact destinations_unique_inserted _ m1 m2 (h4' ▸ hu2) (fun x hx => hno x (h4' ▸ hx))
    · simp [lazy_destinations_increment, hflag, hany]
  · have hany' : s.lazy_destinations.any (fun e => e.account == a) = false := by
      simpa using hany
    have hno : ∀ x ∈ s.lazy_destinations, x.account ≠ a := by
      intro x hx hxa
      exact hany (List.any_eq_true.mpr ⟨x, hx, by simpa using hxa⟩)
    obtain ⟨m1, m2, h1, h2⟩ :=
      destinations_link_split { account := a, count := 1 } s.lazy_destinations
    have hres : (lazy_destinations_increment n s a).lazy_destinations
        = m1 ++ ({ account := a, count := 1 } : lazy_destinations_item) :: m2 := by
      simp [lazy_destinations_increment, hflag, hany', destinations_emplace, h2]
    refine ⟨?_, ?_, ?_, ?_⟩
    · rw [hres, destinations_count_absent _ a hno]
      have hc := destinations_count_inserted
        ({ account := a, count := 1 } : lazy_destinations_item) m1 m2
        (fun x hx => hno x (h1 ▸ List.mem_append_left m2 hx))
      simpa using hc
    · intro b hb
      rw [hres, destinations_count_skip _ b (fun h => hb h.symm) m1 m2, ← h1]
    · rw [hres]
      exact destinations_unique_inserted _ m1 m2 (h1 ▸ hu) (fun x hx => hno x (h1 ▸ hx))
    · simp [lazy_destinations_increment, hflag, hany']

/-- With legacy bootstrap available, `lazy_destinations_increment` does nothing. -/
theorem lazy_destinations_increment_disabled (n : node) (s : bootstrap_attempt_lazy)
    (a : account) (hflag : n.disable_legacy_bootstrap = false) :
    lazy_destinations_increment n s a = s := by
  simp [lazy_destinations_increment, hflag]

/-! ## State-block subtype resolution -/

/-- C1, as the code has it: for a state block whose link is non-zero, not an epoch link,
not processed in this attempt and not in storage, `lazy_block_state` appends
`(link, retry_limit)` at the tail of `lazy_pulls` and changes nothing else when previous is
zero or is in storage with a balance not above the block's balance.  When previous is
non-zero and in storage with a greater balance, nothing is queued; the count of `link` is
raised by one in `uint64_t`, that is modulo 2^64 (and nothing else changes), when legacy
bootstrap is disabled, and the attempt is left as it was when legacy bootstrap is
available. -/
theorem lazy_block_state_storage_subtype (n : node) (s : bootstrap_attempt_lazy)
    (hash previous balance link retry_limit : Nat)
    (hlink : link ≠ 0) (hepoch : n.is_epoch_link link = false)
    (hproc : lazy_blocks_processed n s link = false) (hstore : n.block_exists link = false) :
    ((previous = 0 ∨ (n.block_exists previous = true ∧ n.balance previous ≤ balance)) →
        lazy_block_state n s (block.state hash previous balance link) retry_limit
          = { s with lazy_pulls := s.lazy_pulls ++ [(link, retry_limit)] })
      ∧ (previous ≠ 0 → n.block_exists previous = true → balance < n.balance previous →
          (n.disable_legacy_bootstrap = false →
            lazy_block_state n s (block.state hash previous balance link) retry_limit = s)
          ∧ (n.disable_legacy_bootstrap = true → destinations_unique s.lazy_destinations →
            (lazy_block_state n s (block.state hash previous balance link) retry_limit).lazy_pulls
                = s.lazy_pulls
              ∧ destinations_count (lazy_block_state n s (block.state hash previous balance link)
                  retry_limit).lazy_destinations link
                = (destinations_count s.lazy_destinations link + 1) % 2 ^ 64
              ∧ (∀ b, b ≠ link →
                  destinations_count (lazy_block_state n s (block.state hash previous balance link)
                    retry_limit).lazy_destinations b
                  = destinations_count s.lazy_destinations b)
              ∧ lazy_block_state n s (block.state hash previous balance link) retry_limit
                = { s with lazy_destinations :=
                      (lazy_block_state n s (block.state hash previous balance link)
                        retry_limit).lazy_destinations })) := by
  have hguard : link ≠ 0 ∧ n.is_epoch_link link = false ∧ lazy_blocks_processed n s link = false
      ∧ n.block_exists link = false := ⟨hlink, hepoch, hproc, hstore⟩
  constructor
  · rintro (hp | ⟨hex, hbal⟩)
    · simp [lazy_block_state, hguard, hp, lazy_add, hproc]
    · by_cases hp : previous = 0
      · simp [lazy_block_state, hguard, hp, lazy_add, hproc]
      · simp [lazy_block_state, hguard, hp, hex, hbal, lazy_add, hproc]
  · intro hp hex hbal
    have hnle : ¬ n.balance previous ≤ balance := Nat.not_le.mpr hbal
    have hstep : lazy_block_state n s (block.state hash previous balance link) retry_limit
        = lazy_destinations_increment n s link := by
      simp [lazy_block_state, hguard, hp, hex, hnle]
    rw [hstep]
    constructor
    · intro hflag
      exact lazy_destinations_increment_disabled n s link hflag
    · intro hflag hu
      obtain ⟨h1, h2, _, h4⟩ := lazy_destinations_increment_enabled n s link hflag hu
      refine ⟨?_, h1, h2, h4⟩
      rw [h4]

theorem lazy_block_state_storage_subtype_witness :
    lazy_block_state node_lazy_only attempt_fresh (block.state 7 0 50 3) 2
        = { attempt_fresh with lazy_pulls := attempt_fresh.lazy_pulls ++ [(3, 2)] }
      ∧ destinations_count
          (lazy_block_state node_lazy_only attempt_fresh (block.state 7 10 50 3) 2).lazy_destinations 3
        = (destinations_count attempt_fresh.lazy_destinations 3 + 1) % 2 ^ 64 :=
  ⟨(lazy_block_state_storage_subtype node_lazy_only attempt_fresh 7 0 50 3 2
      (by decide) (by decide) (by decide) (by decide)).1 (Or.inl rfl),
   ((lazy_block_state_storage_subtype node_lazy_only attempt_fresh 7 10 50 3 2
      (by decide) (by decide) (by decide) (by decide)).2 (by decide) (by decide) (by decide)).2
      (by decide) (by decide) |>.2.1⟩

/-- C1 fails as stated: with legacy bootstrap available, a state block that is a send
(previous 10 is in storage with balance 100, the block has balance 50) leaves the count of
its link 3 at zero. -/
theorem lazy_block_state_send_count_not_raised :
    (3 ≠ 0 ∧ node_legacy.is_epoch_link 3 = false
      ∧ lazy_blocks_processed node_legacy attempt_fresh 3 = false
      ∧ node_legacy.block_exists 3 = false
      ∧ node_legacy.block_exists 10 = true ∧ 50 < node_legacy.balance 10)
    ∧ ¬ (destinations_count
          (lazy_block_state node_legacy attempt_fresh (block.state 7 10 50 3) 2).lazy_destinations 3
        = destinations_count attempt_fresh.lazy_destinations 3 + 1) := by
  decide

/-! ## Processing one block -/

theorem lazy_add_pulls (n : node) (s : bootstrap_attempt_lazy) (h r : Nat) :
    lazy_add n s h r
      = { s with lazy_pulls :=
            s.lazy_pulls ++ (if lazy_blocks_processed n s h then [] else [(h, r)]) } := by
  unfold lazy_add
  cases lazy_blocks_processed n s h <;> simp

theorem lazy_destinations_increment_frame (n : node) (s : bootstrap_attempt_lazy) (a : account) :
    lazy_destinations_increment n s a
      = { s with lazy_destinations := (lazy_destinations_increment n s a).lazy_destinations } := by
  unfold lazy_destinations_increment
  split
  · split <;> rfl
  · rfl

theorem backlog_check_pulls (n : node) (s : bootstrap_attempt_lazy) (block_a : block)
    (hash_a : block_hash) :
    ∃ rest, (lazy_block_state_backlog_check n s block_a hash_a).lazy_pulls = s.lazy_pulls ++ rest
      ∧ rest.length ≤ 1 ∧ (map_find hash_a s.lazy_state_backlog = none → rest = []) := by
  unfold lazy_block_state_backlog_check
  cases hfind : map_find hash_a s.lazy_state_backlog with
  | none => exact ⟨[], by simp, by simp, fun _ => rfl⟩
  | some next_block =>
    simp only
    split
    · split
      · rw [lazy_add_pulls]
        refine ⟨_, rfl, ?_, by simp⟩
        split <;> simp
      · rw [lazy_destinations_increment_frame]
        exact ⟨[], by simp, by simp, by simp⟩
    · split
      · rw [lazy_add_pulls]
        refine ⟨_, rfl, ?_, by simp⟩
        split <;> simp
      · exact ⟨[], by simp, by simp, by simp⟩

theorem lazy_blocks_insert_frame (n : node) (s : bootstrap_attempt_lazy) (h : block_hash) :
    (lazy_blocks_insert n s h).lazy_pulls = s.lazy_pulls
      ∧ (lazy_blocks_insert n s h).lazy_state_backlog = s.lazy_state_backlog
      ∧ (lazy_blocks_insert n s h).lazy_destinations = s.lazy_destinations
      ∧ (lazy_blocks_insert n s h).lazy_balances = s.lazy_balances
      ∧ (lazy_blocks_insert n s h).lazy_undefined_links = s.lazy_undefined_links
      ∧ (lazy_blocks_insert n s h).block_processor = s.block_processor := by
  unfold lazy_blocks_insert
  split <;> simp

theorem process_block_lazy_balances_frame (s : bootstrap_attempt_lazy) (block_a : block)
    (h : block_hash) (pull_blocks : Nat) :
    (process_block_lazy_balances s block_a h pull_blocks).lazy_pulls = s.lazy_pulls
      ∧ (process_block_lazy_balances s block_a h pull_blocks).lazy_state_backlog
          = s.lazy_state_backlog
      ∧ (process_block_lazy_balances s block_a h pull_blocks).lazy_destinations
          = s.lazy_destinations
      ∧ (process_block_lazy_balances s block_a h pull_blocks).lazy_blocks = s.lazy_blocks
      ∧ (process_block_lazy_balances s block_a h pull_blocks).lazy_undefined_links
          = s.lazy_undefined_links
      ∧ (process_block_lazy_balances s block_a h pull_blocks).block_processor
          = s.block_processor := by
  unfold process_block_lazy_balances
  simp only
  split <;> split <;> simp

/-- The attempt a new block leaves behind, step by step. -/
theorem process_block_lazy_new (n : node) (s : bootstrap_attempt_lazy) (block_a : block)
    (known_account_a : account) (pull_blocks max_blocks retry_limit : Nat)
    (hnew : lazy_blocks_processed n s block_a.hash = false) :
    (process_block_lazy n s block_a known_account_a pull_blocks max_blocks retry_limit).2
      = { lazy_block_state_backlog_check n
            (process_block_lazy_balances
              (lazy_blocks_insert n (process_block_lazy_dependencies n s block_a retry_limit)
                block_a.hash)
              block_a block_a.hash pull_blocks)
            block_a block_a.hash with
          block_processor :=
            (lazy_block_state_backlog_check n
              (process_block_lazy_balances
                (lazy_blocks_insert n (process_block_lazy_dependencies n s block_a retry_limit)
                  block_a.hash)
                block_a block_a.hash pull_blocks)
              block_a block_a.hash).block_processor ++
            [{ block := block_a, account := known_account_a, modified := 0,
               confirmed := decide (retry_limit = unsigned_max) }] } := by
  simp [process_block_lazy, hnew]

/-- C2, as the code has it: for a block not yet processed in this attempt whose source is
non-zero, not in the ledger, not processed in this attempt and not the genesis account,
`process_block_lazy` appends `(source, retry_limit)` behind the entries `lazy_pulls` held;
only the backlog check of the same block can queue one more entry behind it. -/
theorem process_block_lazy_queues_source (n : node) (s : bootstrap_attempt_lazy)
    (block_a : block) (known_account_a : account) (pull_blocks max_blocks retry_limit : Nat)
    (hnew : lazy_blocks_processed n s block_a.hash = false)
    (hsrc : block_a.source ≠ 0)
    (hledger : n.block_exists block_a.source = false)
    (hproc : lazy_blocks_processed n s block_a.source = false)
    (hgen : block_a.source ≠ n.genesis_account) :
    ∃ rest,
      (process_block_lazy n s block_a known_account_a pull_blocks max_blocks retry_limit).2.lazy_pulls
          = s.lazy_pulls ++ (block_a.source, retry_limit) :: rest
        ∧ rest.length ≤ 1
        ∧ (map_find block_a.hash s.lazy_state_backlog = none → rest = []) := by
  have hdep : process_block_lazy_dependencies n s block_a retry_limit
      = lazy_add n s block_a.source retry_limit := by
    simp [process_block_lazy_dependencies, hsrc, hledger, hgen]
  have hadd : lazy_add n s block_a.source retry_limit
      = { s with lazy_pulls := s.lazy_pulls ++ [(block_a.source, retry_limit)] } := by
    rw [lazy_add_pulls, hproc]; rfl
  rw [process_block_lazy_new n s block_a known_account_a pull_blocks max_blocks retry_limit hnew,
    hdep]
  obtain ⟨rest, hr1, hr2, hr3⟩ := backlog_check_pulls n
    (process_block_lazy_balances (lazy_blocks_insert n (lazy_add n s block_a.source retry_limit)
      block_a.hash) block_a block_a.hash pull_blocks) block_a block_a.hash
  have hb := process_block_lazy_balances_frame
    (lazy_blocks_insert n (lazy_add n s block_a.source retry_limit) block_a.hash)
    block_a block_a.hash pull_blocks
  have hi := lazy_blocks_insert_frame n (lazy_add n s block_a.source retry_limit) block_a.hash
  refine ⟨rest, ?_, hr2, ?_⟩
  · show (lazy_block_state_backlog_check n _ block_a block_a.hash).lazy_pulls = _
    rw [hr1, hb.1, hi.1, hadd]
    simp
  · intro hnone
    apply hr3
    rw [hb.2.1, hi.2.1, hadd]
    exact hnone

theorem process_block_lazy_queues_source_witness :
    ∃ rest,
      (process_block_lazy node_legacy attempt_fresh (block.receive 7 6 5) 0 0 512 2).2.lazy_pulls
          = attempt_fresh.lazy_pulls ++ ((block.receive 7 6 5).source, 2) :: rest
        ∧ rest.length ≤ 1
        ∧ (map_find (block.receive 7 6 5).hash attempt_fresh.lazy_state_backlog = none
            → rest = []) :=
  process_block_lazy_queues_source node_legacy attempt_fresh (block.receive 7 6 5) 0 0 512 2
    (by decide) (by decide) (by decide) (by decide) (by decide)

/-- C2 fails as stated: the open block of the genesis account names the genesis account 1
as its source; that source is non-zero, not in the ledger and not processed in this
attempt, yet nothing is queued. -/
theorem process_block_lazy_genesis_source_not_queued :
    (lazy_blocks_processed node_legacy attempt_fresh (block.open_ 7 1).hash = false
      ∧ (block.open_ 7 1).source ≠ 0
      ∧ node_legacy.block_exists (block.open_ 7 1).source = false
      ∧ lazy_blocks_processed node_legacy attempt_fresh (block.open_ 7 1).source = false)
    ∧ (process_block_lazy node_legacy attempt_fresh (block.open_ 7 1) 0 0 512 2).2.lazy_pulls
        = attempt_fresh.lazy_pulls := by
  decide

/-! ## The state backlog -/

theorem map_find_erase_self {β : Type} (k : block_hash) (m : List (block_hash × β)) :
    map_find k (map_erase k m) = none := by
  unfold map_find map_erase
  rw [List.lookup_eq_none_iff]
  intro p hp
  have h2 := (List.mem_filter.mp hp).2
  simp only [bne_iff_ne, ne_eq] at h2 ⊢
  exact fun h => h2 h.symm

theorem map_find_emplace_of_found {β : Type} (k k2 : block_hash) (v v2 : β)
    (m : List (block_hash × β)) (h : map_find k m = some v) :
    map_find k (map_emplace k2 v2 m) = some v := by
  unfold map_emplace
  split
  · exact h
  · unfold map_find at *
    rw [List.lookup_append, h]
    rfl

theorem map_find_emplace_absent {β : Type} (k : block_hash) (v : β)
    (m : List (block_hash × β)) (h : map_find k m = none) :
    map_find k (map_emplace k v m) = some v := by
  unfold map_emplace
  simp only [h, Option.isSome_none, Bool.false_eq_true, if_false]
  unfold map_find at *
  rw [List.lookup_append, h]
  simp [List.lookup_cons]

theorem lazy_add_frame (n : node) (s : bootstrap_attempt_lazy) (h r : Nat) :
    (lazy_add n s h r).lazy_state_backlog = s.lazy_state_backlog
      ∧ (lazy_add n s h r).lazy_destinations = s.lazy_destinations
      ∧ (lazy_add n s h r).lazy_blocks = s.lazy_blocks
      ∧ (lazy_add n s h r).lazy_balances = s.lazy_balances
      ∧ (lazy_add n s h r).lazy_undefined_links = s.lazy_undefined_links
      ∧ (lazy_add n s h r).block_processor = s.block_processor := by
  unfold lazy_add
  split <;> simp

theorem lazy_destinations_increment_others (n : node) (s : bootstrap_attempt_lazy)
    (a : account) :
    (lazy_destinations_increment n s a).lazy_state_backlog = s.lazy_state_backlog
      ∧ (lazy_destinations_increment n s a).lazy_pulls = s.lazy_pulls
      ∧ (lazy_destinations_increment n s a).lazy_blocks = s.lazy_blocks
      ∧ (lazy_destinations_increment n s a).lazy_balances = s.lazy_balances
      ∧ (lazy_destinations_increment n s a).lazy_undefined_links = s.lazy_undefined_links
      ∧ (lazy_destinations_increment n s a).block_processor = s.block_processor := by
  rw [lazy_destinations_increment_frame]
  simp

/-- The destinations after an increment depend on the destinations before only. -/
theorem lazy_destinations_increment_congr (n : node) (s t : bootstrap_attempt_lazy)
    (a : account) (h : s.lazy_destinations = t.lazy_destinations) :
    (lazy_destinations_increment n s a).lazy_destinations
      = (lazy_destinations_increment n t a).lazy_destinations := by
  unfold lazy_destinations_increment
  rw [h]
  split
  · split <;> rfl
  · exact h

theorem lazy_block_state_blocks (n : node) (s : bootstrap_attempt_lazy) (block_a : block)
    (retry_limit : Nat) :
    (lazy_block_state n s block_a retry_limit).lazy_blocks = s.lazy_blocks := by
  unfold lazy_block_state
  split
  · split
    · split
      · exact (lazy_add_frame n s _ _).2.2.1
      · split
        · split
          · exact (lazy_add_frame n s _ _).2.2.1
          · exact (lazy_destinations_increment_others n s _).2.2.1
        · split
          · split
            · simp only
              split
              · exact (lazy_add_frame n s _ _).2.2.1
              · exact (lazy_destinations_increment_others n s _).2.2.1
            · rfl
          · rfl
    · rfl
  · rfl

theorem lazy_block_state_backlog (n : node) (s : bootstrap_attempt_lazy) (block_a : block)
    (retry_limit : Nat) :
    (lazy_block_state n s block_a retry_limit).lazy_state_backlog = s.lazy_state_backlog
      ∨ ∃ k v, (lazy_block_state n s block_a retry_limit).lazy_state_backlog
          = map_emplace k v s.lazy_state_backlog := by
  unfold lazy_block_state
  split
  · split
    · split
      · exact Or.inl (lazy_add_frame n s _ _).1
      · split
        · split
          · exact Or.inl (lazy_add_frame n s _ _).1
          · exact Or.inl (lazy_destinations_increment_others n s _).1
        · split
          · split
            · simp only
              split
              · exact Or.inl (lazy_add_frame n s _ _).1
              · exact Or.inl (lazy_destinations_increment_others n s _).1
            · exact Or.inl rfl
          · exact Or.inr ⟨_, _, rfl⟩
    · exact Or.inl rfl
  · exact Or.inl rfl

theorem process_block_lazy_dependencies_blocks (n : node) (s : bootstrap_attempt_lazy)
    (block_a : block) (retry_limit : Nat) :
    (process_block_lazy_dependencies n s block_a retry_limit).lazy_blocks = s.lazy_blocks := by
  unfold process_block_lazy_dependencies
  split
  · exact (lazy_add_frame n s _ _).2.2.1
  · split
    · exact lazy_block_state_blocks n s block_a retry_limit
    · split
      · split
        · split
          · exact (lazy_destinations_increment_others n s _).2.2.1
          · rfl
        · rfl
      · rfl

theorem process_block_lazy_dependencies_found (n : node) (s : bootstrap_attempt_lazy)
    (block_a : block) (retry_limit : Nat) (k : block_hash) (v : lazy_state_backlog_item)
    (h : map_find k s.lazy_state_backlog = some v) :
    map_find k (process_block_lazy_dependencies n s block_a retry_limit).lazy_state_backlog
      = some v := by
  unfold process_block_lazy_dependencies
  split
  · rw [(lazy_add_frame n s _ _).1]; exact h
  · split
    · rcases lazy_block_state_backlog n s block_a retry_limit with h1 | ⟨k2, v2, h1⟩
      · rw [h1]; exact h
      · rw [h1]; exact map_find_emplace_of_found k k2 v v2 _ h
    · split
      · split
        · split
          · rw [(lazy_destinations_increment_others n s _).1]; exact h
          · exact h
        · exact h
      · exact h

theorem backlog_check_found (n : node) (s : bootstrap_attempt_lazy) (block_a : block)
    (hash_a : block_hash) (item : lazy_state_backlog_item)
    (hfind : map_find hash_a s.lazy_state_backlog = some item) :
    map_find hash_a (lazy_block_state_backlog_check n s block_a hash_a).lazy_state_backlog = none
      ∧ (block_a.type = block_type.state ∨ block_a.type = block_type.send →
          (block_a.balance ≤ item.balance →
            (lazy_block_state_backlog_check n s block_a hash_a).lazy_pulls
                = (lazy_add n s item.link item.retry_limit).lazy_pulls
              ∧ (lazy_block_state_backlog_check n s block_a hash_a).lazy_destinations
                = s.lazy_destinations)
          ∧ (item.balance < block_a.balance →
            (lazy_block_state_backlog_check n s block_a hash_a).lazy_pulls = s.lazy_pulls
              ∧ (lazy_block_state_backlog_check n s block_a hash_a).lazy_destinations
                = (lazy_destinations_increment n s item.link).lazy_destinations)) := by
  constructor
  · unfold lazy_block_state_backlog_check
    simp only [hfind]
    exact map_find_erase_self hash_a _
  · intro htype
    constructor
    · intro hle
      simp only [lazy_block_state_backlog_check, hfind, htype, hle, if_true]
      exact ⟨trivial, (lazy_add_frame n s _ _).2.1⟩
    · intro hlt
      have hnle : ¬ block_a.balance ≤ item.balance := Nat.not_le.mpr hlt
      simp only [lazy_block_state_backlog_check, hfind, htype, hnle, if_true, if_false]
      exact ⟨(lazy_destinations_increment_others n s _).2.1, trivial⟩

/-- C3, as the code has it: when `process_block_lazy` processes a new block with hash `h`
and `lazy_state_backlog` holds an entry `{link, b, r}` for `h`, there is no entry for `h`
afterwards.  If the arriving block is a state or send block, the entry is resolved by
comparing the same two balances as `lazy_block_state` does for a predecessor in storage:
with arriving balance `<= b`, `lazy_add (link, r)` is applied, which appends `(link, r)`
behind what the block's own dependency search queued unless `link` is already processed in
this attempt (the arriving block counts as processed), and the destinations stay as the
dependency search left them; with arriving balance `> b` nothing is queued for `link` and
`lazy_destinations_increment (link)` is applied, which changes nothing when legacy bootstrap
is available. -/
theorem process_block_lazy_backlog_decision (n : node) (s : bootstrap_attempt_lazy)
    (block_a : block) (known_account_a : account) (pull_blocks max_blocks retry_limit : Nat)
    (item : lazy_state_backlog_item)
    (hnew : lazy_blocks_processed n s block_a.hash = false)
    (hentry : map_find block_a.hash s.lazy_state_backlog = some item) :
    map_find block_a.hash
        (process_block_lazy n s block_a known_account_a pull_blocks max_blocks
          retry_limit).2.lazy_state_backlog = none
      ∧ (block_a.type = block_type.state ∨ block_a.type = block_type.send →
          (block_a.balance ≤ item.balance →
            (process_block_lazy n s block_a known_account_a pull_blocks max_blocks
                retry_limit).2.lazy_pulls
              = (process_block_lazy_dependencies n s block_a retry_limit).lazy_pulls ++
                  (if lazy_blocks_processed n s item.link = true
                      ∨ n.hash_digest item.link = n.hash_digest block_a.hash then []
                   else [(item.link, item.retry_limit)])
            ∧ (process_block_lazy n s block_a known_account_a pull_blocks max_blocks
                retry_limit).2.lazy_destinations
              = (process_block_lazy_dependencies n s block_a retry_limit).lazy_destinations)
          ∧ (item.balance < block_a.balance →
            (process_block_lazy n s block_a known_account_a pull_blocks max_blocks
                retry_limit).2.lazy_pulls
              = (process_block_lazy_dependencies n s block_a retry_limit).lazy_pulls
            ∧ (process_block_lazy n s block_a known_account_a pull_blocks max_blocks
                retry_limit).2.lazy_destinations
              = (lazy_destinations_increment n
                  (process_block_lazy_dependencies n s block_a retry_limit)
                  item.link).lazy_destinations
            ∧ (n.disable_legacy_bootstrap = false →
              (process_block_lazy n s block_a known_account_a pull_blocks max_blocks
                  retry_limit).2.lazy_destinations
                = (process_block_lazy_dependencies n s block_a
                    retry_limit).lazy_destinations))) := by
  rw [process_block_lazy_new n s block_a known_account_a pull_blocks max_blocks retry_limit hnew]
  have hb := process_block_lazy_balances_frame
    (lazy_blocks_insert n (process_block_lazy_dependencies n s block_a retry_limit) block_a.hash)
    block_a block_a.hash pull_blocks
  have hi := lazy_blocks_insert_frame n (process_block_lazy_dependencies n s block_a retry_limit)
    block_a.hash
  have hdb := process_block_lazy_dependencies_blocks n s block_a retry_limit
  have hnotin : n.hash_digest block_a.hash ∉ s.lazy_blocks := by
    simpa [lazy_blocks_processed] using hnew
  have hblocks : (process_block_lazy_balances
      (lazy_blocks_insert n (process_block_lazy_dependencies n s block_a retry_limit) block_a.hash)
      block_a block_a.hash pull_blocks).lazy_blocks
        = s.lazy_blocks ++ [n.hash_digest block_a.hash] := by
    rw [hb.2.2.2.1]
    simp [lazy_blocks_insert, hdb, hnotin, set_insert]
  have hfind : map_find block_a.hash (process_block_lazy_balances
      (lazy_blocks_insert n (process_block_lazy_dependencies n s block_a retry_limit) block_a.hash)
      block_a block_a.hash pull_blocks).lazy_state_backlog = some item := by
    rw [hb.2.1, hi.2.1]
    exact process_block_lazy_dependencies_found n s block_a retry_limit _ _ hentry
  have hpulls := hb.1.trans hi.1
  have hdest := hb.2.2.1.trans hi.2.2.1
  revert hblocks hfind hpulls hdest
  generalize process_block_lazy_balances
      (lazy_blocks_insert n (process_block_lazy_dependencies n s block_a retry_limit) block_a.hash)
      block_a block_a.hash pull_blocks = s3
  intro hblocks hfind hpulls hdest
  obtain ⟨h1, h2⟩ := backlog_check_found n s3 block_a block_a.hash item hfind
  refine ⟨h1, fun htype => ⟨fun hle => ?_, fun hlt => ?_⟩⟩
  · obtain ⟨h3, h4⟩ := (h2 htype).1 hle
    refine ⟨?_, h4.trans hdest⟩
    show (lazy_block_state_backlog_check n s3 block_a block_a.hash).lazy_pulls = _
    rw [h3, lazy_add_pulls]
    simp only [lazy_blocks_processed, hblocks, hpulls, List.mem_append, List.mem_singleton,
      decide_eq_true_eq]
  · obtain ⟨h3, h4⟩ := (h2 htype).2 hlt
    have h5 := lazy_destinations_increment_congr n s3
      (process_block_lazy_dependencies n s block_a retry_limit) item.link hdest
    refine ⟨h3.trans hpulls, h4.trans h5, fun hflag => ?_⟩
    show (lazy_block_state_backlog_check n s3 block_a block_a.hash).lazy_destinations = _
    rw [h4, lazy_destinations_increment_disabled n s3 item.link hflag, hdest]

theorem process_block_lazy_backlog_decision_witness :
    (lazy_blocks_processed node_lazy_only attempt_backlog (block.send 7 6 8 40).hash = false
      ∧ map_find (block.send 7 6 8 40).hash attempt_backlog.lazy_state_backlog
          = some { link := 3, balance := 50, retry_limit := 2 })
    ∧ map_find (block.send 7 6 8 40).hash
        (process_block_lazy node_lazy_only attempt_backlog (block.send 7 6 8 40) 0 0 512
          160).2.lazy_state_backlog = none
    ∧ (process_block_lazy node_lazy_only attempt_backlog (block.send 7 6 8 40) 0 0 512
          160).2.lazy_pulls
        = (process_block_lazy_dependencies node_lazy_only attempt_backlog (block.send 7 6 8 40)
            160).lazy_pulls ++ [(3, 2)] :=
  ⟨⟨by decide, by decide⟩,
   (process_block_lazy_backlog_decision node_lazy_only attempt_backlog (block.send 7 6 8 40)
      0 0 512 160 { link := 3, balance := 50, retry_limit := 2 } (by decide) (by decide)).1,
   (((process_block_lazy_backlog_decision node_lazy_only attempt_backlog (block.send 7 6 8 40)
      0 0 512 160 { link := 3, balance := 50, retry_limit := 2 } (by decide) (by decide)).2
      (Or.inr rfl)).1 (by decide)).1⟩

/-- C3 fails as stated, in two ways.  The backlog holds `{link 3, balance 50, retry 2}`
for hash 7.  When link 3 is already processed in this attempt and a send block 7 with
balance 40 `<= 50` arrives, `(3, 2)` is not queued.  When a send block 7 with balance
60 `> 50` arrives at a node with legacy bootstrap available, the count of 3 stays zero. -/
theorem process_block_lazy_backlog_link_dropped :
    ((lazy_blocks_processed node_legacy attempt_backlog_link_seen (block.send 7 6 8 40).hash
          = false
        ∧ map_find 7 attempt_backlog_link_seen.lazy_state_backlog
          = some { link := 3, balance := 50, retry_limit := 2 }
        ∧ (block.send 7 6 8 40).balance ≤ 50)
      ∧ (3, 2) ∉ (process_block_lazy node_legacy attempt_backlog_link_seen (block.send 7 6 8 40)
          0 0 512 160).2.lazy_pulls)
    ∧ ((lazy_blocks_processed node_legacy attempt_backlog (block.send 7 6 8 60).hash = false
        ∧ map_find 7 attempt_backlog.lazy_state_backlog
          = some { link := 3, balance := 50, retry_limit := 2 }
        ∧ 50 < (block.send 7 6 8 60).balance)
      ∧ destinations_count (process_block_lazy node_legacy attempt_backlog (block.send 7 6 8 60)
          0 0 512 160).2.lazy_destinations 3 = 0) := by
  decide

/-- The backlog check takes the decision `lazy_block_state` would have taken had the
predecessor been in storage: for an arriving state or send block and a link that is still
unknown, the check leaves the attempt that `lazy_block_state` leaves for a state block
`{previous, balance b, link}` at a node that stores the arriving block, less the entry. -/
theorem backlog_check_matches_storage_decision (n : node) (s : bootstrap_attempt_lazy)
    (block_a : block) (hash_a h0 : block_hash) (item : lazy_state_backlog_item)
    (hfind : map_find hash_a s.lazy_state_backlog = some item)
    (htype : block_a.type = block_type.state ∨ block_a.type = block_type.send)
    (hh : hash_a ≠ 0) (hlink : item.link ≠ 0) (hepoch : n.is_epoch_link item.link = false)
    (hproc : lazy_blocks_processed n s item.link = false)
    (hstore : n.block_exists item.link = false) (hne : item.link ≠ hash_a) :
    lazy_block_state_backlog_check n s block_a hash_a
      = { lazy_block_state (n.with_block hash_a block_a.balance) s
            (block.state h0 hash_a item.balance item.link) item.retry_limit with
          lazy_state_backlog := map_erase hash_a s.lazy_state_backlog } := by
  have hproc2 : lazy_blocks_processed (n.with_block hash_a block_a.balance) s item.link = false :=
    hproc
  have hguard : item.link ≠ 0 ∧ (n.with_block hash_a block_a.balance).is_epoch_link item.link = false
      ∧ lazy_blocks_processed (n.with_block hash_a block_a.balance) s item.link = false
      ∧ (n.with_block hash_a block_a.balance).block_exists item.link = false := by
    refine ⟨hlink, hepoch, hproc2, ?_⟩
    simp [node.with_block, hne, hstore]
  have hex : (n.with_block hash_a block_a.balance).block_exists hash_a = true := by
    simp [node.with_block]
  have hbal : (n.with_block hash_a block_a.balance).balance hash_a = block_a.balance := by
    simp [node.with_block]
  have hadd : lazy_add (n.with_block hash_a block_a.balance) s item.link item.retry_limit
      = lazy_add n s item.link item.retry_limit := rfl
  have hinc : lazy_destinations_increment (n.with_block hash_a block_a.balance) s item.link
      = lazy_destinations_increment n s item.link := rfl
  have hlbs : lazy_block_state (n.with_block hash_a block_a.balance) s
        (block.state h0 hash_a item.balance item.link) item.retry_limit
      = if block_a.balance ≤ item.balance then lazy_add n s item.link item.retry_limit
        else lazy_destinations_increment n s item.link := by
    simp only [lazy_block_state]
    rw [if_pos hguard, if_neg hh, hex, hbal, hadd, hinc]
    simp
  rw [hlbs]
  simp only [lazy_block_state_backlog_check, hfind, htype, if_true]
  by_cases hle : block_a.balance ≤ item.balance
  · simp only [hle, if_true, (lazy_add_frame n s _ _).1]
  · simp only [hle, if_false, (lazy_destinations_increment_others n s _).1]

/-- C4: for a state block whose link is non-zero, not an epoch link, not processed in this
attempt and not in storage, and whose previous is non-zero, not in storage and not
processed in this attempt, `lazy_block_state` only defers the decision: afterwards
`lazy_state_backlog` has an entry for previous, which is `{link, balance, retry_limit}`
when previous had no entry before and the entry it had otherwise; the backlog is the old
one with that `emplace` applied and no other member (`lazy_pulls` and `lazy_destinations`
among them) changes. -/
theorem lazy_block_state_defers (n : node) (s : bootstrap_attempt_lazy)
    (hash previous balance link retry_limit : Nat)
    (hlink : link ≠ 0) (hepoch : n.is_epoch_link link = false)
    (hproc : lazy_blocks_processed n s link = false) (hstore : n.block_exists link = false)
    (hprev : previous ≠ 0) (hprev_store : n.block_exists previous = false)
    (hprev_proc : lazy_blocks_processed n s previous = false) :
    (map_find previous (lazy_block_state n s (block.state hash previous balance link)
        retry_limit).lazy_state_backlog).isSome = true
      ∧ (map_find previous s.lazy_state_backlog = none →
          map_find previous (lazy_block_state n s (block.state hash previous balance link)
            retry_limit).lazy_state_backlog
            = some { link := link, balance := balance, retry_limit := retry_limit })
      ∧ (∀ v, map_find previous s.lazy_state_backlog = some v →
          map_find previous (lazy_block_state n s (block.state hash previous balance link)
            retry_limit).lazy_state_backlog = some v)
      ∧ (lazy_block_state n s (block.state hash previous balance link) retry_limit).lazy_pulls
          = s.lazy_pulls
      ∧ (lazy_block_state n s (block.state hash previous balance link)
          retry_limit).lazy_destinations = s.lazy_destinations
      ∧ lazy_block_state n s (block.state hash previous balance link) retry_limit
          = { s with
                lazy_state_backlog :=
                  map_emplace previous ⟨link, balance, retry_limit⟩ s.lazy_state_backlog } := by
  have hguard : link ≠ 0 ∧ n.is_epoch_link link = false ∧ lazy_blocks_processed n s link = false
      ∧ n.block_exists link = false := ⟨hlink, hepoch, hproc, hstore⟩
  have hstep : lazy_block_state n s (block.state hash previous balance link) retry_limit
      = { s with
            lazy_state_backlog :=
              map_emplace previous ⟨link, balance, retry_limit⟩ s.lazy_state_backlog } := by
    simp only [lazy_block_state]
    rw [if_pos hguard, if_neg hprev, hprev_store, hprev_proc]
    simp
  rw [hstep]
  have hfound : ∀ v, map_find previous s.lazy_state_backlog = some v →
      map_find previous (map_emplace previous
        ({ link := link, balance := balance, retry_limit := retry_limit } :
          lazy_state_backlog_item) s.lazy_state_backlog) = some v :=
    fun v hv => map_find_emplace_of_found previous previous v _ _ hv
  have habsent : map_find previous s.lazy_state_backlog = none →
      map_find previous (map_emplace previous
        ({ link := link, balance := balance, retry_limit := retry_limit } :
          lazy_state_backlog_item) s.lazy_state_backlog)
        = some { link := link, balance := balance, retry_limit := retry_limit } :=
    fun hv => map_find_emplace_absent previous _ _ hv
  refine ⟨?_, habsent, hfound, rfl, rfl, rfl⟩
  show (map_find previous (map_emplace previous _ s.lazy_state_backlog)).isSome = true
  cases hv : map_find previous s.lazy_state_backlog with
  | none => rw [habsent hv]; rfl
  | some v => rw [hfound v hv]; rfl

theorem lazy_block_state_defers_witness :
    map_find 6 attempt_fresh.lazy_state_backlog = none
      ∧ map_find 6 (lazy_block_state node_legacy attempt_fresh (block.state 7 6 50 3)
          2).lazy_state_backlog = some { link := 3, balance := 50, retry_limit := 2 } :=
  ⟨by decide,
   (lazy_block_state_defers node_legacy attempt_fresh 7 6 50 3 2 (by decide) (by decide)
      (by decide) (by decide) (by decide) (by decide) (by decide)).2.1 (by decide)⟩

/-- C5: `process_block_lazy` ignores a block whose hash is already recorded in
`lazy_blocks`: the attempt after the call is the attempt before it, so `lazy_blocks`,
`lazy_blocks_count`, `lazy_pulls`, `lazy_balances`, `lazy_state_backlog`,
`lazy_destinations` and `lazy_undefined_links` are unchanged and nothing is handed to the
block processor; the returned flag only says whether the pull ran over `max_blocks`. -/
theorem process_block_lazy_ignores_processed (n : node) (s : bootstrap_attempt_lazy)
    (block_a : block) (known_account_a : account) (pull_blocks max_blocks retry_limit : Nat)
    (hseen : lazy_blocks_processed n s block_a.hash = true) :
    (process_block_lazy n s block_a known_account_a pull_blocks max_blocks retry_limit).2 = s
      ∧ (process_block_lazy n s block_a known_account_a pull_blocks max_blocks
          retry_limit).2.block_processor = s.block_processor
      ∧ (process_block_lazy n s block_a known_account_a pull_blocks max_blocks retry_limit).1
          = decide (pull_blocks > max_blocks) := by
  simp [process_block_lazy, hseen]

theorem process_block_lazy_ignores_processed_witness :
    lazy_blocks_processed node_lazy_only attempt_backlog_link_seen (block.state 3 7 40 9).hash
        = true
      ∧ (process_block_lazy node_lazy_only attempt_backlog_link_seen (block.state 3 7 40 9)
          0 0 512 2).2 = attempt_backlog_link_seen :=
  ⟨by decide,
   (process_block_lazy_ignores_processed node_lazy_only attempt_backlog_link_seen
      (block.state 3 7 40 9) 0 0 512 2 (by decide)).1⟩

/-! ## Completion -/

/-- C6, as the code has it: for an attempt that is not stopped, `lazy_finished ()` returns
true exactly when `lazy_destinations` is empty and either every hash in `lazy_keys` exists
in storage or both `lazy_pulls` and `lazy_state_backlog` are empty. -/
theorem lazy_finished_running (n : node) (s : bootstrap_attempt_lazy)
    (hrun : s.stopped = false) :
    (lazy_finished n s).1 = true ↔
      s.lazy_destinations = []
        ∧ ((∀ k ∈ s.lazy_keys, n.block_exists k = true)
          ∨ (s.lazy_pulls = [] ∧ s.lazy_state_backlog = [])) := by
  have hkeys : (s.lazy_keys.dropWhile n.block_exists).isEmpty = true
      ↔ ∀ k ∈ s.lazy_keys, n.block_exists k = true := by
    rw [List.isEmpty_iff, List.dropWhile_eq_nil_iff]
  rw [← hkeys, ← List.isEmpty_iff, ← List.isEmpty_iff, ← List.isEmpty_iff]
  simp only [lazy_finished, hrun, Bool.false_eq_true, if_false]
  generalize (s.lazy_keys.dropWhile n.block_exists).isEmpty = a
  generalize s.lazy_destinations.isEmpty = b
  generalize s.lazy_pulls.isEmpty = c
  generalize s.lazy_state_backlog.isEmpty = d
  cases a <;> cases b <;> cases c <;> cases d <;> simp

theorem lazy_finished_running_witness :
    attempt_seed_stored.stopped = false ∧ (lazy_finished node_legacy attempt_seed_stored).1 = true :=
  ⟨rfl, (lazy_finished_running node_legacy attempt_seed_stored rfl).mpr (by decide)⟩

/-- C6 fails as stated, in both directions of its conjunction.  With the only seed 10 in
storage and the pull `(5, 2)` still waiting in `lazy_pulls`, the attempt is reported
finished; and with the seed 5 missing from storage but `lazy_pulls`, the backlog and the
destinations all empty, it is reported finished as well. -/
theorem lazy_finished_with_pending_pull :
    (attempt_seed_stored.stopped = false
      ∧ (∀ k ∈ attempt_seed_stored.lazy_keys, node_legacy.block_exists k = true)
      ∧ attempt_seed_stored.lazy_pulls ≠ []
      ∧ (lazy_finished node_legacy attempt_seed_stored).1 = true)
    ∧ (attempt_seed_missing.stopped = false
      ∧ ¬ (∀ k ∈ attempt_seed_missing.lazy_keys, node_legacy.block_exists k = true)
      ∧ (lazy_finished node_legacy attempt_seed_missing).1 = true) := by
  decide

/-! ## Requeue policy -/

/-- The `++pull.attempts` of the source is `attempts + 1` unless the counter is at its
maximum; a network error leaves the counter alone. -/
theorem pull_attempts_next_exact (pull_a : pull_info) :
    pull_attempts_next pull_a true = pull_a.attempts
      ∧ (pull_a.attempts + 1 < 2 ^ 32 → pull_attempts_next pull_a false = pull_a.attempts + 1) := by
  constructor
  · rfl
  · intro h
    show (pull_a.attempts + 1) % 2 ^ 32 = pull_a.attempts + 1
    exact Nat.mod_eq_of_lt h

/-- The retry bound of the source is `retry_limit + floor (processed / lazy_max_pull_blocks)`
whenever that sum fits 64 bits, which it does for every pull as soon as
`lazy_max_pull_blocks` is at least 2. -/
theorem lazy_retry_bound_exact (n : node) (pull_a : pull_info) :
    (pull_a.retry_limit + pull_a.processed / n.lazy_max_pull_blocks < 2 ^ 64 →
        lazy_retry_bound n pull_a
          = pull_a.retry_limit + pull_a.processed / n.lazy_max_pull_blocks)
      ∧ (pull_a.retry_limit < 2 ^ 32 → pull_a.processed < 2 ^ 64 → 2 ≤ n.lazy_max_pull_blocks →
        pull_a.retry_limit + pull_a.processed / n.lazy_max_pull_blocks < 2 ^ 64) := by
  constructor
  · intro h
    exact Nat.mod_eq_of_lt h
  · intro h1 h2 h3
    have h4 : pull_a.processed / n.lazy_max_pull_blocks ≤ pull_a.processed / 2 :=
      Nat.div_le_div_left h3 (by decide)
    have h5 : pull_a.processed / 2 < 2 ^ 63 := by omega
    omega

/-- The three ways `requeue_pull_lazy` ends in lazy mode. -/
theorem requeue_pull_lazy_lazy_mode (n : node) (s : bootstrap_attempt_lazy) (pull_a : pull_info)
    (network_error : Bool) (hmode : s.mode = bootstrap_mode.lazy) :
    requeue_pull_lazy n s pull_a network_error
      = if pull_a.retry_limit = unsigned_max
            ∨ pull_attempts_next pull_a network_error ≤ lazy_retry_bound n pull_a then
          if lazy_processed_or_exists n s pull_a.account_or_head = false then
            { s with
                requeued_pulls := s.requeued_pulls + 1,
                pulls := s.pulls ++
                  [{ pull_a with attempts := pull_attempts_next pull_a network_error }] }
          else { s with requeued_pulls := s.requeued_pulls + 1 }
        else if pull_a.processed > 0 then
          lazy_add n
            { s with
                requeued_pulls := s.requeued_pulls + 1,
                bulk_pull_failed_account := s.bulk_pull_failed_account + 1,
                cache := s.cache ++
                  [{ pull_a with attempts := pull_attempts_next pull_a network_error }] }
            pull_a.account_or_head pull_a.retry_limit
        else
          { s with
              requeued_pulls := s.requeued_pulls + 1,
              bulk_pull_failed_account := s.bulk_pull_failed_account + 1,
              cache := s.cache ++
                [{ pull_a with attempts := pull_attempts_next pull_a network_error }] } := by
  obtain ⟨mode, _⟩ := s
  simp only at hmode
  subst hmode
  unfold requeue_pull_lazy
  simp only [ne_eq, not_true_eq_false, false_and, if_false, true_and, Bool.not_eq_true']
  rfl

/-- C7: in lazy mode, for a pull with `account_or_head = head`, let `attempts'` be the
counter after the increment a non-network error causes (`attempts` itself for a network
error).  If `attempts'` is at most the retry bound
`retry_limit + floor (processed / lazy_max_pull_blocks)` and the head is neither processed
in this attempt nor in the ledger, the pull with `attempts'` is appended at the tail of
`pulls`, the pulls queued before keep their places, and nothing is added to the pulls
cache: apart from `requeued_pulls`, no other member changes.  Counter and bound are the
values the source computes, in `unsigned` and `uint64_t` arithmetic. -/
theorem requeue_pull_lazy_retries (n : node) (s : bootstrap_attempt_lazy) (pull_a : pull_info)
    (network_error : Bool)
    (hmode : s.mode = bootstrap_mode.lazy)
    (hhead : pull_a.account_or_head = pull_a.head)
    (hbound : pull_attempts_next pull_a network_error ≤ lazy_retry_bound n pull_a)
    (hproc : lazy_blocks_processed n s pull_a.head = false)
    (hledger : n.block_exists pull_a.head = false) :
    (requeue_pull_lazy n s pull_a network_error).pulls
        = s.pulls ++ [{ pull_a with attempts := pull_attempts_next pull_a network_error }]
      ∧ (requeue_pull_lazy n s pull_a network_error).cache = s.cache
      ∧ requeue_pull_lazy n s pull_a network_error
        = { s with
              requeued_pulls := s.requeued_pulls + 1,
              pulls := s.pulls ++
                [{ pull_a with attempts := pull_attempts_next pull_a network_error }] } := by
  have hunknown : lazy_processed_or_exists n s pull_a.account_or_head = false := by
    rw [hhead]
    simp [lazy_processed_or_exists, hproc, hledger]
  rw [requeue_pull_lazy_lazy_mode n s pull_a network_error hmode,
    if_pos (Or.inr hbound), if_pos hunknown]
  exact ⟨rfl, rfl, rfl⟩

theorem requeue_pull_lazy_retries_witness :
    (pull_attempts_next pull_fresh_head false ≤ lazy_retry_bound node_legacy pull_fresh_head
      ∧ pull_attempts_next pull_fresh_head false = 3)
    ∧ (requeue_pull_lazy node_legacy attempt_seed_stored pull_fresh_head false).pulls
        = attempt_seed_stored.pulls ++ [{ pull_fresh_head with attempts := 3 }] :=
  ⟨by decide,
   (requeue_pull_lazy_retries node_legacy attempt_seed_stored pull_fresh_head false rfl rfl
      (by decide) (by decide) (by decide)).1⟩

/-- C8, as the code has it: in lazy mode, for a pull with `account_or_head = head`.  When
the retry limit is not the unlimited sentinel and the retry bound is exceeded, `pulls` is
left unchanged, the pull (with its new attempt count) is added to the pulls cache, and the
head is queued again in `lazy_pulls` with the pull's retry limit if and only if the pull
delivered at least one block and the head is not processed in this attempt.  When the
bound holds (or the limit is the sentinel) but the head is already known, the pull is
dropped: `pulls`, the pulls cache and `lazy_pulls` are all left unchanged. -/
theorem requeue_pull_lazy_drops (n : node) (s : bootstrap_attempt_lazy) (pull_a : pull_info)
    (network_error : Bool)
    (hmode : s.mode = bootstrap_mode.lazy)
    (hhead : pull_a.account_or_head = pull_a.head) :
    (pull_a.retry_limit ≠ unsigned_max →
      lazy_retry_bound n pull_a < pull_attempts_next pull_a network_error →
        (requeue_pull_lazy n s pull_a network_error).pulls = s.pulls
          ∧ (requeue_pull_lazy n s pull_a network_error).cache
            = s.cache ++ [{ pull_a with attempts := pull_attempts_next pull_a network_error }]
          ∧ (requeue_pull_lazy n s pull_a network_error).lazy_pulls
            = s.lazy_pulls ++
                (if pull_a.processed > 0 ∧ lazy_blocks_processed n s pull_a.head = false then
                  [(pull_a.head, pull_a.retry_limit)]
                 else []))
      ∧ ((pull_a.retry_limit = unsigned_max
            ∨ pull_attempts_next pull_a network_error ≤ lazy_retry_bound n pull_a) →
          lazy_processed_or_exists n s pull_a.head = true →
        (requeue_pull_lazy n s pull_a network_error).pulls = s.pulls
          ∧ (requeue_pull_lazy n s pull_a network_error).cache = s.cache
          ∧ (requeue_pull_lazy n s pull_a network_error).lazy_pulls = s.lazy_pulls) := by
  rw [requeue_pull_lazy_lazy_mode n s pull_a network_error hmode, hhead]
  constructor
  · intro hsent hexceeded
    have hcond : ¬ (pull_a.retry_limit = unsigned_max
        ∨ pull_attempts_next pull_a network_error ≤ lazy_retry_bound n pull_a) := by
      rintro (h | h)
      · exact hsent h
      · exact Nat.not_le.mpr hexceeded h
    rw [if_neg hcond]
    by_cases hpos : pull_a.processed > 0
    · rw [if_pos hpos, lazy_add_pulls]
      refine ⟨rfl, rfl, ?_⟩
      simp only [hpos, true_and]
      show s.lazy_pulls ++ (if lazy_blocks_processed n s pull_a.head = true then []
        else [(pull_a.head, pull_a.retry_limit)]) = _
      cases lazy_blocks_processed n s pull_a.head <;> simp
    · rw [if_neg hpos]
      refine ⟨rfl, rfl, ?_⟩
      simp [hpos]
  · intro hok hknown
    rw [if_pos hok, hknown]
    exact ⟨rfl, rfl, rfl⟩

theorem requeue_pull_lazy_drops_witness :
    (requeue_pull_lazy node_legacy attempt_fresh pull_exhausted false).cache
        = attempt_fresh.cache ++ [{ pull_exhausted with attempts := 6 }]
      ∧ (requeue_pull_lazy node_legacy attempt_fresh pull_known_head false).cache
        = attempt_fresh.cache :=
  ⟨((requeue_pull_lazy_drops node_legacy attempt_fresh pull_exhausted false rfl rfl).1
      (by decide) (by decide)).2.1,
   ((requeue_pull_lazy_drops node_legacy attempt_fresh pull_known_head false rfl rfl).2
      (by decide) (by decide)).2.1⟩

/-- C8 fails as stated, in two ways.  A pull whose head 10 is already in the ledger and
whose retry bound still holds is not reinserted, yet it is neither added to the pulls
cache nor is its head queued again, although it delivered three blocks.  A pull that
exceeded its retry bound after delivering one block, whose head 3 is already processed in
this attempt, is added to the cache but its head is not queued again. -/
theorem requeue_pull_lazy_known_head_not_cached :
    ((lazy_processed_or_exists node_legacy attempt_fresh pull_known_head.head = true
        ∧ pull_known_head.processed > 0)
      ∧ (requeue_pull_lazy node_legacy attempt_fresh pull_known_head false).pulls
          = attempt_fresh.pulls
      ∧ (requeue_pull_lazy node_legacy attempt_fresh pull_known_head false).cache = []
      ∧ (requeue_pull_lazy node_legacy attempt_fresh pull_known_head false).lazy_pulls = [])
    ∧ ((lazy_retry_bound node_legacy pull_exhausted
          < pull_attempts_next pull_exhausted false
        ∧ pull_exhausted.processed > 0)
      ∧ (requeue_pull_lazy node_legacy attempt_backlog_link_seen pull_exhausted false).pulls
          = attempt_backlog_link_seen.pulls
      ∧ (requeue_pull_lazy node_legacy attempt_backlog_link_seen pull_exhausted false).cache
          = [{ pull_exhausted with attempts := 6 }]
      ∧ (requeue_pull_lazy node_legacy attempt_backlog_link_seen pull_exhausted false).lazy_pulls
          = attempt_backlog_link_seen.lazy_pulls) := by
  decide

/-! ## Flushing `lazy_pulls` into `pulls` -/

/-- What the loop of `lazy_pull_flush` appends: pulls made from a subsequence of the
queue, in queue order, each for a head that is neither processed nor stored, and no more
of them than the room left under `max_pulls`. -/
theorem lazy_pull_flush_loop_appends (n : node) (batch_count : Nat) (lazy_blocks : List Nat) :
    ∀ (queue : List (block_hash × Nat)) (count : Nat) (pulls : List pull_info),
      ∃ appended : List pull_info,
        (lazy_pull_flush_loop n batch_count lazy_blocks count queue pulls).2 = pulls ++ appended
          ∧ (appended.map (fun q => (q.head, q.retry_limit))).Sublist queue
          ∧ (count ≤ max_pulls n → count + appended.length ≤ max_pulls n)
          ∧ ∀ q ∈ appended, q.account_or_head = q.head ∧ q.«end» = 0 ∧ q.count = batch_count
              ∧ q.attempts = 0 ∧ q.processed = 0
              ∧ n.hash_digest q.head ∉ lazy_blocks ∧ n.block_exists q.head = false := by
  intro queue
  induction queue with
  | nil =>
    intro count pulls
    exact ⟨[], by simp [lazy_pull_flush_loop], by simp, by simp, by simp⟩
  | cons pull_start rest ih =>
    intro count pulls
    unfold lazy_pull_flush_loop
    by_cases hcount : count < max_pulls n
    · simp only [hcount, if_true]
      by_cases hfresh : (!(decide (n.hash_digest pull_start.1 ∈ lazy_blocks))
          && !(n.block_exists pull_start.1)) = true
      · simp only [hfresh, if_true]
        obtain ⟨appended, h1, h2, h3, h4⟩ := ih (count + 1)
          (pulls ++ [pull_info.make pull_start.1 pull_start.1 0 batch_count pull_start.2])
        have hf : n.hash_digest pull_start.1 ∉ lazy_blocks ∧ n.block_exists pull_start.1 = false := by
          simpa using hfresh
        refine ⟨pull_info.make pull_start.1 pull_start.1 0 batch_count pull_start.2 :: appended,
          ?_, ?_, ?_, ?_⟩
        · rw [h1]; simp
        · simp only [List.map_cons, pull_info.make]
          exact h2.cons₂ _
        · intro _
          have := h3 hcount
          simp only [List.length_cons]
          omega
        · intro q hq
          rcases List.mem_cons.mp hq with rfl | hq
          · exact ⟨rfl, rfl, rfl, rfl, rfl, hf.1, hf.2⟩
          · exact h4 q hq
      · simp only [hfresh, if_false, Bool.false_eq_true]
        obtain ⟨appended, h1, h2, h3, h4⟩ := ih count pulls
        exact ⟨appended, h1, h2.cons _, h3, h4⟩
    · simp only [hcount, if_false]
      exact ⟨[], by simp, by simp, by simp, by simp⟩

/-- When every queued head is new and the queue fits under `max_pulls`, the loop appends
one pull per queue entry. -/
theorem lazy_pull_flush_loop_all_fresh (n : node) (batch_count : Nat) (lazy_blocks : List Nat) :
    ∀ (queue : List (block_hash × Nat)) (count : Nat) (pulls : List pull_info),
      (∀ p ∈ queue, n.hash_digest p.1 ∉ lazy_blocks ∧ n.block_exists p.1 = false) →
      count + queue.length ≤ max_pulls n →
      (lazy_pull_flush_loop n batch_count lazy_blocks count queue pulls).2.length
        = pulls.length + queue.length := by
  intro queue
  induction queue with
  | nil => intro count pulls _ _; simp [lazy_pull_flush_loop]
  | cons pull_start rest ih =>
    intro count pulls hall hroom
    have hcount : count < max_pulls n := by simp only [List.length_cons] at hroom; omega
    have hf := hall pull_start (List.mem_cons_self _ _)
    have hfresh : (!(decide (n.hash_digest pull_start.1 ∈ lazy_blocks))
        && !(n.block_exists pull_start.1)) = true := by simp [hf.1, hf.2]
    unfold lazy_pull_flush_loop
    simp only [hcount, if_true, hfresh]
    rw [ih (count + 1) _ (fun p hp => hall p (List.mem_cons_of_mem _ hp))
      (by simp only [List.length_cons] at hroom; omega)]
    simp only [List.length_append, List.length_cons, List.length_nil]
    omega

/-- C9, as the code has it: `max_pulls` caps what one `lazy_pull_flush` call enqueues, not
the length of `pulls`.  A call made with `pulls.size () >= max_pulls` changes nothing; any
call enqueues at most `max_pulls` pulls; so for every state with
`pulls.size () <= max_pulls` before the call, `pulls.size () <= 2 * max_pulls - 1` after
it. -/
theorem lazy_pull_flush_bound (n : node) (now : Nat) (s : bootstrap_attempt_lazy) :
    (max_pulls n ≤ s.pulls.length → lazy_pull_flush n now s = s)
      ∧ (lazy_pull_flush n now s).pulls.length ≤ s.pulls.length + max_pulls n
      ∧ (s.pulls.length ≤ max_pulls n →
          (lazy_pull_flush n now s).pulls.length ≤ 2 * max_pulls n - 1) := by
  by_cases hroom : s.pulls.length < max_pulls n
  · obtain ⟨appended, h1, _, h3, _⟩ :=
      lazy_pull_flush_loop_appends n (lazy_batch_count n s) s.lazy_blocks s.lazy_pulls 0 s.pulls
    have hlen : (lazy_pull_flush n now s).pulls.length = s.pulls.length + appended.length := by
      simp only [lazy_pull_flush, hroom, if_true, h1, List.length_append]
    have h3' := h3 (Nat.zero_le _)
    refine ⟨fun h => absurd hroom (Nat.not_lt.mpr h), ?_, fun _ => ?_⟩
    · rw [hlen]; omega
    · rw [hlen]; omega
  · have hsame : lazy_pull_flush n now s = s := by
      simp only [lazy_pull_flush, hroom, if_false]
    rw [hsame]
    refine ⟨fun _ => rfl, by omega, fun h => ?_⟩
    omega

theorem lazy_pull_flush_bound_witness :
    attempt_pulls_waiting.pulls.length ≤ max_pulls node_legacy
      ∧ (lazy_pull_flush node_legacy 9 attempt_pulls_waiting).pulls.length
          ≤ 2 * max_pulls node_legacy - 1 :=
  ⟨by decide, (lazy_pull_flush_bound node_legacy 9 attempt_pulls_waiting).2.2 (by decide)⟩

/-- C9 fails as stated: at a node whose `max_pulls` is 3, an attempt with two pulls queued
and three new hashes in `lazy_pulls` has five pulls queued after `lazy_pull_flush`. -/
theorem lazy_pull_flush_exceeds_max_pulls :
    max_pulls node_legacy = 3
      ∧ attempt_pulls_waiting.pulls.length ≤ max_pulls node_legacy
      ∧ (lazy_pull_flush node_legacy 9 attempt_pulls_waiting).pulls.length = 5
      ∧ ¬ ((lazy_pull_flush node_legacy 9 attempt_pulls_waiting).pulls.length
            ≤ max_pulls node_legacy) := by
  decide

/-- The bound of the flush is reached for every value of `max_pulls`: when
`pulls.size () < max_pulls` and `lazy_pulls` holds at most `max_pulls` hashes, all of them
new, every one of them is enqueued. -/
theorem lazy_pull_flush_all_fresh (n : node) (now : Nat) (s : bootstrap_attempt_lazy)
    (hroom : s.pulls.length < max_pulls n)
    (hall : ∀ p ∈ s.lazy_pulls, lazy_blocks_processed n s p.1 = false ∧ n.block_exists p.1 = false)
    (hlen : s.lazy_pulls.length ≤ max_pulls n) :
    (lazy_pull_flush n now s).pulls.length = s.pulls.length + s.lazy_pulls.length := by
  simp only [lazy_pull_flush, hroom, if_true]
  apply lazy_pull_flush_loop_all_fresh
  · intro p hp
    have := hall p hp
    simpa [lazy_blocks_processed] using this
  · omega

/-- C10: `lazy_pull_flush` leaves the pulls already queued as they are and appends behind
them pulls made from entries of `lazy_pulls`, in the order of `lazy_pulls`: every appended
pull has `account_or_head = head`, `end = 0`, the current batch count as `count`, the
retry limit of its `lazy_pulls` entry, and a head that is neither processed in this
attempt nor present in storage. -/
theorem lazy_pull_flush_appends (n : node) (now : Nat) (s : bootstrap_attempt_lazy) :
    ∃ appended : List pull_info,
      (lazy_pull_flush n now s).pulls = s.pulls ++ appended
        ∧ (appended.map (fun q => (q.head, q.retry_limit))).Sublist s.lazy_pulls
        ∧ ∀ q ∈ appended, q.account_or_head = q.head ∧ q.«end» = 0
            ∧ q.count = lazy_batch_count n s
            ∧ lazy_blocks_processed n s q.head = false ∧ n.block_exists q.head = false := by
  by_cases hroom : s.pulls.length < max_pulls n
  · obtain ⟨appended, h1, h2, _, h4⟩ :=
      lazy_pull_flush_loop_appends n (lazy_batch_count n s) s.lazy_blocks s.lazy_pulls 0 s.pulls
    refine ⟨appended, ?_, h2, fun q hq => ?_⟩
    · simp only [lazy_pull_flush, hroom, if_true, h1]
    · obtain ⟨a, b, c, _, _, d, e⟩ := h4 q hq
      exact ⟨a, b, c, by simpa [lazy_blocks_processed] using d, e⟩
  · refine ⟨[], ?_, by simp, by simp⟩
    simp only [lazy_pull_flush, hroom, if_false, List.append_nil]

/-! ## Seeds -/

/-- C11, as the code has it: `lazy_start (seed, confirmed)` inserts only a seed that is
new.  If `lazy_keys` holds fewer than `max_keys` hashes and the seed is neither in
`lazy_keys` nor processed in this attempt, then afterwards the seed is a member of
`lazy_keys` and `(seed, retry_limit)` is the last entry of `lazy_pulls`, where
`retry_limit` is the unlimited sentinel if `confirmed` and the configured
`lazy_retry_limit` otherwise, and no other member changes.  In every other case
`lazy_start` changes nothing. -/
theorem lazy_start_inserts_new_seed (n : node) (s : bootstrap_attempt_lazy) (seed : block_hash)
    (confirmed : Bool) :
    (s.lazy_keys.length < max_keys n → seed ∉ s.lazy_keys →
        lazy_blocks_processed n s seed = false →
      seed ∈ (lazy_start n s seed confirmed).lazy_keys
        ∧ (lazy_start n s seed confirmed).lazy_pulls
            = s.lazy_pulls ++ [(seed, if confirmed then unsigned_max else n.lazy_retry_limit)]
        ∧ lazy_start n s seed confirmed
            = { s with
                  lazy_keys := s.lazy_keys ++ [seed],
                  lazy_pulls := s.lazy_pulls ++
                    [(seed, if confirmed then unsigned_max else n.lazy_retry_limit)] })
      ∧ (¬ (s.lazy_keys.length < max_keys n ∧ seed ∉ s.lazy_keys
            ∧ lazy_blocks_processed n s seed = false) →
        lazy_start n s seed confirmed = s) := by
  constructor
  · intro h1 h2 h3
    have hstep : lazy_start n s seed confirmed
        = { s with
              lazy_keys := s.lazy_keys ++ [seed],
              lazy_pulls := s.lazy_pulls ++
                [(seed, if confirmed then unsigned_max else n.lazy_retry_limit)] } := by
      unfold lazy_start
      rw [if_pos ⟨h1, h2, h3⟩]
      simp [set_insert, h2]
    rw [hstep]
    exact ⟨by simp, rfl, rfl⟩
  · intro h
    unfold lazy_start
    rw [if_neg h]

theorem lazy_start_inserts_new_seed_witness :
    5 ∈ (lazy_start node_legacy attempt_fresh 5 true).lazy_keys
      ∧ (lazy_start node_legacy attempt_fresh 5 true).lazy_pulls
          = attempt_fresh.lazy_pulls ++ [(5, unsigned_max)] :=
  ⟨((lazy_start_inserts_new_seed node_legacy attempt_fresh 5 true).1
      (by decide) (by decide) (by decide)).1,
   ((lazy_start_inserts_new_seed node_legacy attempt_fresh 5 true).1
      (by decide) (by decide) (by decide)).2.1⟩

/-- C11 fails as stated, in two ways.  A seed that is already processed in this attempt
(block 3) is not inserted into `lazy_keys`.  A seed that is already in `lazy_keys`
(block 5, requested unconfirmed before) gets no entry with the unlimited sentinel when it
is requested again as confirmed. -/
theorem lazy_start_known_seed_ignored :
    (lazy_blocks_processed node_legacy attempt_backlog_link_seen 3 = true
      ∧ 3 ∉ (lazy_start node_legacy attempt_backlog_link_seen 3 true).lazy_keys
      ∧ (3, unsigned_max) ∉ (lazy_start node_legacy attempt_backlog_link_seen 3 true).lazy_pulls)
    ∧ (5 ∈ attempt_seeded.lazy_keys
      ∧ (5, unsigned_max) ∉ (lazy_start node_legacy attempt_seeded 5 true).lazy_pulls) := by
  decide

/-! ## What the member functions keep -/

theorem keeps_refl (s : bootstrap_attempt_lazy) : keeps s s := ⟨rfl, id⟩

theorem keeps_trans {s t u : bootstrap_attempt_lazy} (h1 : keeps s t) (h2 : keeps t u) :
    keeps s u := ⟨h2.1.trans h1.1, fun h => h2.2 (h1.2 h)⟩

/-- A step that touches neither the seeds nor the destinations keeps both. -/
theorem keeps_of_eq {s t : bootstrap_attempt_lazy} (h1 : t.lazy_keys = s.lazy_keys)
    (h2 : t.lazy_destinations = s.lazy_destinations) : keeps s t :=
  ⟨h1, fun h => h2 ▸ h⟩

theorem keeps_lazy_add (n : node) (s : bootstrap_attempt_lazy) (h r : Nat) :
    keeps s (lazy_add n s h r) := by
  rw [lazy_add_pulls]
  exact keeps_of_eq rfl rfl

theorem keeps_lazy_destinations_increment (n : node) (s : bootstrap_attempt_lazy)
    (a : account) : keeps s (lazy_destinations_increment n s a) := by
  constructor
  · rw [lazy_destinations_increment_frame]
  · intro hu
    cases hflag : n.disable_legacy_bootstrap with
    | true => exact (lazy_destinations_increment_enabled n s a hflag hu).2.2.1
    | false => rw [lazy_destinations_increment_disabled n s a hflag]; exact hu

theorem keeps_lazy_blocks_insert (n : node) (s : bootstrap_attempt_lazy) (h : block_hash) :
    keeps s (lazy_blocks_insert n s h) := by
  unfold lazy_blocks_insert
  split
  · exact keeps_refl s
  · exact keeps_of_eq rfl rfl

theorem keeps_lazy_blocks_erase (n : node) (s : bootstrap_attempt_lazy) (h : block_hash) :
    keeps s (lazy_blocks_erase n s h) := by
  unfold lazy_blocks_erase
  split
  · exact keeps_of_eq rfl rfl
  · exact keeps_refl s

theorem keeps_lazy_block_state (n : node) (s : bootstrap_attempt_lazy) (block_a : block)
    (retry_limit : Nat) : keeps s (lazy_block_state n s block_a retry_limit) := by
  unfold lazy_block_state
  split
  · split
    · split
      · exact keeps_lazy_add n s _ _
      · split
        · split
          · exact keeps_lazy_add n s _ _
          · exact keeps_lazy_destinations_increment n s _
        · split
          · split
            · simp only
              split
              · exact keeps_trans (keeps_lazy_add n s _ _) (keeps_of_eq rfl rfl)
              · exact keeps_trans (keeps_lazy_destinations_increment n s _)
                  (keeps_of_eq rfl rfl)
            · exact keeps_refl s
          · exact keeps_of_eq rfl rfl
    · exact keeps_refl s
  · exact keeps_refl s

theorem keeps_backlog_check (n : node) (s : bootstrap_attempt_lazy) (block_a : block)
    (hash_a : block_hash) : keeps s (lazy_block_state_backlog_check n s block_a hash_a) := by
  unfold lazy_block_state_backlog_check
  split
  · simp only
    split
    · split
      · exact keeps_trans (keeps_lazy_add n s _ _) (keeps_of_eq rfl rfl)
      · exact keeps_trans (keeps_lazy_destinations_increment n s _) (keeps_of_eq rfl rfl)
    · split
      · exact keeps_trans (keeps_lazy_add n s _ _) (keeps_of_eq rfl rfl)
      · exact keeps_of_eq rfl rfl
  · exact keeps_refl s

theorem keeps_process_block_lazy_dependencies (n : node) (s : bootstrap_attempt_lazy)
    (block_a : block) (retry_limit : Nat) :
    keeps s (process_block_lazy_dependencies n s block_a retry_limit) := by
  unfold process_block_lazy_dependencies
  split
  · exact keeps_lazy_add n s _ _
  · split
    · exact keeps_lazy_block_state n s block_a retry_limit
    · split
      · split
        · split
          · exact keeps_lazy_destinations_increment n s _
          · exact keeps_refl s
        · exact keeps_refl s
      · exact keeps_refl s

theorem keeps_process_block_lazy_balances (s : bootstrap_attempt_lazy) (block_a : block)
    (h : block_hash) (pull_blocks : Nat) :
    keeps s (process_block_lazy_balances s block_a h pull_blocks) := by
  unfold process_block_lazy_balances
  simp only
  split <;> split <;> exact keeps_of_eq rfl rfl

/-- The attempt a block leaves behind that was received before. -/
theorem process_block_lazy_seen (n : node) (s : bootstrap_attempt_lazy) (block_a : block)
    (known_account_a : account) (pull_blocks max_blocks retry_limit : Nat)
    (hseen : lazy_blocks_processed n s block_a.hash = true) :
    (process_block_lazy n s block_a known_account_a pull_blocks max_blocks retry_limit).2 = s := by
  simp [process_block_lazy, hseen]

theorem keeps_process_block_lazy (n : node) (s : bootstrap_attempt_lazy) (block_a : block)
    (known_account_a : account) (pull_blocks max_blocks retry_limit : Nat) :
    keeps s (process_block_lazy n s block_a known_account_a pull_blocks max_blocks
      retry_limit).2 := by
  cases hnew : lazy_blocks_processed n s block_a.hash with
  | true =>
    rw [process_block_lazy_seen n s block_a known_account_a pull_blocks max_blocks retry_limit
      hnew]
    exact keeps_refl s
  | false =>
    rw [process_block_lazy_new n s block_a known_account_a pull_blocks max_blocks retry_limit
      hnew]
    refine keeps_trans (keeps_process_block_lazy_dependencies n s block_a retry_limit) ?_
    refine keeps_trans (keeps_lazy_blocks_insert n _ block_a.hash) ?_
    refine keeps_trans (keeps_process_block_lazy_balances _ block_a block_a.hash pull_blocks) ?_
    exact keeps_trans (keeps_backlog_check n _ block_a block_a.hash) (keeps_of_eq rfl rfl)

theorem keeps_process_block (n : node) (s : bootstrap_attempt_lazy) (block_a : block)
    (known_account_a : account) (pull_blocks max_blocks : Nat) (block_expected : Bool)
    (retry_limit : Nat) :
    keeps s (process_block n s block_a known_account_a pull_blocks max_blocks block_expected
      retry_limit).2 := by
  unfold process_block
  split
  · exact keeps_process_block_lazy n s block_a known_account_a pull_blocks max_blocks
      retry_limit
  · exact keeps_refl s

theorem keeps_requeue_pull_lazy (n : node) (s : bootstrap_attempt_lazy) (pull_a : pull_info)
    (network_error : Bool) : keeps s (requeue_pull_lazy n s pull_a network_error) := by
  unfold requeue_pull_lazy
  simp only
  split
  · exact keeps_of_eq rfl rfl
  · split
    · split
      · exact keeps_of_eq rfl rfl
      · exact keeps_of_eq rfl rfl
    · split
      · exact keeps_trans (keeps_of_eq rfl rfl) (keeps_lazy_add n _ _ _)
      · exact keeps_of_eq rfl rfl

theorem keeps_lazy_requeue (n : node) (s : bootstrap_attempt_lazy)
    (hash_a previous_a : block_hash) (confirmed_a : Bool) :
    keeps s (lazy_requeue n s hash_a previous_a confirmed_a) := by
  unfold lazy_requeue
  split
  · exact keeps_trans (keeps_lazy_blocks_erase n s hash_a) (keeps_requeue_pull_lazy n _ _ _)
  · exact keeps_refl s

theorem keeps_lazy_pull_flush (n : node) (now : Nat) (s : bootstrap_attempt_lazy) :
    keeps s (lazy_pull_flush n now s) := by
  unfold lazy_pull_flush
  split
  · exact keeps_of_eq rfl rfl
  · exact keeps_refl s

theorem keeps_lazy_backlog_cleanup_loop (n : node) :
    ∀ (entries : List (block_hash × lazy_state_backlog_item)) (s : bootstrap_attempt_lazy),
      keeps s (lazy_backlog_cleanup_loop n entries s) := by
  intro entries
  induction entries with
  | nil => intro s; exact keeps_refl s
  | cons entry rest ih =>
    intro s
    obtain ⟨hash, next_block⟩ := entry
    unfold lazy_backlog_cleanup_loop
    split
    · simp only
      split
      · exact keeps_trans (keeps_trans (keeps_lazy_add n s _ _) (keeps_of_eq rfl rfl)) (ih _)
      · exact keeps_trans
          (keeps_trans (keeps_lazy_destinations_increment n s _) (keeps_of_eq rfl rfl)) (ih _)
    · exact keeps_trans (keeps_lazy_add n s _ _) (ih _)

theorem keeps_lazy_backlog_cleanup (n : node) (s : bootstrap_attempt_lazy) :
    keeps s (lazy_backlog_cleanup n s) := by
  unfold lazy_backlog_cleanup
  split
  · exact keeps_refl s
  · exact keeps_lazy_backlog_cleanup_loop n _ s

/-- The flush loop leaves the seeds alone and a tail of the destinations it was given. -/
theorem lazy_destinations_flush_loop_keeps (n : node) :
    ∀ (items : List lazy_destinations_item) (count : Nat) (s : bootstrap_attempt_lazy),
      (lazy_destinations_flush_loop n count items s).lazy_keys = s.lazy_keys
        ∧ (lazy_destinations_flush_loop n count items s).lazy_destinations
            = items.drop (min items.length (n.lazy_destinations_request_limit - count)) := by
  intro items
  induction items with
  | nil => intro count s; simp [lazy_destinations_flush_loop]
  | cons item rest ih =>
    intro count s
    unfold lazy_destinations_flush_loop
    split
    · rename_i hlt
      obtain ⟨h1, h2⟩ := ih (count + 1) (lazy_add n s item.account n.lazy_destinations_retry_limit)
      refine ⟨h1.trans (keeps_lazy_add n s _ _).1, ?_⟩
      rw [h2]
      have hsub : n.lazy_destinations_request_limit - count
          = (n.lazy_destinations_request_limit - (count + 1)) + 1 := by omega
      rw [hsub, List.length_cons, Nat.succ_min_succ, List.drop_succ_cons]
    · rename_i hge
      have hz : n.lazy_destinations_request_limit - count = 0 := by omega
      simp [hz]

theorem keeps_lazy_destinations_flush (n : node) (s : bootstrap_attempt_lazy) :
    keeps s (lazy_destinations_flush n s) := by
  unfold lazy_destinations_flush
  simp only
  split
  · exact keeps_of_eq rfl rfl
  · obtain ⟨h1, h2⟩ := lazy_destinations_flush_loop_keeps n s.lazy_destinations 0
      { s with lazy_destinations_flushed := true }
    refine ⟨h1, fun hu => ?_⟩
    rw [h2]
    unfold destinations_unique at *
    exact ((List.drop_sublist _ _).map _).nodup hu

theorem keeps_request_pull_lazy (n : node) (connection_l : Bool) (s : bootstrap_attempt_lazy) :
    keeps s (request_pull_lazy n connection_l s).2 := by
  unfold request_pull_lazy
  split
  · split
    · exact keeps_refl s
    · exact keeps_of_eq rfl rfl
  · exact keeps_refl s

/-- Every call other than `lazy_start` and `lazy_finished` leaves the seeds as they are,
and every call keeps the accounts of the destinations unique. -/
theorem step_keeps (n : node) {s t : bootstrap_attempt_lazy} (h : step n s t) :
    (destinations_unique s.lazy_destinations → destinations_unique t.lazy_destinations)
      ∧ (t.lazy_keys = s.lazy_keys
        ∨ (∃ e b seed confirmed, t = lazy_start (n.with_storage e b) s seed confirmed)
        ∨ ∃ e b, t = (lazy_finished (n.with_storage e b) s).2) := by
  cases h with
  | lazy_start e b _ seed confirmed =>
    refine ⟨?_, Or.inr (Or.inl ⟨e, b, seed, confirmed, rfl⟩)⟩
    unfold lazy_start
    split
    · exact id
    · exact id
  | lazy_finished e b =>
    refine ⟨?_, Or.inr (Or.inr ⟨e, b, rfl⟩)⟩
    unfold lazy_finished
    split
    · exact id
    · exact id
  | process_block e b _ block_a known_account_a pull_blocks max_blocks block_expected
      retry_limit =>
    have := keeps_process_block (n.with_storage e b) s block_a known_account_a pull_blocks
      max_blocks block_expected retry_limit
    exact ⟨this.2, Or.inl this.1⟩
  | requeue_pull_lazy e b _ pull_a network_error =>
    have := keeps_requeue_pull_lazy (n.with_storage e b) s pull_a network_error
    exact ⟨this.2, Or.inl this.1⟩
  | lazy_requeue e b _ hash_a previous_a confirmed_a =>
    have := keeps_lazy_requeue (n.with_storage e b) s hash_a previous_a confirmed_a
    exact ⟨this.2, Or.inl this.1⟩
  | lazy_pull_flush e b now =>
    have := keeps_lazy_pull_flush (n.with_storage e b) now s
    exact ⟨this.2, Or.inl this.1⟩
  | lazy_backlog_cleanup e b =>
    have := keeps_lazy_backlog_cleanup (n.with_storage e b) s
    exact ⟨this.2, Or.inl this.1⟩
  | lazy_destinations_flush e b =>
    have := keeps_lazy_destinations_flush (n.with_storage e b) s
    exact ⟨this.2, Or.inl this.1⟩
  | request_pull_lazy e b connection_l =>
    have := keeps_request_pull_lazy (n.with_storage e b) connection_l s
    exact ⟨this.2, Or.inl this.1⟩
  | lazy_run_start now => exact ⟨id, Or.inl rfl⟩
  | stop => exact ⟨id, Or.inl rfl⟩

/-- The seeds of a reachable attempt are pairwise distinct and at most `max_keys`. -/
theorem reachable_lazy_keys (n : node) {s : bootstrap_attempt_lazy} (hr : reachable n s) :
    s.lazy_keys.Nodup ∧ s.lazy_keys.length ≤ max_keys n := by
  induction hr with
  | start now => exact ⟨List.nodup_nil, Nat.zero_le _⟩
  | @next s0 t _ hstep ih =>
    rcases (step_keeps n hstep).2 with h | ⟨e, b, seed, confirmed, h⟩ | ⟨e, b, h⟩
    · rw [h]; exact ih
    · rw [h]
      unfold lazy_start
      split
      · rename_i hc
        have hmax : max_keys (n.with_storage e b) = max_keys n := rfl
        simp only [set_insert, hc.2.1, if_false]
        refine ⟨?_, ?_⟩
        · rw [List.nodup_append]
          refine ⟨ih.1, List.nodup_singleton _, ?_⟩
          intro x hx hx2
          rw [List.mem_singleton] at hx2
          exact hc.2.1 (hx2 ▸ hx)
        · have := hc.1
          rw [hmax] at this
          simp only [List.length_append, List.length_singleton]
          omega
      · exact ih
    · rw [h]
      unfold lazy_finished
      split
      · exact ih
      · simp only
        have hsub : (s0.lazy_keys.dropWhile (n.with_storage e b).block_exists).Sublist
            s0.lazy_keys := (List.dropWhile_suffix _).sublist
        exact ⟨hsub.nodup ih.1, Nat.le_trans hsub.length_le ih.2⟩

/-- C12: in every state reachable from the empty attempt by any sequence of calls
(`lazy_start`, `lazy_finished`, block processing and every other member function), the
hashes in `lazy_keys` are pairwise distinct and there are at most 1024 of them when
legacy bootstrap is enabled and at most 4096 when it is disabled; and a `lazy_start` call
made when the cap is reached changes nothing, so neither `lazy_keys` nor `lazy_pulls`. -/
theorem lazy_keys_capped (n : node) (s : bootstrap_attempt_lazy) (hr : reachable n s) :
    s.lazy_keys.Nodup
      ∧ (n.disable_legacy_bootstrap = false → s.lazy_keys.length ≤ 1024)
      ∧ (n.disable_legacy_bootstrap = true → s.lazy_keys.length ≤ 4096)
      ∧ ∀ (e : block_hash → Bool) (b : block_hash → Nat) (seed : block_hash) (confirmed : Bool),
          max_keys n ≤ s.lazy_keys.length →
            lazy_start (n.with_storage e b) s seed confirmed = s
              ∧ (lazy_start (n.with_storage e b) s seed confirmed).lazy_keys = s.lazy_keys
              ∧ (lazy_start (n.with_storage e b) s seed confirmed).lazy_pulls = s.lazy_pulls := by
  obtain ⟨h1, h2⟩ := reachable_lazy_keys n hr
  refine ⟨h1, ?_, ?_, ?_⟩
  · intro hflag
    simpa [max_keys, hflag] using h2
  · intro hflag
    simpa [max_keys, hflag] using h2
  · intro e b seed confirmed hcap
    have hmax : max_keys (n.with_storage e b) = max_keys n := rfl
    have hsame : lazy_start (n.with_storage e b) s seed confirmed = s := by
      unfold lazy_start
      rw [if_neg]
      rintro ⟨hlt, -, -⟩
      rw [hmax] at hlt
      omega
    rw [hsame]
    exact ⟨rfl, rfl, rfl⟩

theorem lazy_keys_capped_witness :
    (lazy_start (node_legacy.with_storage node_legacy.block_exists node_legacy.balance)
        { attempt_fresh with last_lazy_flush := 0 } 5 true).lazy_keys.length ≤ 1024 :=
  (lazy_keys_capped node_legacy _
    (reachable.next (reachable.start 0)
      (step.lazy_start node_legacy.block_exists node_legacy.balance _ 5 true))).2.1 rfl

/-! ## Expiry -/

/-- C13, as the code has it: `lazy_has_expired ()` returns true if and only if the time
elapsed since `lazy_start_time` has reached the wall-clock cap, or legacy bootstrap is
available and `lazy_blocks_count` exceeds `lazy_blocks_restart_limit`.  The cap is a
function-local static: the first call in the process fixes it, at 30 minutes when legacy
bootstrap is available for the node of that call and at 7 days = 10080 minutes when it is
disabled, and no later call changes it.  So in the first call, and in a process whose
static was fixed for a node with the same flag, the cap is that of the flag of the node;
with legacy bootstrap disabled the number of received blocks never expires the
attempt. -/
theorem lazy_has_expired_iff (n : node) (now : Nat) (initialised : Option Nat)
    (s : bootstrap_attempt_lazy) :
    ((lazy_has_expired n now initialised s).1 = true ↔
        (now - s.lazy_start_time ≥ max_lazy_time n initialised * steady_clock_minute
          ∨ (n.disable_legacy_bootstrap = false
            ∧ s.lazy_blocks_count > n.lazy_blocks_restart_limit)))
      ∧ (lazy_has_expired n now initialised s).2 = some (max_lazy_time n initialised)
      ∧ (∀ minutes, initialised = some minutes → max_lazy_time n initialised = minutes)
      ∧ ((initialised = none ∨ initialised = some (max_lazy_time n none)) →
          (n.disable_legacy_bootstrap = false → max_lazy_time n initialised = 30)
            ∧ (n.disable_legacy_bootstrap = true → max_lazy_time n initialised = 10080)
            ∧ (n.disable_legacy_bootstrap = true →
                ((lazy_has_expired n now initialised s).1 = true ↔
                  now - s.lazy_start_time ≥ 10080 * steady_clock_minute))) := by
  have hmain : (lazy_has_expired n now initialised s).1 = true ↔
      (now - s.lazy_start_time ≥ max_lazy_time n initialised * steady_clock_minute
        ∨ (n.disable_legacy_bootstrap = false
          ∧ s.lazy_blocks_count > n.lazy_blocks_restart_limit)) := by
    unfold lazy_has_expired
    simp only
    split
    · rename_i h; simp [h]
    · rename_i h
      split
      · rename_i h2; simp [h2]
      · rename_i h2; simp [h, h2]
  refine ⟨hmain, rfl, ?_, ?_⟩
  · intro minutes h
    rw [h]
    rfl
  · intro hinit
    have hown : max_lazy_time n initialised = max_lazy_time n none := by
      rcases hinit with h | h
      · rw [h]
      · rw [h]; rfl
    have hfalse : n.disable_legacy_bootstrap = false → max_lazy_time n initialised = 30 := by
      intro hflag
      rw [hown]
      simp [max_lazy_time, hflag]
    have htrue : n.disable_legacy_bootstrap = true → max_lazy_time n initialised = 10080 := by
      intro hflag
      rw [hown]
      simp [max_lazy_time, hflag]
    refine ⟨hfalse, htrue, ?_⟩
    intro hflag
    rw [hmain, htrue hflag]
    simp [hflag]

/-- C13 fails as stated: at a node with legacy bootstrap disabled and a restart limit of
one block, an attempt that has just started and holds two hashes in `lazy_blocks` has not
expired, whether the call is the first in the process or not.  And the cap follows the
first call in the process rather than the node: once a call for a node with legacy
bootstrap available has fixed the static at 30 minutes, an attempt of a node with legacy
bootstrap disabled expires after 31 minutes. -/
theorem lazy_has_expired_ignores_blocks_without_legacy :
    (node_lazy_only_small.disable_legacy_bootstrap = true
      ∧ attempt_two_blocks.lazy_blocks.length > node_lazy_only_small.lazy_blocks_restart_limit
      ∧ attempt_two_blocks.lazy_blocks_count = attempt_two_blocks.lazy_blocks.length
      ∧ (lazy_has_expired node_lazy_only_small 0 none attempt_two_blocks).1 = false
      ∧ (lazy_has_expired node_lazy_only_small 0 (some 10080) attempt_two_blocks).1 = false)
    ∧ ((lazy_has_expired node_legacy 0 none attempt_fresh).2 = some 30
      ∧ node_lazy_only.disable_legacy_bootstrap = true
      ∧ (lazy_has_expired node_lazy_only (31 * steady_clock_minute) (some 30)
          attempt_fresh).1 = true) := by
  decide

/-! ## The stop flag and the block processor -/

/-- C14: `process_block` of the lazy attempt returns `stop_pull = true` if and only if the
block was not expected or the pull has delivered more blocks than allowed
(`pull_blocks > max_blocks`); `process_block_lazy` returns true exactly when
`pull_blocks > max_blocks`, whether or not the block was new; and an unexpected block
leaves the attempt, and with it what was handed to the block processor, as it was. -/
theorem process_block_stop_pull (n : node) (s : bootstrap_attempt_lazy) (block_a : block)
    (known_account_a : account) (pull_blocks max_blocks : Nat) (block_expected : Bool)
    (retry_limit : Nat) :
    ((process_block n s block_a known_account_a pull_blocks max_blocks block_expected
          retry_limit).1 = true
        ↔ (block_expected = false ∨ pull_blocks > max_blocks))
      ∧ ((process_block_lazy n s block_a known_account_a pull_blocks max_blocks
          retry_limit).1 = true ↔ pull_blocks > max_blocks)
      ∧ (block_expected = false →
          (process_block n s block_a known_account_a pull_blocks max_blocks block_expected
            retry_limit).2 = s) := by
  have hlazy : (process_block_lazy n s block_a known_account_a pull_blocks max_blocks
      retry_limit).1 = true ↔ pull_blocks > max_blocks := by
    simp [process_block_lazy]
  refine ⟨?_, hlazy, ?_⟩
  · cases block_expected with
    | true => simp only [process_block, if_true, hlazy]; simp
    | false => simp [process_block]
  · intro h
    simp [process_block, h]

theorem lazy_has_expired_iff_witness :
    max_lazy_time node_legacy none = 30
      ∧ ((lazy_has_expired node_lazy_only 5 (some 10080) attempt_fresh).1 = true
          ↔ 5 - attempt_fresh.lazy_start_time ≥ 10080 * steady_clock_minute) :=
  ⟨((lazy_has_expired_iff node_legacy 5 none attempt_fresh).2.2.2 (Or.inl rfl)).1 rfl,
   ((lazy_has_expired_iff node_lazy_only 5 (some 10080) attempt_fresh).2.2.2
      (Or.inr rfl)).2.2 rfl⟩

theorem process_block_stop_pull_witness :
    (process_block node_legacy attempt_fresh (block.send 7 6 8 40) 0 0 512 false 2).2
      = attempt_fresh :=
  (process_block_stop_pull node_legacy attempt_fresh (block.send 7 6 8 40) 0 0 512 false 2).2.2
    rfl

theorem lazy_block_state_processor (n : node) (s : bootstrap_attempt_lazy) (block_a : block)
    (retry_limit : Nat) :
    (lazy_block_state n s block_a retry_limit).block_processor = s.block_processor := by
  unfold lazy_block_state
  split
  · split
    · split
      · exact (lazy_add_frame n s _ _).2.2.2.2.2
      · split
        · split
          · exact (lazy_add_frame n s _ _).2.2.2.2.2
          · exact (lazy_destinations_increment_others n s _).2.2.2.2.2
        · split
          · split
            · simp only
              split
              · exact (lazy_add_frame n s _ _).2.2.2.2.2
              · exact (lazy_destinations_increment_others n s _).2.2.2.2.2
            · rfl
          · rfl
    · rfl
  · rfl

theorem process_block_lazy_dependencies_processor (n : node) (s : bootstrap_attempt_lazy)
    (block_a : block) (retry_limit : Nat) :
    (process_block_lazy_dependencies n s block_a retry_limit).block_processor
      = s.block_processor := by
  unfold process_block_lazy_dependencies
  split
  · exact (lazy_add_frame n s _ _).2.2.2.2.2
  · split
    · exact lazy_block_state_processor n s block_a retry_limit
    · split
      · split
        · split
          · exact (lazy_destinations_increment_others n s _).2.2.2.2.2
          · rfl
        · rfl
      · rfl

/-- The backlog check touches neither `lazy_blocks`, nor `lazy_balances`, nor what was
handed to the block processor. -/
theorem backlog_check_frame (n : node) (s : bootstrap_attempt_lazy) (block_a : block)
    (hash_a : block_hash) :
    (lazy_block_state_backlog_check n s block_a hash_a).lazy_blocks = s.lazy_blocks
      ∧ (lazy_block_state_backlog_check n s block_a hash_a).lazy_balances = s.lazy_balances
      ∧ (lazy_block_state_backlog_check n s block_a hash_a).block_processor
          = s.block_processor := by
  unfold lazy_block_state_backlog_check
  split
  · simp only
    split
    · split
      · exact ⟨(lazy_add_frame n s _ _).2.2.1, (lazy_add_frame n s _ _).2.2.2.1,
          (lazy_add_frame n s _ _).2.2.2.2.2⟩
      · exact ⟨(lazy_destinations_increment_others n s _).2.2.1,
          (lazy_destinations_increment_others n s _).2.2.2.1,
          (lazy_destinations_increment_others n s _).2.2.2.2.2⟩
    · split
      · exact ⟨(lazy_add_frame n s _ _).2.2.1, (lazy_add_frame n s _ _).2.2.2.1,
          (lazy_add_frame n s _ _).2.2.2.2.2⟩
      · exact ⟨rfl, rfl, rfl⟩
  · exact ⟨rfl, rfl, rfl⟩

/-- C15: for every block not yet processed in this attempt, `process_block_lazy` hands
exactly one item to the block processor, behind the items handed over before: it carries
that block and the known account, and its last flag (the `verified` of the spec) is true
if and only if `retry_limit` is the unlimited sentinel.  Afterwards
`lazy_blocks_processed` reports the hash of the block as processed. -/
theorem process_block_lazy_submits (n : node) (s : bootstrap_attempt_lazy) (block_a : block)
    (known_account_a : account) (pull_blocks max_blocks retry_limit : Nat)
    (hnew : lazy_blocks_processed n s block_a.hash = false) :
    (∃ info : unchecked_info,
        (process_block_lazy n s block_a known_account_a pull_blocks max_blocks
            retry_limit).2.block_processor = s.block_processor ++ [info]
          ∧ info.block = block_a ∧ info.account = known_account_a
          ∧ (info.confirmed = true ↔ retry_limit = unsigned_max))
      ∧ lazy_blocks_processed n
          (process_block_lazy n s block_a known_account_a pull_blocks max_blocks retry_limit).2
          block_a.hash = true := by
  rw [process_block_lazy_new n s block_a known_account_a pull_blocks max_blocks retry_limit hnew]
  have hc := backlog_check_frame n
    (process_block_lazy_balances
      (lazy_blocks_insert n (process_block_lazy_dependencies n s block_a retry_limit) block_a.hash)
      block_a block_a.hash pull_blocks) block_a block_a.hash
  have hb := process_block_lazy_balances_frame
    (lazy_blocks_insert n (process_block_lazy_dependencies n s block_a retry_limit) block_a.hash)
    block_a block_a.hash pull_blocks
  have hi := lazy_blocks_insert_frame n (process_block_lazy_dependencies n s block_a retry_limit)
    block_a.hash
  have hd := process_block_lazy_dependencies_processor n s block_a retry_limit
  have hdb := process_block_lazy_dependencies_blocks n s block_a retry_limit
  constructor
  · refine ⟨{ block := block_a, account := known_account_a, modified := 0,
              confirmed := decide (retry_limit = unsigned_max) }, ?_, rfl, rfl, by simp⟩
    show (lazy_block_state_backlog_check n _ block_a block_a.hash).block_processor ++ _ = _
    rw [hc.2.2, hb.2.2.2.2.2, hi.2.2.2.2.2, hd]
  · show decide (n.hash_digest block_a.hash
      ∈ (lazy_block_state_backlog_check n _ block_a block_a.hash).lazy_blocks) = true
    rw [hc.1, hb.2.2.2.1]
    have hnotin : n.hash_digest block_a.hash ∉ s.lazy_blocks := by
      simpa [lazy_blocks_processed] using hnew
    simp [lazy_blocks_insert, hdb, hnotin, set_insert]

theorem process_block_lazy_submits_witness :
    lazy_blocks_processed node_legacy
      (process_block_lazy node_legacy attempt_fresh (block.send 7 6 8 40) 0 0 512
        unsigned_max).2 (block.send 7 6 8 40).hash = true :=
  (process_block_lazy_submits node_legacy attempt_fresh (block.send 7 6 8 40) 0 0 512
    unsigned_max (by decide)).2

/-! ## Destinations are unique by account -/

/-- With legacy bootstrap disabled, the destinations after an increment for `a` are the
other destinations, in the order they had, with one item for `a` put among them whose
count is the count `a` had plus one, in `uint64_t`. -/
theorem lazy_destinations_increment_shape (n : node) (s : bootstrap_attempt_lazy)
    (a : account) (hflag : n.disable_legacy_bootstrap = true) :
    ∃ m1 m2 : List lazy_destinations_item,
      (lazy_destinations_increment n s a).lazy_destinations
          = m1 ++ ({ account := a, count := (destinations_count s.lazy_destinations a + 1) % 2 ^ 64 } :
              lazy_destinations_item) :: m2
        ∧ (m1 ++ m2).filter (fun e => e.account != a)
            = s.lazy_destinations.filter (fun e => e.account != a)
        ∧ (destinations_unique s.lazy_destinations → ∀ x ∈ m1 ++ m2, x.account ≠ a) := by
  by_cases hany : s.lazy_destinations.any (fun e => e.account == a) = true
  · have hex : ∃ e ∈ s.lazy_destinations, e.account = a := by
      obtain ⟨e, he, hea⟩ := List.any_eq_true.mp hany
      exact ⟨e, he, by simpa using hea⟩
    obtain ⟨e, l1, l2, m1, m2, h1, h2, h3, h4, h5⟩ :=
      destinations_modify_split a s.lazy_destinations [] hex
    have h4' : l1 ++ l2 = m1 ++ m2 := by simpa using h4
    have hcount : destinations_count s.lazy_destinations a = e.count := by
      rw [h1]
      have := destinations_count_inserted e l1 l2 (fun x hx => h2 ▸ h3 x hx)
      rw [h2] at this
      exact this
    refine ⟨m1, m2, ?_, ?_, ?_⟩
    · simp [lazy_destinations_increment, hflag, hany, h5, hcount]
    · rw [← h4', h1]
      have hpe : (e.account != a) = false := by simp [h2]
      simp [List.filter_append, List.filter_cons, hpe]
    · intro hu x hx
      rw [← h4'] at hx
      have hu' : destinations_unique (l1 ++ e :: l2) := h1 ▸ hu
      rcases List.mem_append.mp hx with hx | hx
      · exact h3 x hx
      · intro hxa
        unfold destinations_unique at hu'
        rw [List.map_append, List.map_cons, List.nodup_append] at hu'
        have := (List.nodup_cons.mp hu'.2.1).1
        exact this (List.mem_map.mpr ⟨x, hx, by rw [hxa, h2]⟩)
  · have hany' : s.lazy_destinations.any (fun e => e.account == a) = false := by
      simpa using hany
    have hno : ∀ x ∈ s.lazy_destinations, x.account ≠ a := by
      intro x hx hxa
      exact hany (List.any_eq_true.mpr ⟨x, hx, by simpa using hxa⟩)
    obtain ⟨m1, m2, h1, h2⟩ :=
      destinations_link_split { account := a, count := 1 } s.lazy_destinations
    refine ⟨m1, m2, ?_, by rw [← h1], fun _ x hx => hno x (h1 ▸ hx)⟩
    simp [lazy_destinations_increment, hflag, hany', destinations_emplace, h2,
      destinations_count_absent _ a hno]

/-- The destinations a new send block leaves behind: those of one increment for its
destination, or of one more increment made by the backlog check. -/
theorem process_block_lazy_send_destinations (n : node) (s : bootstrap_attempt_lazy)
    (hash previous destination balance : Nat) (known_account_a : account)
    (pull_blocks max_blocks retry_limit : Nat) (hd : destination ≠ 0)
    (hnew : lazy_blocks_processed n s hash = false) :
    process_block_lazy_dependencies n s (block.send hash previous destination balance)
        retry_limit = lazy_destinations_increment n s destination
      ∧ (map_find hash s.lazy_state_backlog = none →
          (process_block_lazy n s (block.send hash previous destination balance)
              known_account_a pull_blocks max_blocks retry_limit).2.lazy_destinations
            = (lazy_destinations_increment n s destination).lazy_destinations)
      ∧ ((process_block_lazy n s (block.send hash previous destination balance)
              known_account_a pull_blocks max_blocks retry_limit).2.lazy_destinations
            = (lazy_destinations_increment n s destination).lazy_destinations
          ∨ ∃ link,
            (process_block_lazy n s (block.send hash previous destination balance)
                known_account_a pull_blocks max_blocks retry_limit).2.lazy_destinations
              = (lazy_destinations_increment n (lazy_destinations_increment n s destination)
                  link).lazy_destinations) := by
  have hdep : process_block_lazy_dependencies n s (block.send hash previous destination balance)
      retry_limit = lazy_destinations_increment n s destination := by
    simp [process_block_lazy_dependencies, block.source, block.type, hd]
  have hnew' : lazy_blocks_processed n s (block.send hash previous destination balance).hash
      = false := hnew
  rw [process_block_lazy_new n s _ known_account_a pull_blocks max_blocks retry_limit hnew', hdep]
  have hb := process_block_lazy_balances_frame
    (lazy_blocks_insert n (lazy_destinations_increment n s destination)
      (block.send hash previous destination balance).hash)
    (block.send hash previous destination balance)
    (block.send hash previous destination balance).hash pull_blocks
  have hi := lazy_blocks_insert_frame n (lazy_destinations_increment n s destination)
    (block.send hash previous destination balance).hash
  have hdest := hb.2.2.1.trans hi.2.2.1
  have hback := (hb.2.1.trans hi.2.1).trans (lazy_destinations_increment_others n s destination).1
  revert hdest hback
  generalize process_block_lazy_balances
    (lazy_blocks_insert n (lazy_destinations_increment n s destination)
      (block.send hash previous destination balance).hash)
    (block.send hash previous destination balance)
    (block.send hash previous destination balance).hash pull_blocks = s3
  intro hdest hback
  refine ⟨rfl, ?_, ?_⟩
  · intro hnone
    show (lazy_block_state_backlog_check n s3 _ _).lazy_destinations = _
    have hnone3 : map_find (block.send hash previous destination balance).hash
        s3.lazy_state_backlog = none := by rw [hback]; exact hnone
    simp only [lazy_block_state_backlog_check, hnone3]
    exact hdest
  · show (lazy_block_state_backlog_check n s3 _ _).lazy_destinations = _ ∨
      ∃ link, (lazy_block_state_backlog_check n s3 _ _).lazy_destinations = _
    cases hfind : map_find (block.send hash previous destination balance).hash
        s3.lazy_state_backlog with
    | none =>
      left
      simp only [lazy_block_state_backlog_check, hfind]
      exact hdest
    | some item =>
      obtain ⟨_, h2⟩ := backlog_check_found n s3 (block.send hash previous destination balance)
        (block.send hash previous destination balance).hash item hfind
      by_cases hle : (block.send hash previous destination balance).balance ≤ item.balance
      · left
        exact ((h2 (Or.inr rfl)).1 hle).2.trans hdest
      · right
        refine ⟨item.link, ?_⟩
        rw [((h2 (Or.inr rfl)).2 (Nat.not_le.mp hle)).2]
        exact lazy_destinations_increment_congr n s3 _ item.link hdest

/-- C16, as the code has it: `lazy_destinations` is unique by account: in every reachable
state no two entries share an account.  With legacy bootstrap disabled,
`lazy_destinations_increment (a)` leaves exactly one entry for `a`, whose count is its
previous count plus one in `uint64_t`, that is modulo 2^64 (1 if `a` was absent), while
every other entry is unchanged and keeps its place among the others.  Processing a new legacy send block with non-zero
destination `d` performs one such increment for `d` in its dependency search; when the
backlog holds no entry for the hash of the block, this is all the call does to the
destinations, and otherwise the backlog check may perform one more increment, for the
link of the deferred state block. -/
theorem lazy_destinations_unique_by_account (n : node) :
    (∀ s, reachable n s → destinations_unique s.lazy_destinations)
      ∧ (∀ (s : bootstrap_attempt_lazy) (a : account), n.disable_legacy_bootstrap = true →
          destinations_unique s.lazy_destinations →
          (lazy_destinations_increment n s a).lazy_destinations.filter
              (fun e => e.account == a)
            = [{ account := a, count := (destinations_count s.lazy_destinations a + 1) % 2 ^ 64 }]
          ∧ (lazy_destinations_increment n s a).lazy_destinations.filter
              (fun e => e.account != a)
            = s.lazy_destinations.filter (fun e => e.account != a)
          ∧ destinations_unique (lazy_destinations_increment n s a).lazy_destinations)
      ∧ (∀ (s : bootstrap_attempt_lazy) (hash previous d balance : Nat)
          (known_account_a : account) (pull_blocks max_blocks retry_limit : Nat),
          d ≠ 0 → lazy_blocks_processed n s hash = false →
          process_block_lazy_dependencies n s (block.send hash previous d balance) retry_limit
              = lazy_destinations_increment n s d
            ∧ (map_find hash s.lazy_state_backlog = none →
              (process_block_lazy n s (block.send hash previous d balance) known_account_a
                  pull_blocks max_blocks retry_limit).2.lazy_destinations
                = (lazy_destinations_increment n s d).lazy_destinations)
            ∧ ((process_block_lazy n s (block.send hash previous d balance) known_account_a
                  pull_blocks max_blocks retry_limit).2.lazy_destinations
                = (lazy_destinations_increment n s d).lazy_destinations
              ∨ ∃ link,
                (process_block_lazy n s (block.send hash previous d balance) known_account_a
                    pull_blocks max_blocks retry_limit).2.lazy_destinations
                  = (lazy_destinations_increment n (lazy_destinations_increment n s d)
                      link).lazy_destinations)) := by
  refine ⟨?_, ?_, ?_⟩
  · intro s hr
    induction hr with
    | start now => exact List.nodup_nil
    | next _ hstep ih => exact (step_keeps n hstep).1 ih
  · intro s a hflag hu
    obtain ⟨m1, m2, h1, h2, h3⟩ := lazy_destinations_increment_shape n s a hflag
    have hno := h3 hu
    have hm1 : m1.filter (fun e => e.account == a) = [] := by
      rw [List.filter_eq_nil_iff]
      intro x hx
      simpa using hno x (List.mem_append_left _ hx)
    have hm2 : m2.filter (fun e => e.account == a) = [] := by
      rw [List.filter_eq_nil_iff]
      intro x hx
      simpa using hno x (List.mem_append_right _ hx)
    refine ⟨?_, ?_, (keeps_lazy_destinations_increment n s a).2 hu⟩
    · rw [h1]
      simp [List.filter_append, List.filter_cons, hm1, hm2]
    · rw [h1, ← h2]
      simp [List.filter_append, List.filter_cons]
  · intro s hash previous d balance known_account_a pull_blocks max_blocks retry_limit hd hnew
    exact process_block_lazy_send_destinations n s hash previous d balance known_account_a
      pull_blocks max_blocks retry_limit hd hnew

theorem lazy_destinations_unique_by_account_witness :
    destinations_unique (lazy_destinations_increment node_lazy_only attempt_fresh 8).lazy_destinations
      ∧ (lazy_destinations_increment node_lazy_only attempt_fresh 8).lazy_destinations.filter
          (fun e => e.account == 8)
        = [{ account := 8, count := (destinations_count attempt_fresh.lazy_destinations 8 + 1) % 2 ^ 64 }]
      ∧ (lazy_destinations_increment node_lazy_only attempt_destination_full
          8).lazy_destinations.filter (fun e => e.account == 8)
        = [{ account := 8, count := 0 }] :=
  ⟨((lazy_destinations_unique_by_account node_lazy_only).2.1 attempt_fresh 8 rfl
      (by decide)).2.2,
   ((lazy_destinations_unique_by_account node_lazy_only).2.1 attempt_fresh 8 rfl
      (by decide)).1,
   ((lazy_destinations_unique_by_account node_lazy_only).2.1 attempt_destination_full 8 rfl
      (by decide)).1⟩

/-- C16 fails as stated in its last part: account 1 sends to destination 8 twice in a
row, with a legacy send block 7 (balance 60) followed by a state block (balance 50) that
arrived first and waits in the backlog for block 7.  Processing the send block raises the
count of 8 from 0 to 2: once for its own destination and once for the deferred link. -/
theorem process_block_lazy_send_counts_twice :
    (node_lazy_only.disable_legacy_bootstrap = true
      ∧ lazy_blocks_processed node_lazy_only attempt_backlog_same_destination
          (block.send 7 6 8 60).hash = false
      ∧ destinations_count attempt_backlog_same_destination.lazy_destinations 8 = 0)
    ∧ destinations_count
        (process_block_lazy node_lazy_only attempt_backlog_same_destination (block.send 7 6 8 60)
          0 0 512 160).2.lazy_destinations 8 = 2 := by
  decide

/-! ## Balances of recent blocks -/

theorem map_find_erase_of_ne {β : Type} (k k2 : block_hash) (m : List (block_hash × β))
    (h : k ≠ k2) : map_find k (map_erase k2 m) = map_find k m := by
  unfold map_find map_erase
  induction m with
  | nil => rfl
  | cons e rest ih =>
    obtain ⟨ek, ev⟩ := e
    by_cases hek : ek = k2
    · subst hek
      have hne : (k == ek) = false := by simp [h]
      simp [List.filter_cons, List.lookup_cons, hne, ih]
    · by_cases hk : k = ek
      · simp [List.filter_cons, hek, List.lookup_cons, hk]
      · have hne : (k == ek) = false := by simp [hk]
        simp [List.filter_cons, hek, List.lookup_cons, hne, ih]

theorem map_find_emplace_of_ne {β : Type} (k k2 : block_hash) (v : β)
    (m : List (block_hash × β)) (h : k ≠ k2) :
    map_find k (map_emplace k2 v m) = map_find k m := by
  unfold map_emplace
  split
  · rfl
  · unfold map_find
    have hne : (k == k2) = false := by simp [h]
    rw [List.lookup_append]
    simp [List.lookup_cons, hne]

/-- The state-subtype resolution takes at most the entry of previous out of
`lazy_balances`. -/
theorem lazy_block_state_balances (n : node) (s : bootstrap_attempt_lazy) (block_a : block)
    (retry_limit : Nat) :
    (lazy_block_state n s block_a retry_limit).lazy_balances = s.lazy_balances
      ∨ (block_a.previous ≠ 0
        ∧ (lazy_block_state n s block_a retry_limit).lazy_balances
            = map_erase block_a.previous s.lazy_balances) := by
  unfold lazy_block_state
  split
  · rename_i h previous balance link
    split
    · split
      · exact Or.inl (lazy_add_frame n s _ _).2.2.2.1
      · rename_i hprev
        split
        · split
          · exact Or.inl (lazy_add_frame n s _ _).2.2.2.1
          · exact Or.inl (lazy_destinations_increment_others n s _).2.2.2.1
        · split
          · split
            · simp only
              split
              · right
                refine ⟨hprev, ?_⟩
                show map_erase previous (lazy_add n s _ _).lazy_balances = _
                rw [(lazy_add_frame n s _ _).2.2.2.1]
                rfl
              · right
                refine ⟨hprev, ?_⟩
                show map_erase previous (lazy_destinations_increment n s _).lazy_balances = _
                rw [(lazy_destinations_increment_others n s _).2.2.2.1]
                rfl
            · exact Or.inl rfl
          · exact Or.inl rfl
    · exact Or.inl rfl
  · exact Or.inl rfl

theorem process_block_lazy_dependencies_balances (n : node) (s : bootstrap_attempt_lazy)
    (block_a : block) (retry_limit : Nat) (k : block_hash)
    (hk : k ≠ block_a.previous ∨ block_a.previous = 0) :
    map_find k (process_block_lazy_dependencies n s block_a retry_limit).lazy_balances
      = map_find k s.lazy_balances := by
  unfold process_block_lazy_dependencies
  split
  · rw [(lazy_add_frame n s _ _).2.2.2.1]
  · split
    · rcases lazy_block_state_balances n s block_a retry_limit with h | ⟨h0, h⟩
      · rw [h]
      · rw [h]
        rcases hk with hk | hk
        · exact map_find_erase_of_ne k _ _ hk
        · exact absurd hk h0
    · split
      · split
        · split
          · rw [(lazy_destinations_increment_others n s _).2.2.2.1]
          · rfl
        · rfl
      · rfl

/-- What the two balance steps of `process_block_lazy` do to a map of balances. -/
theorem process_block_lazy_balances_map (s : bootstrap_attempt_lazy) (block_a : block)
    (hash : block_hash) (pull_blocks : Nat) :
    (block_a.previous ≠ 0 →
        map_find block_a.previous
          (process_block_lazy_balances s block_a hash pull_blocks).lazy_balances = none)
      ∧ (∀ k, k ≠ hash → (k ≠ block_a.previous ∨ block_a.previous = 0) →
          map_find k (process_block_lazy_balances s block_a hash pull_blocks).lazy_balances
            = map_find k s.lazy_balances)
      ∧ (pull_blocks = 0 → (block_a.type = block_type.state ∨ block_a.type = block_type.send) →
          block_a.previous ≠ hash →
          (∀ v, map_find hash s.lazy_balances = some v → v = block_a.balance) →
          map_find hash (process_block_lazy_balances s block_a hash pull_blocks).lazy_balances
            = some block_a.balance)
      ∧ (¬ (pull_blocks = 0
            ∧ (block_a.type = block_type.state ∨ block_a.type = block_type.send)) →
          block_a.previous ≠ hash →
          map_find hash (process_block_lazy_balances s block_a hash pull_blocks).lazy_balances
            = map_find hash s.lazy_balances) := by
  have herase : ∀ (m : List (block_hash × Nat)) (k : block_hash),
      map_find k (if block_a.previous ≠ 0 ∧ (map_find block_a.previous m).isSome = true then
          map_erase block_a.previous m else m)
        = if k = block_a.previous ∧ block_a.previous ≠ 0 then none else map_find k m := by
    intro m k
    by_cases hc : block_a.previous ≠ 0 ∧ (map_find block_a.previous m).isSome = true
    · rw [if_pos hc]
      by_cases hk : k = block_a.previous
      · rw [if_pos ⟨hk, hc.1⟩, hk]
        exact map_find_erase_self _ _
      · rw [if_neg (fun h => hk h.1)]
        exact map_find_erase_of_ne k _ _ hk
    · rw [if_neg hc]
      by_cases hk : k = block_a.previous ∧ block_a.previous ≠ 0
      · rw [if_pos hk, hk.1]
        have hnone : ¬ (map_find block_a.previous m).isSome = true := fun h => hc ⟨hk.2, h⟩
        cases hv : map_find block_a.previous m with
        | none => rfl
        | some v => rw [hv] at hnone; exact absurd rfl hnone
      · rw [if_neg hk]
  have hshape : (process_block_lazy_balances s block_a hash pull_blocks).lazy_balances
      = (if block_a.previous ≠ 0
            ∧ (map_find block_a.previous
                (if pull_blocks = 0
                    ∧ (block_a.type = block_type.state ∨ block_a.type = block_type.send) then
                  map_emplace hash block_a.balance s.lazy_balances
                 else s.lazy_balances)).isSome = true then
          map_erase block_a.previous
            (if pull_blocks = 0
                ∧ (block_a.type = block_type.state ∨ block_a.type = block_type.send) then
              map_emplace hash block_a.balance s.lazy_balances
             else s.lazy_balances)
         else
          (if pull_blocks = 0
              ∧ (block_a.type = block_type.state ∨ block_a.type = block_type.send) then
            map_emplace hash block_a.balance s.lazy_balances
           else s.lazy_balances)) := by
    unfold process_block_lazy_balances
    simp only
    split <;> split <;> rfl
  rw [hshape]
  refine ⟨?_, ?_, ?_, ?_⟩
  · intro hp
    rw [herase, if_pos ⟨rfl, hp⟩]
  · intro k hk1 hk2
    rw [herase]
    have hcond : ¬ (k = block_a.previous ∧ block_a.previous ≠ 0) := by
      rintro ⟨h1, h2⟩
      rcases hk2 with h | h
      · exact h h1
      · exact h2 h
    rw [if_neg hcond]
    split
    · exact map_find_emplace_of_ne k hash _ _ hk1
    · rfl
  · intro h0 htype hne hcons
    rw [herase, if_neg (fun h => hne h.1.symm), if_pos ⟨h0, htype⟩]
    cases hv : map_find hash s.lazy_balances with
    | none => exact map_find_emplace_absent hash _ _ hv
    | some v =>
      rw [map_find_emplace_of_found hash hash v _ _ hv, hcons v hv]
  · intro hfirst hne
    rw [herase, if_neg (fun h => hne h.1.symm), if_neg hfirst]

/-- C17: the bookkeeping of `lazy_balances` in `process_block_lazy`, for a new block.  If
the block is the first of its pull (`pull_blocks = 0`) and is a state or send block,
`lazy_balances` afterwards maps the hash of the block to its balance (the hash of a block
is not its own previous, and a balance recorded for this hash before is the balance of
this block).  If previous is non-zero, `lazy_balances` afterwards has no entry for
previous.  No other entry is added or removed: the entry of every other hash is what it
was, and so is the entry of the hash itself when the block is not the first of its pull
or is of another type; the state-subtype resolution of the block takes out nothing but
the entry of previous. -/
theorem process_block_lazy_balances_bookkeeping (n : node) (s : bootstrap_attempt_lazy)
    (block_a : block) (known_account_a : account) (pull_blocks max_blocks retry_limit : Nat)
    (hnew : lazy_blocks_processed n s block_a.hash = false) :
    (pull_blocks = 0 → (block_a.type = block_type.state ∨ block_a.type = block_type.send) →
        block_a.previous ≠ block_a.hash →
        (∀ v, map_find block_a.hash s.lazy_balances = some v → v = block_a.balance) →
        map_find block_a.hash
          (process_block_lazy n s block_a known_account_a pull_blocks max_blocks
            retry_limit).2.lazy_balances = some block_a.balance)
      ∧ (block_a.previous ≠ 0 →
          map_find block_a.previous
            (process_block_lazy n s block_a known_account_a pull_blocks max_blocks
              retry_limit).2.lazy_balances = none)
      ∧ (∀ k, k ≠ block_a.hash → (k ≠ block_a.previous ∨ block_a.previous = 0) →
          map_find k
            (process_block_lazy n s block_a known_account_a pull_blocks max_blocks
              retry_limit).2.lazy_balances = map_find k s.lazy_balances)
      ∧ (¬ (pull_blocks = 0
            ∧ (block_a.type = block_type.state ∨ block_a.type = block_type.send)) →
          block_a.previous ≠ block_a.hash →
          map_find block_a.hash
            (process_block_lazy n s block_a known_account_a pull_blocks max_blocks
              retry_limit).2.lazy_balances = map_find block_a.hash s.lazy_balances) := by
  rw [process_block_lazy_new n s block_a known_account_a pull_blocks max_blocks retry_limit hnew]
  have hc := (backlog_check_frame n
    (process_block_lazy_balances
      (lazy_blocks_insert n (process_block_lazy_dependencies n s block_a retry_limit) block_a.hash)
      block_a block_a.hash pull_blocks) block_a block_a.hash).2.1
  have hi := (lazy_blocks_insert_frame n (process_block_lazy_dependencies n s block_a retry_limit)
    block_a.hash).2.2.2.1
  have hd := process_block_lazy_dependencies_balances n s block_a retry_limit
  obtain ⟨m1, m2, m3, m4⟩ := process_block_lazy_balances_map
    (lazy_blocks_insert n (process_block_lazy_dependencies n s block_a retry_limit) block_a.hash)
    block_a block_a.hash pull_blocks
  rw [hi] at m2 m3 m4
  refine ⟨?_, ?_, ?_, ?_⟩
  · intro h0 htype hne hcons
    show map_find _ (lazy_block_state_backlog_check n _ block_a block_a.hash).lazy_balances = _
    rw [hc]
    apply m3 h0 htype hne
    intro v hv
    rw [hd block_a.hash (Or.inl (fun h => hne h.symm))] at hv
    exact hcons v hv
  · intro hp
    show map_find _ (lazy_block_state_backlog_check n _ block_a block_a.hash).lazy_balances = _
    rw [hc]
    exact m1 hp
  · intro k hk1 hk2
    show map_find _ (lazy_block_state_backlog_check n _ block_a block_a.hash).lazy_balances = _
    rw [hc, m2 k hk1 hk2, hd k hk2]
  · intro hfirst hne
    show map_find _ (lazy_block_state_backlog_check n _ block_a block_a.hash).lazy_balances = _
    rw [hc, m4 hfirst hne, hd block_a.hash (Or.inl (fun h => hne h.symm))]

theorem process_block_lazy_balances_bookkeeping_witness :
    map_find (block.send 7 6 8 40).hash
        (process_block_lazy node_legacy attempt_previous_balance (block.send 7 6 8 40) 0 0 512
          160).2.lazy_balances = some 40
      ∧ map_find (block.send 7 6 8 40).previous
        (process_block_lazy node_legacy attempt_previous_balance (block.send 7 6 8 40) 0 0 512
          160).2.lazy_balances = none :=
  ⟨(process_block_lazy_balances_bookkeeping node_legacy attempt_previous_balance
      (block.send 7 6 8 40) 0 0 512 160 (by decide)).1 rfl (Or.inr rfl) (by decide) (by decide),
   (process_block_lazy_balances_bookkeeping node_legacy attempt_previous_balance
      (block.send 7 6 8 40) 0 0 512 160 (by decide)).2.1 (by decide)⟩

/-! ## Wallet attempt -/

/-- C18: `wallet_finished ()` returns exactly `running && (more_accounts || still_pulling)`:
it is true if and only if the attempt is not stopped and `wallet_accounts` is non-empty or
`pulling > 0`; and the call leaves the attempt as it was. -/
theorem wallet_finished_running (s : bootstrap_attempt_wallet) :
    ((wallet_finished s).1 = true ↔
        (s.stopped = false ∧ (s.wallet_accounts ≠ [] ∨ s.pulling > 0)))
      ∧ (wallet_finished s).1
          = (!s.stopped && (!s.wallet_accounts.isEmpty || decide (s.pulling > 0)))
      ∧ (wallet_finished s).2 = s := by
  refine ⟨?_, rfl, rfl⟩
  unfold wallet_finished
  cases hs : s.stopped <;> cases ha : s.wallet_accounts <;> simp

/-- C19, as the code has it: with a connection available and a non-empty queue,
`request_pending` dispatches and removes the front of `wallet_accounts` and increments
`pulling` by one.  `wallet_start` replaces the queue by the accounts it is given, so these
are dispatched in their order, first in first out.  `requeue_pending` puts the account at
the front of the queue: a re-entered account is dispatched by the next `request_pending`,
ahead of every account that is still waiting. -/
theorem request_pending_front (s : bootstrap_attempt_wallet) :
    (∀ account rest, s.wallet_accounts = account :: rest →
        request_pending true s
          = (some account, { s with wallet_accounts := rest, pulling := s.pulling + 1 }))
      ∧ (∀ account rest,
          request_pending true (wallet_start s (account :: rest)).1
            = (some account,
                { s with wallet_accounts := rest, pulling := s.pulling + 1 }))
      ∧ (∀ account_a,
          (requeue_pending s account_a).wallet_accounts = account_a :: s.wallet_accounts
            ∧ request_pending true (requeue_pending s account_a)
              = (some account_a, { s with pulling := s.pulling + 1 })) := by
  refine ⟨?_, ?_, ?_⟩
  · intro account rest h
    simp [request_pending, h]
  · intro account rest
    simp [request_pending, wallet_start]
  · intro account_a
    simp [request_pending, requeue_pending]

theorem request_pending_front_witness :
    request_pending true wallet_two_accounts
      = (some 1, { wallet_two_accounts with wallet_accounts := [2], pulling := 1 }) :=
  (request_pending_front wallet_two_accounts).1 1 [2] rfl

/-- C19 fails as stated: the accounts 1 and 2 enter the queue through `wallet_start`, then
account 3 re-enters through `requeue_pending`; the next `request_pending` dispatches
account 3, which entered last, and not account 1, which entered earliest. -/
theorem request_pending_requeued_first :
    (wallet_start wallet_empty [1, 2]).1.wallet_accounts = [1, 2]
      ∧ (request_pending true (requeue_pending (wallet_start wallet_empty [1, 2]).1 3)).1
          = some 3
      ∧ (request_pending true (requeue_pending (wallet_start wallet_empty [1, 2]).1 3)).1
          ≠ some 1 := by
  decide

/-! ## Message buffer ring -/

/-- The slots handed out by `count` successive `allocate ()` calls, and the ring after
them. -/
theorem message_buffer_manager.allocate_times_overflow :
    ∀ (taken : List Nat) (m : message_buffer_manager) (kept : List Nat),
      m.free = [] → m.full = taken ++ kept →
      message_buffer_manager.allocate_times taken.length m
        = (taken.map some, { m with full := kept, overflow := m.overflow + taken.length }) := by
  intro taken
  induction taken with
  | nil =>
    intro m kept h1 h2
    obtain ⟨free, full, overflow, stopped⟩ := m
    simp only at h1 h2
    subst h1 h2
    rfl
  | cons slot rest ih =>
    intro m kept h1 h2
    have hstep : m.allocate
        = (some slot, { m with full := rest ++ kept, overflow := m.overflow + 1 }) := by
      simp [message_buffer_manager.allocate, h1, h2]
    simp only [List.length_cons, message_buffer_manager.allocate_times, hstep, List.map_cons]
    rw [ih { m with full := rest ++ kept, overflow := m.overflow + 1 } kept h1 rfl]
    simp [Nat.add_assoc, Nat.add_comm 1]

/-- A ring of `count` slots in which every slot was allocated and enqueued has no free
slot and holds the slots in the order they were enqueued. -/
theorem message_buffer_manager.fill_make (count : Nat) :
    message_buffer_manager.fill count (message_buffer_manager.make count)
      = { free := [], full := List.range count, overflow := 0, stopped := false } := by
  have hgen : ∀ (free full : List Nat) (overflow : Nat) (stopped : Bool),
      message_buffer_manager.fill free.length
          { free := free, full := full, overflow := overflow, stopped := stopped }
        = { free := [], full := full ++ free, overflow := overflow, stopped := stopped } := by
    intro free
    induction free with
    | nil => intro full overflow stopped; simp [message_buffer_manager.fill]
    | cons slot rest ih =>
      intro full overflow stopped
      simp only [List.length_cons, message_buffer_manager.fill, message_buffer_manager.allocate,
        message_buffer_manager.enqueue]
      rw [ih]
      simp
  have := hgen (List.range count) [] 0 false
  rw [List.length_range] at this
  unfold message_buffer_manager.make
  rw [this]
  simp

/-- C20: in a ring in which every slot has been allocated and enqueued and none dequeued
(no slot is free, the enqueued slots are `taken ++ kept`, oldest first), `allocate ()`
does not fail: successive calls hand out the enqueued slots in the order they were
enqueued, oldest first, and each call increments the overflow counter by exactly one.
This holds in particular for the ring of capacity `count >= 1` filled after its
construction, whose first overflowing `allocate ()` returns the slot enqueued first. -/
theorem message_buffer_manager.allocate_overflow (m : message_buffer_manager)
    (taken kept : List Nat) (hfree : m.free = []) (hfull : m.full = taken ++ kept) :
    message_buffer_manager.allocate_times taken.length m
        = (taken.map some, { m with full := kept, overflow := m.overflow + taken.length })
      ∧ (∀ slot rest, taken = slot :: rest →
          m.allocate = (some slot, { m with full := rest ++ kept, overflow := m.overflow + 1 }))
      ∧ (∀ count, 1 ≤ count →
          message_buffer_manager.allocate_times count
              (message_buffer_manager.fill count (message_buffer_manager.make count))
            = ((List.range count).map some,
                { free := [], full := [], overflow := count, stopped := false })) := by
  refine ⟨message_buffer_manager.allocate_times_overflow taken m kept hfree hfull, ?_, ?_⟩
  · intro slot rest htaken
    subst htaken
    simp [message_buffer_manager.allocate, hfree, hfull]
  · intro count _
    rw [message_buffer_manager.fill_make count]
    have := message_buffer_manager.allocate_times_overflow (List.range count)
      { free := [], full := List.range count, overflow := 0, stopped := false } [] rfl
      (by simp)
    rw [List.length_range] at this
    rw [this]
    simp

theorem message_buffer_manager.allocate_overflow_witness :
    message_buffer_manager.allocate_times 2
        (message_buffer_manager.fill 2 (message_buffer_manager.make 2))
      = ([some 0, some 1], { free := [], full := [], overflow := 2, stopped := false }) :=
  (message_buffer_manager.allocate_overflow
    (message_buffer_manager.fill 2 (message_buffer_manager.make 2)) [0, 1] [] rfl rfl).1

/-! ## Links that need no resolution -/

/-- C30: `lazy_block_state` changes nothing for a state block whose link is zero, is an
epoch link, is already processed in this attempt, or already exists in storage: the
attempt after the call is the attempt before it, so `lazy_pulls`, `lazy_state_backlog`,
`lazy_destinations` and `lazy_balances` are unchanged.  In particular the link of an epoch
block is neither pulled nor counted as a destination. -/
theorem lazy_block_state_ignores_link (n : node) (s : bootstrap_attempt_lazy)
    (hash previous balance link retry_limit : Nat)
    (h : link = 0 ∨ n.is_epoch_link link = true ∨ lazy_blocks_processed n s link = true
      ∨ n.block_exists link = true) :
    lazy_block_state n s (block.state hash previous balance link) retry_limit = s
      ∧ (lazy_block_state n s (block.state hash previous balance link) retry_limit).lazy_pulls
          = s.lazy_pulls
      ∧ (lazy_block_state n s (block.state hash previous balance link)
          retry_limit).lazy_state_backlog = s.lazy_state_backlog
      ∧ (lazy_block_state n s (block.state hash previous balance link)
          retry_limit).lazy_destinations = s.lazy_destinations
      ∧ (lazy_block_state n s (block.state hash previous balance link)
          retry_limit).lazy_balances = s.lazy_balances := by
  have hguard : ¬ (link ≠ 0 ∧ n.is_epoch_link link = false
      ∧ lazy_blocks_processed n s link = false ∧ n.block_exists link = false) := by
    rintro ⟨h1, h2, h3, h4⟩
    rcases h with h | h | h | h
    · exact h1 h
    · rw [h2] at h; cases h
    · rw [h3] at h; cases h
    · rw [h4] at h; cases h
  have hsame : lazy_block_state n s (block.state hash previous balance link) retry_limit = s := by
    simp only [lazy_block_state]
    rw [if_neg hguard]
  rw [hsame]
  exact ⟨rfl, rfl, rfl, rfl, rfl⟩

theorem lazy_block_state_ignores_link_witness :
    node_legacy.is_epoch_link 99 = true
      ∧ lazy_block_state node_lazy_only attempt_backlog (block.state 7 10 50 99) 2
          = attempt_backlog :=
  ⟨by decide,
   (lazy_block_state_ignores_link node_lazy_only attempt_backlog 7 10 50 99 2
      (Or.inr (Or.inl (by decide)))).1⟩

/-! ## The unlimited retry sentinel -/

/-- C23: in lazy mode, a pull with `account_or_head = head` whose retry limit is the
unlimited sentinel `std::numeric_limits<unsigned>::max ()` is never added to the pulls
cache, whatever its `attempts` and `processed` are and whether or not the error was a
network error; and when its head is not yet known (neither processed in this attempt nor
in the ledger) it is reinserted at the tail of `pulls`.  The sentinel is tested before
the retry bound is computed, so no wrap-around of `attempts` or of the bound can change
the outcome. -/
theorem requeue_pull_lazy_unlimited (n : node) (s : bootstrap_attempt_lazy) (pull_a : pull_info)
    (network_error : Bool)
    (hmode : s.mode = bootstrap_mode.lazy)
    (hhead : pull_a.account_or_head = pull_a.head)
    (hsentinel : pull_a.retry_limit = unsigned_max) :
    (requeue_pull_lazy n s pull_a network_error).cache = s.cache
      ∧ (lazy_blocks_processed n s pull_a.head = false → n.block_exists pull_a.head = false →
          (requeue_pull_lazy n s pull_a network_error).pulls
              = s.pulls ++ [{ pull_a with attempts := pull_attempts_next pull_a network_error }]
            ∧ (requeue_pull_lazy n s pull_a network_error).lazy_pulls = s.lazy_pulls) := by
  rw [requeue_pull_lazy_lazy_mode n s pull_a network_error hmode, if_pos (Or.inl hsentinel),
    hhead]
  constructor
  · split <;> rfl
  · intro hproc hledger
    have hunknown : lazy_processed_or_exists n s pull_a.head = false := by
      simp [lazy_processed_or_exists, hproc, hledger]
    rw [if_pos hunknown]
    exact ⟨rfl, rfl⟩

theorem requeue_pull_lazy_unlimited_witness :
    pull_unlimited.attempts = 2 ^ 32 - 1 ∧ pull_unlimited.processed = 2 ^ 64 - 1
      ∧ (requeue_pull_lazy node_legacy attempt_fresh pull_unlimited false).pulls
          = attempt_fresh.pulls ++ [{ pull_unlimited with attempts := 0 }]
      ∧ (requeue_pull_lazy node_legacy attempt_fresh pull_unlimited false).cache
          = attempt_fresh.cache :=
  ⟨rfl, rfl,
   ((requeue_pull_lazy_unlimited node_legacy attempt_fresh pull_unlimited false rfl rfl rfl).2
      (by decide) (by decide)).1,
   (requeue_pull_lazy_unlimited node_legacy attempt_fresh pull_unlimited false rfl rfl rfl).1⟩

/-! ## Completion and its side effect -/

theorem mem_dropWhile_of_false {α : Type} (p : α → Bool) :
    ∀ (l : List α) (k : α), k ∈ l → p k = false → k ∈ l.dropWhile p := by
  intro l
  induction l with
  | nil => intro k hk; cases hk
  | cons a rest ih =>
    intro k hk hpk
    by_cases hpa : p a = true
    · rw [List.dropWhile_cons_of_pos hpa]
      rcases List.mem_cons.mp hk with rfl | hk
      · rw [hpk] at hpa; cases hpa
      · exact ih k hk hpk
    · rw [List.dropWhile_cons_of_neg hpa]
      exact hk

/-- C25: `lazy_finished ()` returns true if and only if the attempt is stopped, or
`lazy_destinations` is empty and either every hash in `lazy_keys` exists in storage or
both `lazy_pulls` and `lazy_state_backlog` are empty.  Its only side effect is on
`lazy_keys`: what is left is a tail of the old keys, every key that is missing from
storage is still there, so every key that was removed exists in storage; `lazy_pulls`,
`lazy_state_backlog`, `lazy_destinations` and `lazy_blocks` are unchanged. -/
theorem lazy_finished_effect (n : node) (s : bootstrap_attempt_lazy) :
    ((lazy_finished n s).1 = true ↔
        (s.stopped = true
          ∨ (s.lazy_destinations = []
            ∧ ((∀ k ∈ s.lazy_keys, n.block_exists k = true)
              ∨ (s.lazy_pulls = [] ∧ s.lazy_state_backlog = [])))))
      ∧ (lazy_finished n s).2 = { s with lazy_keys := (lazy_finished n s).2.lazy_keys }
      ∧ (lazy_finished n s).2.lazy_keys <:+ s.lazy_keys
      ∧ (∀ k ∈ s.lazy_keys, n.block_exists k = false → k ∈ (lazy_finished n s).2.lazy_keys)
      ∧ (∀ k ∈ s.lazy_keys, k ∉ (lazy_finished n s).2.lazy_keys → n.block_exists k = true)
      ∧ (lazy_finished n s).2.lazy_pulls = s.lazy_pulls
      ∧ (lazy_finished n s).2.lazy_state_backlog = s.lazy_state_backlog
      ∧ (lazy_finished n s).2.lazy_destinations = s.lazy_destinations
      ∧ (lazy_finished n s).2.lazy_blocks = s.lazy_blocks := by
  by_cases hstop' : s.stopped = true
  · have hres : lazy_finished n s = (true, s) := by simp [lazy_finished, hstop']
    rw [hres]
    refine ⟨by simp [hstop'], rfl, List.suffix_refl _, fun k hk _ => hk,
      fun k hk hk2 => absurd hk hk2, rfl, rfl, rfl, rfl⟩
  · have hstop : s.stopped = false := by simpa using hstop'
    have hkeys : (s.lazy_keys.dropWhile n.block_exists).isEmpty = true
        ↔ ∀ k ∈ s.lazy_keys, n.block_exists k = true := by
      rw [List.isEmpty_iff, List.dropWhile_eq_nil_iff]
    have hsnd : (lazy_finished n s).2
        = { s with lazy_keys := s.lazy_keys.dropWhile n.block_exists } := by
      simp [lazy_finished, hstop]
    have hmissing : ∀ k ∈ s.lazy_keys, n.block_exists k = false →
        k ∈ s.lazy_keys.dropWhile n.block_exists :=
      fun k hk hf => mem_dropWhile_of_false n.block_exists s.lazy_keys k hk hf
    refine ⟨?_, ?_, ?_, ?_, ?_, ?_, ?_, ?_, ?_⟩
    · rw [← hkeys, ← List.isEmpty_iff, ← List.isEmpty_iff, ← List.isEmpty_iff]
      simp only [lazy_finished, hstop, Bool.false_eq_true, if_false, false_or]
      generalize (s.lazy_keys.dropWhile n.block_exists).isEmpty = a
      generalize s.lazy_destinations.isEmpty = b
      generalize s.lazy_pulls.isEmpty = c
      generalize s.lazy_state_backlog.isEmpty = d
      cases a <;> cases b <;> cases c <;> cases d <;> simp
    · rw [hsnd]
    · rw [hsnd]; exact List.dropWhile_suffix _
    · rw [hsnd]; exact hmissing
    · rw [hsnd]
      intro k hk hnot
      cases hex : n.block_exists k with
      | true => rfl
      | false => exact absurd (hmissing k hk hex) hnot
    · rw [hsnd]
    · rw [hsnd]
    · rw [hsnd]
    · rw [hsnd]

theorem lazy_finished_effect_witness :
    ((lazy_finished node_legacy attempt_seed_stored).1 = true ↔
        (attempt_seed_stored.stopped = true
          ∨ (attempt_seed_stored.lazy_destinations = []
            ∧ ((∀ k ∈ attempt_seed_stored.lazy_keys, node_legacy.block_exists k = true)
              ∨ (attempt_seed_stored.lazy_pulls = []
                ∧ attempt_seed_stored.lazy_state_backlog = [])))))
      ∧ (lazy_finished node_legacy attempt_seed_stored).2.lazy_pulls = [(5, 2)] :=
  ⟨(lazy_finished_effect node_legacy attempt_seed_stored).1,
    (lazy_finished_effect node_legacy attempt_seed_stored).2.2.2.2.2.1⟩

/-! ## Subtype resolution from the recorded balances -/

/-- C22, as the code has it: for a state block whose link is non-zero, not an epoch link,
not processed in this attempt and not in storage, and whose previous is non-zero, not in
storage, already processed in this attempt and has a balance recorded in `lazy_balances`:
if the recorded balance is at most the balance of the block, `(link, retry_limit)` is
appended to `lazy_pulls`; otherwise nothing is queued and
`lazy_destinations_increment (link)` is applied, which raises the count of `link` by one
in `uint64_t`, that is modulo 2^64, when legacy bootstrap is disabled and changes nothing
when it is available.  In both cases
the recorded balance of previous is erased and nothing else changes. -/
theorem lazy_block_state_recorded_balance (n : node) (s : bootstrap_attempt_lazy)
    (hash previous balance link retry_limit previous_balance : Nat)
    (hlink : link ≠ 0) (hepoch : n.is_epoch_link link = false)
    (hproc : lazy_blocks_processed n s link = false) (hstore : n.block_exists link = false)
    (hprev : previous ≠ 0) (hprev_store : n.block_exists previous = false)
    (hprev_proc : lazy_blocks_processed n s previous = true)
    (hrecorded : map_find previous s.lazy_balances = some previous_balance) :
    (previous_balance ≤ balance →
        lazy_block_state n s (block.state hash previous balance link) retry_limit
          = { s with
                lazy_pulls := s.lazy_pulls ++ [(link, retry_limit)],
                lazy_balances := map_erase previous s.lazy_balances })
      ∧ (balance < previous_balance →
          (lazy_block_state n s (block.state hash previous balance link) retry_limit).lazy_pulls
              = s.lazy_pulls
            ∧ (lazy_block_state n s (block.state hash previous balance link)
                retry_limit).lazy_balances = map_erase previous s.lazy_balances
            ∧ (lazy_block_state n s (block.state hash previous balance link)
                retry_limit).lazy_destinations
              = (lazy_destinations_increment n s link).lazy_destinations
            ∧ (n.disable_legacy_bootstrap = false →
                lazy_block_state n s (block.state hash previous balance link) retry_limit
                  = { s with lazy_balances := map_erase previous s.lazy_balances })
            ∧ (n.disable_legacy_bootstrap = true → destinations_unique s.lazy_destinations →
                destinations_count (lazy_block_state n s (block.state hash previous balance link)
                    retry_limit).lazy_destinations link
                  = (destinations_count s.lazy_destinations link + 1) % 2 ^ 64)) := by
  have hguard : link ≠ 0 ∧ n.is_epoch_link link = false ∧ lazy_blocks_processed n s link = false
      ∧ n.block_exists link = false := ⟨hlink, hepoch, hproc, hstore⟩
  have hstep : lazy_block_state n s (block.state hash previous balance link) retry_limit
      = { (if previous_balance ≤ balance then lazy_add n s link retry_limit
            else lazy_destinations_increment n s link) with
          lazy_balances := map_erase previous
            (if previous_balance ≤ balance then lazy_add n s link retry_limit
              else lazy_destinations_increment n s link).lazy_balances } := by
    simp only [lazy_block_state]
    rw [if_pos hguard, if_neg hprev, hprev_store, hprev_proc]
    simp only [Bool.false_eq_true, if_false, if_true, hrecorded]
  rw [hstep]
  constructor
  · intro hle
    rw [if_pos hle, lazy_add_pulls, hproc]
    simp
  · intro hlt
    have hnle : ¬ previous_balance ≤ balance := Nat.not_le.mpr hlt
    rw [if_neg hnle]
    have hothers := lazy_destinations_increment_others n s link
    refine ⟨hothers.2.1, ?_, rfl, ?_, ?_⟩
    · show map_erase previous (lazy_destinations_increment n s link).lazy_balances = _
      rw [hothers.2.2.2.1]
    · intro hflag
      rw [lazy_destinations_increment_disabled n s link hflag]
    · intro hflag hu
      exact (lazy_destinations_increment_enabled n s link hflag hu).1

theorem lazy_block_state_recorded_balance_witness :
    lazy_block_state node_lazy_only attempt_previous_balance (block.state 7 6 40 3) 2
      = { attempt_previous_balance with
            lazy_pulls := attempt_previous_balance.lazy_pulls ++ [(3, 2)],
            lazy_balances := map_erase 6 attempt_previous_balance.lazy_balances } :=
  (lazy_block_state_recorded_balance node_lazy_only attempt_previous_balance 7 6 40 3 2 30
    (by decide) (by decide) (by decide) (by decide) (by decide) (by decide) (by decide)
    (by decide)).1 (by decide)

/-- C22 fails as stated, in two ways.  With legacy bootstrap available, a state block that
is a send (balance 20, recorded balance of its processed previous 6 is 30) has its link 3
neither queued nor counted.  And when previous (block 3, processed in this attempt) has no
balance recorded, the link 9 is neither queued nor counted even with legacy bootstrap
disabled: the attempt is left as it was. -/
theorem lazy_block_state_link_dropped :
    ((lazy_blocks_processed node_legacy attempt_previous_balance 6 = true
        ∧ map_find 6 attempt_previous_balance.lazy_balances = some 30)
      ∧ (3, 2) ∉ (lazy_block_state node_legacy attempt_previous_balance (block.state 7 6 20 3)
          2).lazy_pulls
      ∧ destinations_count (lazy_block_state node_legacy attempt_previous_balance
          (block.state 7 6 20 3) 2).lazy_destinations 3 = 0)
    ∧ ((lazy_blocks_processed node_lazy_only attempt_backlog_link_seen 3 = true
        ∧ node_lazy_only.block_exists 3 = false
        ∧ lazy_blocks_processed node_lazy_only attempt_backlog_link_seen 9 = false
        ∧ node_lazy_only.block_exists 9 = false)
      ∧ lazy_block_state node_lazy_only attempt_backlog_link_seen (block.state 7 3 50 9) 2
          = attempt_backlog_link_seen) := by
  decide

/-! ## Repeated hashes in a flush -/

/-- The loop of `lazy_pull_flush` appends one pull for each of the first entries of the
queue whose hash is neither processed nor stored, as many as there is room for under
`max_pulls`. -/
theorem lazy_pull_flush_loop_exact (n : node) (batch_count : Nat) (lazy_blocks : List Nat) :
    ∀ (queue : List (block_hash × Nat)) (count : Nat) (pulls : List pull_info),
      (lazy_pull_flush_loop n batch_count lazy_blocks count queue pulls).2
        = pulls ++
            ((queue.filter (fun p => !(decide (n.hash_digest p.1 ∈ lazy_blocks))
                && !(n.block_exists p.1))).take (max_pulls n - count)).map
              (fun p => pull_info.make p.1 p.1 0 batch_count p.2) := by
  intro queue
  induction queue with
  | nil => intro count pulls; simp [lazy_pull_flush_loop]
  | cons pull_start rest ih =>
    intro count pulls
    unfold lazy_pull_flush_loop
    by_cases hcount : count < max_pulls n
    · simp only [hcount, if_true]
      by_cases hfresh : (!(decide (n.hash_digest pull_start.1 ∈ lazy_blocks))
          && !(n.block_exists pull_start.1)) = true
      · simp only [hfresh, if_true]
        have hroom : max_pulls n - count = (max_pulls n - (count + 1)) + 1 := by omega
        rw [ih, hroom]
        simp only [List.filter_cons, hfresh, if_true, List.take_succ_cons, List.map_cons,
          List.append_assoc, List.singleton_append]
      · simp only [hfresh, if_false, Bool.false_eq_true]
        rw [ih]
        simp only [List.filter_cons, hfresh, if_false, Bool.false_eq_true]
    · simp only [hcount, if_false]
      have hz : max_pulls n - count = 0 := by omega
      rw [hz]
      simp

/-- C24, as the code has it: one `lazy_pull_flush` call made with `pulls.size () <
max_pulls` appends one pull for each of the first `max_pulls` entries of `lazy_pulls`
whose hash is neither processed in this attempt nor in storage, in the order of the queue
and as often as the hash is queued; it does not look at the heads of the pulls already
waiting.  So the appended heads are pairwise distinct whenever the hashes queued in
`lazy_pulls` are, and every appended head is a hash of `lazy_pulls`. -/
theorem lazy_pull_flush_heads (n : node) (now : Nat) (s : bootstrap_attempt_lazy) :
    (s.pulls.length < max_pulls n →
        (lazy_pull_flush n now s).pulls
          = s.pulls ++
              ((s.lazy_pulls.filter (fun p => !(lazy_blocks_processed n s p.1)
                  && !(n.block_exists p.1))).take (max_pulls n)).map
                (fun p => pull_info.make p.1 p.1 0 (lazy_batch_count n s) p.2))
      ∧ ∃ appended : List pull_info,
          (lazy_pull_flush n now s).pulls = s.pulls ++ appended
            ∧ (appended.map (fun q => q.head)).Sublist (s.lazy_pulls.map (fun p => p.1))
            ∧ ((s.lazy_pulls.map (fun p => p.1)).Nodup →
                (appended.map (fun q => q.head)).Nodup) := by
  have hexact := lazy_pull_flush_loop_exact n (lazy_batch_count n s) s.lazy_blocks s.lazy_pulls 0
    s.pulls
  constructor
  · intro hroom
    simp only [lazy_pull_flush, hroom, if_true]
    rw [hexact]
    rfl
  · by_cases hroom : s.pulls.length < max_pulls n
    · refine ⟨((s.lazy_pulls.filter (fun p => !(decide (n.hash_digest p.1 ∈ s.lazy_blocks))
          && !(n.block_exists p.1))).take (max_pulls n - 0)).map
            (fun p => pull_info.make p.1 p.1 0 (lazy_batch_count n s) p.2), ?_, ?_, ?_⟩
      · simp only [lazy_pull_flush, hroom, if_true]
        exact hexact
      · rw [List.map_map]
        have hfun : ((fun q : pull_info => q.head)
            ∘ fun p : block_hash × Nat => pull_info.make p.1 p.1 0 (lazy_batch_count n s) p.2)
            = fun p => p.1 := rfl
        rw [hfun]
        exact (((List.take_sublist _ _).trans (List.filter_sublist _)).map _)
      · intro hnodup
        rw [List.map_map]
        have hfun : ((fun q : pull_info => q.head)
            ∘ fun p : block_hash × Nat => pull_info.make p.1 p.1 0 (lazy_batch_count n s) p.2)
            = fun p => p.1 := rfl
        rw [hfun]
        exact (((List.take_sublist _ _).trans (List.filter_sublist _)).map _).nodup hnodup
    · refine ⟨[], ?_, by simp, fun _ => by simp⟩
      simp only [lazy_pull_flush, hroom, if_false, List.append_nil]

theorem lazy_pull_flush_heads_witness :
    (lazy_pull_flush node_legacy 9 attempt_pulls_repeated).pulls
      = attempt_pulls_repeated.pulls ++
          [pull_info.make 5 5 0 512 2, pull_info.make 20 20 0 512 1,
            pull_info.make 20 20 0 512 1] :=
  (lazy_pull_flush_heads node_legacy 9 attempt_pulls_repeated).1 (by decide)

/-- C24 fails as stated: with the pull for head 5 waiting in `pulls` and the hashes
5, 20 and 20 queued in `lazy_pulls`, one `lazy_pull_flush` appends pulls with the heads
5, 20 and 20: two appended pulls share the head 20, and one has the head of the pull that
was already waiting. -/
theorem lazy_pull_flush_repeats_heads :
    attempt_pulls_repeated.pulls.map (fun q => q.head) = [5]
      ∧ (lazy_pull_flush node_legacy 9 attempt_pulls_repeated).pulls.map (fun q => q.head)
          = [5, 5, 20, 20] := by
  decide

/-! ## The order of the destinations -/

theorem destinations_link_sorted (item : lazy_destinations_item)
    (l : List lazy_destinations_item) (h : destinations_sorted l) :
    destinations_sorted (destinations_link item l) := by
  unfold destinations_sorted at *
  induction l with
  | nil => simp [destinations_link]
  | cons e rest ih =>
    rw [List.pairwise_cons] at h
    unfold destinations_link
    by_cases hc : item.count > e.count
    · simp only [hc, if_true]
      rw [List.pairwise_cons, List.pairwise_cons]
      refine ⟨?_, h⟩
      intro y hy
      rcases List.mem_cons.mp hy with rfl | hy
      · exact Nat.le_of_lt hc
      · exact Nat.le_trans (h.1 y hy) (Nat.le_of_lt hc)
    · simp only [hc, if_false]
      rw [List.pairwise_cons]
      refine ⟨?_, ih h.2⟩
      intro y hy
      obtain ⟨l1, l2, h1, h2⟩ := destinations_link_split item rest
      rw [h2] at hy
      rcases List.mem_append.mp hy with hy | hy
      · exact h.1 y (h1 ▸ List.mem_append_left _ hy)
      · rcases List.mem_cons.mp hy with rfl | hy
        · exact Nat.le_of_not_lt hc
        · exact h.1 y (h1 ▸ List.mem_append_right _ hy)

theorem destinations_modify_sorted (a : account) :
    ∀ (l before : List lazy_destinations_item), destinations_sorted (before.reverse ++ l) →
      destinations_sorted (destinations_modify a before l) := by
  intro l
  induction l with
  | nil => intro before _; simp [destinations_modify, destinations_sorted]
  | cons e rest ih =>
    intro before h
    by_cases hea : e.account = a
    · simp only [destinations_modify, hea, if_true]
      split
      · rename_i hfit
        unfold destinations_sorted at *
        rw [List.pairwise_append] at h ⊢
        obtain ⟨hb, her, hcross⟩ := h
        rw [List.pairwise_cons] at her
        rw [Bool.and_eq_true] at hfit
        refine ⟨hb, ?_, ?_⟩
        · rw [List.pairwise_cons]
          refine ⟨?_, her.2⟩
          intro y hy
          cases rest with
          | nil => cases hy
          | cons q qs =>
            have hq : q.count ≤ (e.count + 1) % 2 ^ 64 := by
              have hafter := hfit.2
              simp only [Bool.not_eq_true', decide_eq_false_iff_not] at hafter
              exact Nat.le_of_not_lt hafter
            rcases List.mem_cons.mp hy with rfl | hy
            · exact hq
            · exact Nat.le_trans ((List.pairwise_cons.mp her.2).1 y hy) hq
        · intro x hx y hy
          rcases List.mem_cons.mp hy with rfl | hy
          · cases before with
            | nil => simp at hx
            | cons p bs =>
              have hp : (e.count + 1) % 2 ^ 64 ≤ p.count := by
                have hbefore := hfit.1
                simp only [Bool.not_eq_true', decide_eq_false_iff_not] at hbefore
                exact Nat.le_of_not_lt hbefore
              rw [List.reverse_cons, List.mem_append, List.mem_singleton] at hx
              rcases hx with hx | rfl
              · rw [List.reverse_cons, List.pairwise_append] at hb
                exact Nat.le_trans hp (hb.2.2 x hx p (List.mem_singleton.mpr rfl))
              · exact hp
          · exact hcross x hx y (List.mem_cons_of_mem _ hy)
      · apply destinations_link_sorted
        unfold destinations_sorted at *
        exact h.sublist (List.Sublist.append_left (List.sublist_cons_self e rest) _)
    · simp only [destinations_modify, hea, if_false]
      apply ih (e :: before)
      simpa using h

theorem lazy_destinations_increment_sorted (n : node) (s : bootstrap_attempt_lazy)
    (a : account) (h : destinations_sorted s.lazy_destinations) :
    destinations_sorted (lazy_destinations_increment n s a).lazy_destinations := by
  unfold lazy_destinations_increment
  split
  · split
    · exact destinations_modify_sorted a s.lazy_destinations [] (by simpa using h)
    · show destinations_sorted (destinations_emplace _ s.lazy_destinations)
      unfold destinations_emplace
      split
      · exact h
      · exact destinations_link_sorted _ _ h
  · exact h

/-! ## What the member functions leave in place -/

theorem quiet_refl (n : node) (s : bootstrap_attempt_lazy) : quiet n s s :=
  ⟨rfl, rfl, fun _ h => h, fun _ h => Or.inl h, id⟩

theorem quiet_trans {n : node} {s t u : bootstrap_attempt_lazy} (h1 : quiet n s t)
    (h2 : quiet n t u) : quiet n s u := by
  refine ⟨h2.1.trans h1.1, h2.2.1.trans h1.2.1, fun l hl => h2.2.2.1 l (h1.2.2.1 l hl), ?_,
    fun h => h2.2.2.2.2 (h1.2.2.2.2 h)⟩
  intro e he
  rcases h2.2.2.2.1 e he with h | h
  · exact h1.2.2.2.1 e h
  · right
    unfold lazy_blocks_processed at h ⊢
    rw [← h1.1]
    exact h

/-- A call that touches only other members is quiet; so is one that only adds undefined
links or drops backlog entries. -/
theorem quiet_of {n : node} {s t : bootstrap_attempt_lazy} (h1 : t.lazy_blocks = s.lazy_blocks)
    (h2 : t.lazy_blocks_count = s.lazy_blocks_count)
    (h3 : ∀ l ∈ s.lazy_undefined_links, l ∈ t.lazy_undefined_links)
    (h4 : ∀ e ∈ t.lazy_state_backlog, e ∈ s.lazy_state_backlog)
    (h5 : t.lazy_destinations = s.lazy_destinations) : quiet n s t :=
  ⟨h1, h2, h3, fun e he => Or.inl (h4 e he), fun h => h5 ▸ h⟩

theorem quiet_lazy_add (n : node) (s : bootstrap_attempt_lazy) (h r : Nat) :
    quiet n s (lazy_add n s h r) := by
  rw [lazy_add_pulls]
  exact quiet_of rfl rfl (fun _ h => h) (fun _ h => h) rfl

theorem quiet_lazy_destinations_increment (n : node) (s : bootstrap_attempt_lazy)
    (a : account) : quiet n s (lazy_destinations_increment n s a) := by
  refine ⟨?_, ?_, ?_, ?_, lazy_destinations_increment_sorted n s a⟩
  · rw [lazy_destinations_increment_frame]
  · rw [lazy_destinations_increment_frame]
  · rw [lazy_destinations_increment_frame]; exact fun _ h => h
  · rw [lazy_destinations_increment_frame]; exact fun _ h => Or.inl h

theorem mem_map_emplace {β : Type} (k : block_hash) (v : β) (m : List (block_hash × β))
    (e : block_hash × β) (h : e ∈ map_emplace k v m) : e ∈ m ∨ e = (k, v) := by
  unfold map_emplace at h
  split at h
  · exact Or.inl h
  · rcases List.mem_append.mp h with h | h
    · exact Or.inl h
    · exact Or.inr (List.mem_singleton.mp h)

theorem mem_map_erase {β : Type} (k : block_hash) (m : List (block_hash × β))
    (e : block_hash × β) (h : e ∈ map_erase k m) : e ∈ m ∧ e.1 ≠ k := by
  unfold map_erase at h
  rw [List.mem_filter] at h
  exact ⟨h.1, by simpa using h.2⟩

theorem map_find_none_mem {β : Type} (k : block_hash) (m : List (block_hash × β))
    (h : map_find k m = none) : ∀ e ∈ m, e.1 ≠ k := by
  unfold map_find at h
  induction m with
  | nil => intro e he; cases he
  | cons x rest ih =>
    obtain ⟨k2, v2⟩ := x
    rw [List.lookup_cons] at h
    intro e he
    by_cases hk : k = k2
    · subst hk; simp at h
    · have hb : (k == k2) = false := by simpa using hk
      rw [hb] at h
      rcases List.mem_cons.mp he with rfl | he
      · exact fun h2 => hk h2.symm
      · exact ih h e he

theorem quiet_lazy_block_state (n : node) (s : bootstrap_attempt_lazy) (block_a : block)
    (retry_limit : Nat) : quiet n s (lazy_block_state n s block_a retry_limit) := by
  unfold lazy_block_state
  split
  · split
    · split
      · exact quiet_lazy_add n s _ _
      · split
        · split
          · exact quiet_lazy_add n s _ _
          · exact quiet_lazy_destinations_increment n s _
        · split
          · split
            · simp only
              split
              · exact quiet_trans (quiet_lazy_add n s _ _)
                  (quiet_of rfl rfl (fun _ h => h) (fun _ h => h) rfl)
              · exact quiet_trans (quiet_lazy_destinations_increment n s _)
                  (quiet_of rfl rfl (fun _ h => h) (fun _ h => h) rfl)
            · exact quiet_refl n s
          · rename_i hprev
            refine ⟨rfl, rfl, fun _ h => h, ?_, id⟩
            intro e he
            rcases mem_map_emplace _ _ _ e he with h | h
            · exact Or.inl h
            · right
              rw [h]
              simpa using hprev
    · exact quiet_refl n s
  · exact quiet_refl n s

theorem quiet_backlog_check (n : node) (s : bootstrap_attempt_lazy) (block_a : block)
    (hash_a : block_hash) : quiet n s (lazy_block_state_backlog_check n s block_a hash_a) := by
  unfold lazy_block_state_backlog_check
  split
  · simp only
    split
    · split
      · exact quiet_trans (quiet_lazy_add n s _ _)
          (quiet_of rfl rfl (fun _ h => h) (fun e he => (mem_map_erase _ _ e he).1) rfl)
      · exact quiet_trans (quiet_lazy_destinations_increment n s _)
          (quiet_of rfl rfl (fun _ h => h) (fun e he => (mem_map_erase _ _ e he).1) rfl)
    · split
      · refine quiet_trans (quiet_lazy_add n s _ _)
          (quiet_of rfl rfl ?_ (fun e he => (mem_map_erase _ _ e he).1) rfl)
        intro l hl
        show l ∈ set_insert _ _
        unfold set_insert
        split
        · exact hl
        · exact List.mem_append_left _ hl
      · exact quiet_of rfl rfl (fun _ h => h) (fun e he => (mem_map_erase _ _ e he).1) rfl
  · exact quiet_refl n s

/-- After the backlog check for a hash no backlog entry waits for that hash. -/
theorem backlog_check_no_key (n : node) (s : bootstrap_attempt_lazy) (block_a : block)
    (hash_a : block_hash) :
    ∀ e ∈ (lazy_block_state_backlog_check n s block_a hash_a).lazy_state_backlog,
      e.1 ≠ hash_a := by
  unfold lazy_block_state_backlog_check
  split
  · simp only
    intro e he
    exact (mem_map_erase _ _ e he).2
  · rename_i hnone
    exact map_find_none_mem hash_a _ hnone

theorem quiet_process_block_lazy_dependencies (n : node) (s : bootstrap_attempt_lazy)
    (block_a : block) (retry_limit : Nat) :
    quiet n s (process_block_lazy_dependencies n s block_a retry_limit) := by
  unfold process_block_lazy_dependencies
  split
  · exact quiet_lazy_add n s _ _
  · split
    · exact quiet_lazy_block_state n s block_a retry_limit
    · split
      · split
        · split
          · exact quiet_lazy_destinations_increment n s _
          · exact quiet_refl n s
        · exact quiet_refl n s
      · exact quiet_refl n s

theorem quiet_process_block_lazy_balances (n : node) (s : bootstrap_attempt_lazy)
    (block_a : block) (h : block_hash) (pull_blocks : Nat) :
    quiet n s (process_block_lazy_balances s block_a h pull_blocks) := by
  unfold process_block_lazy_balances
  simp only
  split <;> split <;> exact quiet_of rfl rfl (fun _ h => h) (fun _ h => h) rfl

theorem quiet_requeue_pull_lazy (n : node) (s : bootstrap_attempt_lazy) (pull_a : pull_info)
    (network_error : Bool) :
    quiet n s (requeue_pull_lazy n s pull_a network_error)
      ∧ (requeue_pull_lazy n s pull_a network_error).lazy_state_backlog
          = s.lazy_state_backlog := by
  unfold requeue_pull_lazy
  simp only
  split
  · exact ⟨quiet_of rfl rfl (fun _ h => h) (fun _ h => h) rfl, rfl⟩
  · split
    · split
      · exact ⟨quiet_of rfl rfl (fun _ h => h) (fun _ h => h) rfl, rfl⟩
      · exact ⟨quiet_of rfl rfl (fun _ h => h) (fun _ h => h) rfl, rfl⟩
    · split
      · refine ⟨quiet_trans (quiet_of rfl rfl (fun _ h => h) (fun _ h => h) rfl)
          (quiet_lazy_add n _ _ _), ?_⟩
        rw [(lazy_add_frame n _ _ _).1]
      · exact ⟨quiet_of rfl rfl (fun _ h => h) (fun _ h => h) rfl, rfl⟩

theorem quiet_lazy_pull_flush (n : node) (now : Nat) (s : bootstrap_attempt_lazy) :
    quiet n s (lazy_pull_flush n now s) := by
  unfold lazy_pull_flush
  split
  · exact quiet_of rfl rfl (fun _ h => h) (fun _ h => h) rfl
  · exact quiet_refl n s

theorem quiet_backlog_erase (n : node) (s : bootstrap_attempt_lazy) (k : block_hash) :
    quiet n s { s with lazy_state_backlog := map_erase k s.lazy_state_backlog } :=
  quiet_of rfl rfl (fun _ h => h) (fun e he => (mem_map_erase _ _ e he).1) rfl

theorem quiet_lazy_backlog_cleanup_loop (n : node) :
    ∀ (entries : List (block_hash × lazy_state_backlog_item)) (s : bootstrap_attempt_lazy),
      quiet n s (lazy_backlog_cleanup_loop n entries s)
        ∧ ∀ e ∈ (lazy_backlog_cleanup_loop n entries s).lazy_state_backlog,
            e ∈ s.lazy_state_backlog := by
  intro entries
  induction entries with
  | nil => intro s; exact ⟨quiet_refl n s, fun _ h => h⟩
  | cons entry rest ih =>
    intro s
    obtain ⟨hash, next_block⟩ := entry
    unfold lazy_backlog_cleanup_loop
    split
    · simp only
      split
      · refine ⟨quiet_trans (quiet_trans (quiet_lazy_add n s _ _)
          (quiet_backlog_erase n _ hash)) (ih _).1, ?_⟩
        intro e he
        have h1 := (mem_map_erase _ _ e ((ih _).2 e he)).1
        rw [(lazy_add_frame n s _ _).1] at h1
        exact h1
      · refine ⟨quiet_trans (quiet_trans (quiet_lazy_destinations_increment n s _)
          (quiet_backlog_erase n _ hash)) (ih _).1, ?_⟩
        intro e he
        have h1 := (mem_map_erase _ _ e ((ih _).2 e he)).1
        rw [(lazy_destinations_increment_others n s _).1] at h1
        exact h1
    · refine ⟨quiet_trans (quiet_lazy_add n s _ _) (ih _).1, ?_⟩
      intro e he
      have h1 := (ih _).2 e he
      rw [(lazy_add_frame n s _ _).1] at h1
      exact h1

theorem quiet_lazy_backlog_cleanup (n : node) (s : bootstrap_attempt_lazy) :
    quiet n s (lazy_backlog_cleanup n s) := by
  unfold lazy_backlog_cleanup
  split
  · exact quiet_refl n s
  · exact (quiet_lazy_backlog_cleanup_loop n _ s).1

/-- The flush loop queues the accounts it removes that are not processed, in the order of
the container, and leaves the rest of the container; nothing else changes. -/
theorem lazy_destinations_flush_loop_exact (n : node) :
    ∀ (items : List lazy_destinations_item) (count : Nat) (s : bootstrap_attempt_lazy),
      lazy_destinations_flush_loop n count items s
        = { s with
              lazy_pulls := s.lazy_pulls ++
                ((items.take (n.lazy_destinations_request_limit - count)).filter
                  (fun d => !(lazy_blocks_processed n s d.account))).map
                  (fun d => (d.account, n.lazy_destinations_retry_limit)),
              lazy_destinations := items.drop (n.lazy_destinations_request_limit - count) } := by
  intro items
  induction items with
  | nil => intro count s; simp [lazy_destinations_flush_loop]
  | cons item rest ih =>
    intro count s
    unfold lazy_destinations_flush_loop
    by_cases hlt : count < n.lazy_destinations_request_limit
    · simp only [hlt, if_true]
      have hsub : n.lazy_destinations_request_limit - count
          = (n.lazy_destinations_request_limit - (count + 1)) + 1 := by omega
      rw [ih, lazy_add_pulls, hsub]
      simp only [List.take_succ_cons, List.drop_succ_cons, List.filter_cons]
      have hsame : ∀ (l : List (block_hash × Nat)) (h : block_hash),
          lazy_blocks_processed n { s with lazy_pulls := l } h = lazy_blocks_processed n s h :=
        fun _ _ => rfl
      simp only [hsame]
      cases lazy_blocks_processed n s item.account <;> simp
    · simp only [hlt, if_false]
      have hz : n.lazy_destinations_request_limit - count = 0 := by omega
      rw [hz]
      simp

theorem quiet_lazy_destinations_flush (n : node) (s : bootstrap_attempt_lazy) :
    quiet n s (lazy_destinations_flush n s) := by
  unfold lazy_destinations_flush
  simp only
  split
  · exact quiet_of rfl rfl (fun _ h => h) (fun _ h => h) rfl
  · rw [lazy_destinations_flush_loop_exact]
    refine ⟨rfl, rfl, fun _ h => h, fun _ h => Or.inl h, ?_⟩
    intro h
    unfold destinations_sorted at *
    exact h.sublist (List.drop_sublist _ _)

theorem quiet_lazy_start (n : node) (s : bootstrap_attempt_lazy) (hash_or_account_a : block_hash)
    (confirmed : Bool) : quiet n s (lazy_start n s hash_or_account_a confirmed) := by
  unfold lazy_start
  split
  · exact quiet_of rfl rfl (fun _ h => h) (fun _ h => h) rfl
  · exact quiet_refl n s

theorem quiet_lazy_finished (n : node) (s : bootstrap_attempt_lazy) :
    quiet n s (lazy_finished n s).2 := by
  unfold lazy_finished
  split
  · exact quiet_refl n s
  · exact quiet_of rfl rfl (fun _ h => h) (fun _ h => h) rfl

theorem quiet_request_pull_lazy (n : node) (connection_l : Bool) (s : bootstrap_attempt_lazy) :
    quiet n s (request_pull_lazy n connection_l s).2 := by
  unfold request_pull_lazy
  split
  · split
    · exact quiet_refl n s
    · exact quiet_of rfl rfl (fun _ h => h) (fun _ h => h) rfl
  · exact quiet_refl n s

theorem lazy_blocks_insert_new (n : node) (s : bootstrap_attempt_lazy) (h : block_hash)
    (hnew : lazy_blocks_processed n s h = false) :
    lazy_blocks_insert n s h
      = { s with lazy_blocks := s.lazy_blocks ++ [n.hash_digest h],
                 lazy_blocks_count := s.lazy_blocks_count + 1 } := by
  have hmem : n.hash_digest h ∉ s.lazy_blocks := by
    simpa [lazy_blocks_processed] using hnew
  simp [lazy_blocks_insert, set_insert, hmem]

/-- What a new block does to the processed set, the undefined links, the backlog and the
order of the destinations. -/
theorem process_block_lazy_tracks (n : node) (s : bootstrap_attempt_lazy) (block_a : block)
    (known_account_a : account) (pull_blocks max_blocks retry_limit : Nat)
    (hnew : lazy_blocks_processed n s block_a.hash = false) :
    (∀ l ∈ s.lazy_undefined_links,
        l ∈ (process_block_lazy n s block_a known_account_a pull_blocks max_blocks
          retry_limit).2.lazy_undefined_links)
      ∧ (destinations_sorted s.lazy_destinations →
          destinations_sorted (process_block_lazy n s block_a known_account_a pull_blocks
            max_blocks retry_limit).2.lazy_destinations)
      ∧ (∀ e ∈ (process_block_lazy n s block_a known_account_a pull_blocks max_blocks
            retry_limit).2.lazy_state_backlog,
          (e ∈ s.lazy_state_backlog ∨ lazy_blocks_processed n s e.1 = false)
            ∧ e.1 ≠ block_a.hash)
      ∧ (process_block_lazy n s block_a known_account_a pull_blocks max_blocks
            retry_limit).2.lazy_blocks = s.lazy_blocks ++ [n.hash_digest block_a.hash]
      ∧ (process_block_lazy n s block_a known_account_a pull_blocks max_blocks
            retry_limit).2.lazy_blocks_count = s.lazy_blocks_count + 1 := by
  rw [process_block_lazy_new n s block_a known_account_a pull_blocks max_blocks retry_limit hnew]
  have q1 := quiet_process_block_lazy_dependencies n s block_a retry_limit
  have hnew1 : lazy_blocks_processed n
      (process_block_lazy_dependencies n s block_a retry_limit) block_a.hash = false := by
    unfold lazy_blocks_processed at hnew ⊢
    rw [q1.1]
    exact hnew
  rw [lazy_blocks_insert_new n _ block_a.hash hnew1]
  revert q1
  generalize process_block_lazy_dependencies n s block_a retry_limit = s1
  intro q1
  have q3 := quiet_process_block_lazy_balances n
    { s1 with lazy_blocks := s1.lazy_blocks ++ [n.hash_digest block_a.hash],
              lazy_blocks_count := s1.lazy_blocks_count + 1 } block_a block_a.hash pull_blocks
  revert q3
  generalize process_block_lazy_balances
    { s1 with lazy_blocks := s1.lazy_blocks ++ [n.hash_digest block_a.hash],
              lazy_blocks_count := s1.lazy_blocks_count + 1 } block_a block_a.hash pull_blocks
    = s3
  intro q3
  have q4 := quiet_backlog_check n s3 block_a block_a.hash
  have hk := backlog_check_no_key n s3 block_a block_a.hash
  revert q4 hk
  generalize lazy_block_state_backlog_check n s3 block_a block_a.hash = s4
  intro q4 hk
  obtain ⟨b1, c1, u1, k1, d1⟩ := q1
  obtain ⟨b3, c3, u3, k3, d3⟩ := q3
  obtain ⟨b4, c4, u4, k4, d4⟩ := q4
  simp only at b3 c3 u3 k3 d3
  refine ⟨fun l hl => u4 l (u3 l (u1 l hl)), fun h => d4 (d3 (d1 h)), ?_, ?_, ?_⟩
  · intro e he
    refine ⟨?_, hk e he⟩
    have hsub : ∀ (t : bootstrap_attempt_lazy) (d : List Nat), t.lazy_blocks = s.lazy_blocks ++ d →
        lazy_blocks_processed n t e.1 = false → lazy_blocks_processed n s e.1 = false := by
      intro t d ht h
      unfold lazy_blocks_processed at h ⊢
      rw [ht] at h
      simp only [decide_eq_false_iff_not, List.mem_append, not_or] at h ⊢
      exact h.1
    rcases k4 e he with h | h
    · rcases k3 e h with h | h
      · exact k1 e h
      · exact Or.inr (hsub _ [n.hash_digest block_a.hash] (by rw [b1]) h)
    · exact Or.inr (hsub s3 [n.hash_digest block_a.hash] (by rw [b3, b1]) h)
  · show s4.lazy_blocks = _
    rw [b4, b3, b1]
  · show s4.lazy_blocks_count = _
    rw [c4, c3, c1]

/-- What one call does to the processed set and its counter, the undefined links, the
backlog and the order of the destinations. -/
theorem step_tracks (n : node) {s t : bootstrap_attempt_lazy} (h : step n s t) :
    (∀ l ∈ s.lazy_undefined_links, l ∈ t.lazy_undefined_links)
      ∧ (destinations_sorted s.lazy_destinations → destinations_sorted t.lazy_destinations)
      ∧ ((t.lazy_blocks = s.lazy_blocks ∧ t.lazy_blocks_count = s.lazy_blocks_count
            ∧ ∀ e ∈ t.lazy_state_backlog,
                e ∈ s.lazy_state_backlog ∨ lazy_blocks_processed n s e.1 = false)
          ∨ (∃ hash_a, lazy_blocks_processed n s hash_a = false
              ∧ t.lazy_blocks = s.lazy_blocks ++ [n.hash_digest hash_a]
              ∧ t.lazy_blocks_count = s.lazy_blocks_count + 1
              ∧ ∀ e ∈ t.lazy_state_backlog,
                  (e ∈ s.lazy_state_backlog ∨ lazy_blocks_processed n s e.1 = false)
                    ∧ e.1 ≠ hash_a)
          ∨ (∃ hash_a, lazy_blocks_processed n s hash_a = true
              ∧ t.lazy_blocks = s.lazy_blocks.erase (n.hash_digest hash_a)
              ∧ t.lazy_blocks_count = s.lazy_blocks_count - 1
              ∧ t.lazy_state_backlog = s.lazy_state_backlog)) := by
  have hq : ∀ {u : bootstrap_attempt_lazy}, quiet n s u →
      (∀ l ∈ s.lazy_undefined_links, l ∈ u.lazy_undefined_links)
      ∧ (destinations_sorted s.lazy_destinations → destinations_sorted u.lazy_destinations)
      ∧ ((u.lazy_blocks = s.lazy_blocks ∧ u.lazy_blocks_count = s.lazy_blocks_count
            ∧ ∀ e ∈ u.lazy_state_backlog,
                e ∈ s.lazy_state_backlog ∨ lazy_blocks_processed n s e.1 = false)
          ∨ (∃ hash_a, lazy_blocks_processed n s hash_a = false
              ∧ u.lazy_blocks = s.lazy_blocks ++ [n.hash_digest hash_a]
              ∧ u.lazy_blocks_count = s.lazy_blocks_count + 1
              ∧ ∀ e ∈ u.lazy_state_backlog,
                  (e ∈ s.lazy_state_backlog ∨ lazy_blocks_processed n s e.1 = false)
                    ∧ e.1 ≠ hash_a)
          ∨ (∃ hash_a, lazy_blocks_processed n s hash_a = true
              ∧ u.lazy_blocks = s.lazy_blocks.erase (n.hash_digest hash_a)
              ∧ u.lazy_blocks_count = s.lazy_blocks_count - 1
              ∧ u.lazy_state_backlog = s.lazy_state_backlog)) :=
    fun q => ⟨q.2.2.1, q.2.2.2.2, Or.inl ⟨q.1, q.2.1, q.2.2.2.1⟩⟩
  cases h with
  | lazy_start e b _ seed confirmed =>
    exact hq (quiet_lazy_start (n.with_storage e b) s seed confirmed)
  | lazy_finished e b => exact hq (quiet_lazy_finished (n.with_storage e b) s)
  | process_block e b _ block_a known_account_a pull_blocks max_blocks block_expected
      retry_limit =>
    cases block_expected with
    | false => exact hq (quiet_refl n s)
    | true =>
      show _ ∧ _ ∧ (_ ∨ _ ∨ _)
      simp only [process_block, if_true]
      cases hnew : lazy_blocks_processed (n.with_storage e b) s block_a.hash with
      | true =>
        rw [process_block_lazy_seen (n.with_storage e b) s block_a known_account_a pull_blocks
          max_blocks retry_limit hnew]
        exact hq (quiet_refl n s)
      | false =>
        have ht := process_block_lazy_tracks (n.with_storage e b) s block_a known_account_a
          pull_blocks max_blocks retry_limit hnew
        exact ⟨ht.1, ht.2.1, Or.inr (Or.inl ⟨block_a.hash, hnew, ht.2.2.2.1, ht.2.2.2.2,
          ht.2.2.1⟩)⟩
  | requeue_pull_lazy e b _ pull_a network_error =>
    exact hq (quiet_requeue_pull_lazy (n.with_storage e b) s pull_a network_error).1
  | lazy_requeue e b _ hash_a previous_a confirmed_a =>
    cases hproc : lazy_blocks_processed (n.with_storage e b) s hash_a with
    | false =>
      have : lazy_requeue (n.with_storage e b) s hash_a previous_a confirmed_a = s := by
        simp [lazy_requeue, hproc]
      rw [this]
      exact hq (quiet_refl n s)
    | true =>
      have hmem : n.hash_digest hash_a ∈ s.lazy_blocks := by
        simpa [lazy_blocks_processed] using hproc
      have herase : lazy_blocks_erase (n.with_storage e b) s hash_a
          = { s with lazy_blocks := s.lazy_blocks.erase (n.hash_digest hash_a),
                     lazy_blocks_count := s.lazy_blocks_count - 1 } := by
        unfold lazy_blocks_erase
        exact if_pos hmem
      have hres : lazy_requeue (n.with_storage e b) s hash_a previous_a confirmed_a
          = requeue_pull_lazy (n.with_storage e b)
              { s with lazy_blocks := s.lazy_blocks.erase (n.hash_digest hash_a),
                       lazy_blocks_count := s.lazy_blocks_count - 1 }
              (pull_info.make hash_a hash_a previous_a 1
                (if confirmed_a then unsigned_max else n.lazy_destinations_retry_limit))
              false := by
        unfold lazy_requeue
        rw [if_pos hproc, herase]
        rfl
      rw [hres]
      obtain ⟨q, hb⟩ := quiet_requeue_pull_lazy (n.with_storage e b)
        { s with lazy_blocks := s.lazy_blocks.erase (n.hash_digest hash_a),
                 lazy_blocks_count := s.lazy_blocks_count - 1 }
        (pull_info.make hash_a hash_a previous_a 1
          (if confirmed_a then unsigned_max else n.lazy_destinations_retry_limit)) false
      exact ⟨q.2.2.1, q.2.2.2.2, Or.inr (Or.inr ⟨hash_a, hproc, q.1, q.2.1, hb⟩)⟩
  | lazy_pull_flush e b now => exact hq (quiet_lazy_pull_flush (n.with_storage e b) now s)
  | lazy_backlog_cleanup e b => exact hq (quiet_lazy_backlog_cleanup (n.with_storage e b) s)
  | lazy_destinations_flush e b =>
    exact hq (quiet_lazy_destinations_flush (n.with_storage e b) s)
  | request_pull_lazy e b connection_l =>
    exact hq (quiet_request_pull_lazy (n.with_storage e b) connection_l s)
  | lazy_run_start now => exact hq (quiet_of rfl rfl (fun _ h => h) (fun _ h => h) rfl)
  | stop => exact hq (quiet_of rfl rfl (fun _ h => h) (fun _ h => h) rfl)

/-! ## The backlog waits for blocks that were not received -/

theorem calm_refl (s : bootstrap_attempt_lazy) : calm s s := ⟨rfl, rfl, fun _ h => h⟩

theorem calm_trans {s t u : bootstrap_attempt_lazy} (h1 : calm s t) (h2 : calm t u) :
    calm s u :=
  ⟨h2.1.trans h1.1, h2.2.1.trans h1.2.1, fun e he => h1.2.2 e (h2.2.2 e he)⟩

theorem calm_of_eq {s t : bootstrap_attempt_lazy} (h1 : t.block_processor = s.block_processor)
    (h2 : t.lazy_blocks = s.lazy_blocks) (h3 : t.lazy_state_backlog = s.lazy_state_backlog) :
    calm s t :=
  ⟨h1, h2, fun _ h => h3 ▸ h⟩

theorem calm_lazy_add (n : node) (s : bootstrap_attempt_lazy) (h r : Nat) :
    calm s (lazy_add n s h r) := by
  rw [lazy_add_pulls]
  exact calm_of_eq rfl rfl rfl

theorem calm_lazy_destinations_increment (n : node) (s : bootstrap_attempt_lazy)
    (a : account) : calm s (lazy_destinations_increment n s a) := by
  rw [lazy_destinations_increment_frame]
  exact calm_of_eq rfl rfl rfl

theorem calm_backlog_erase (s : bootstrap_attempt_lazy) (k : block_hash) :
    calm s { s with lazy_state_backlog := map_erase k s.lazy_state_backlog } :=
  ⟨rfl, rfl, fun e he => (mem_map_erase _ _ e he).1⟩

theorem calm_backlog_check (n : node) (s : bootstrap_attempt_lazy) (block_a : block)
    (hash_a : block_hash) : calm s (lazy_block_state_backlog_check n s block_a hash_a) := by
  unfold lazy_block_state_backlog_check
  split
  · simp only
    split
    · split
      · exact calm_trans (calm_lazy_add n s _ _) (calm_backlog_erase _ hash_a)
      · exact calm_trans (calm_lazy_destinations_increment n s _) (calm_backlog_erase _ hash_a)
    · split
      · exact calm_trans (calm_lazy_add n s _ _)
          ⟨rfl, rfl, fun e he => (mem_map_erase _ _ e he).1⟩
      · exact calm_backlog_erase s hash_a
  · exact calm_refl s

theorem calm_requeue_pull_lazy (n : node) (s : bootstrap_attempt_lazy) (pull_a : pull_info)
    (network_error : Bool) : calm s (requeue_pull_lazy n s pull_a network_error) := by
  unfold requeue_pull_lazy
  simp only
  split
  · exact calm_of_eq rfl rfl rfl
  · split
    · split
      · exact calm_of_eq rfl rfl rfl
      · exact calm_of_eq rfl rfl rfl
    · split
      · exact calm_trans (calm_of_eq rfl rfl rfl) (calm_lazy_add n _ _ _)
      · exact calm_of_eq rfl rfl rfl

theorem calm_lazy_backlog_cleanup_loop (n : node) :
    ∀ (entries : List (block_hash × lazy_state_backlog_item)) (s : bootstrap_attempt_lazy),
      calm s (lazy_backlog_cleanup_loop n entries s) := by
  intro entries
  induction entries with
  | nil => intro s; exact calm_refl s
  | cons entry rest ih =>
    intro s
    obtain ⟨hash, next_block⟩ := entry
    unfold lazy_backlog_cleanup_loop
    split
    · simp only
      split
      · exact calm_trans (calm_trans (calm_lazy_add n s _ _) (calm_backlog_erase _ hash)) (ih _)
      · exact calm_trans
          (calm_trans (calm_lazy_destinations_increment n s _) (calm_backlog_erase _ hash)) (ih _)
    · exact calm_trans (calm_lazy_add n s _ _) (ih _)

/-- The backlog entry `lazy_block_state` adds waits for the predecessor of the block, which
is not zero and not processed. -/
theorem lazy_block_state_backlog_keys (n : node) (s : bootstrap_attempt_lazy) (block_a : block)
    (retry_limit : Nat) :
    ∀ e ∈ (lazy_block_state n s block_a retry_limit).lazy_state_backlog,
      e ∈ s.lazy_state_backlog
        ∨ (e.1 = block_a.previous ∧ e.1 ≠ 0 ∧ lazy_blocks_processed n s e.1 = false) := by
  unfold lazy_block_state
  split
  · split
    · split
      · rw [(lazy_add_frame n s _ _).1]; exact fun _ h => Or.inl h
      · split
        · split
          · rw [(lazy_add_frame n s _ _).1]; exact fun _ h => Or.inl h
          · rw [(lazy_destinations_increment_others n s _).1]; exact fun _ h => Or.inl h
        · split
          · split
            · simp only
              split
              · rw [(lazy_add_frame n s _ _).1]; exact fun _ h => Or.inl h
              · rw [(lazy_destinations_increment_others n s _).1]; exact fun _ h => Or.inl h
            · exact fun _ h => Or.inl h
          · rename_i hzero _ hproc
            intro e he
            rcases mem_map_emplace _ _ _ e he with h | h
            · exact Or.inl h
            · right
              rw [h]
              exact ⟨rfl, hzero, by simpa using hproc⟩
    · exact fun _ h => Or.inl h
  · exact fun _ h => Or.inl h

theorem process_block_lazy_dependencies_backlog_keys (n : node) (s : bootstrap_attempt_lazy)
    (block_a : block) (retry_limit : Nat) :
    ∀ e ∈ (process_block_lazy_dependencies n s block_a retry_limit).lazy_state_backlog,
      e ∈ s.lazy_state_backlog
        ∨ (e.1 = block_a.previous ∧ e.1 ≠ 0 ∧ lazy_blocks_processed n s e.1 = false) := by
  unfold process_block_lazy_dependencies
  split
  · rw [(lazy_add_frame n s _ _).1]; exact fun _ h => Or.inl h
  · split
    · exact lazy_block_state_backlog_keys n s block_a retry_limit
    · split
      · split
        · split
          · rw [(lazy_destinations_increment_others n s _).1]; exact fun _ h => Or.inl h
          · exact fun _ h => Or.inl h
        · exact fun _ h => Or.inl h
      · exact fun _ h => Or.inl h

/-- What a new block hands to the block processor and leaves in the processed set and in
the backlog. -/
theorem process_block_lazy_seen_hashes (n : node) (s : bootstrap_attempt_lazy)
    (block_a : block) (known_account_a : account) (pull_blocks max_blocks retry_limit : Nat)
    (hnew : lazy_blocks_processed n s block_a.hash = false) :
    (process_block_lazy n s block_a known_account_a pull_blocks max_blocks
          retry_limit).2.block_processor
        = s.block_processor ++
            [{ block := block_a, account := known_account_a, modified := 0,
               confirmed := decide (retry_limit = unsigned_max) }]
      ∧ (process_block_lazy n s block_a known_account_a pull_blocks max_blocks
            retry_limit).2.lazy_blocks = s.lazy_blocks ++ [n.hash_digest block_a.hash]
      ∧ ∀ e ∈ (process_block_lazy n s block_a known_account_a pull_blocks max_blocks
            retry_limit).2.lazy_state_backlog,
          (e ∈ s.lazy_state_backlog
            ∨ (e.1 = block_a.previous ∧ e.1 ≠ 0 ∧ lazy_blocks_processed n s e.1 = false))
          ∧ e.1 ≠ block_a.hash := by
  rw [process_block_lazy_new n s block_a known_account_a pull_blocks max_blocks retry_limit hnew]
  have hp1 := process_block_lazy_dependencies_processor n s block_a retry_limit
  have hb1 := process_block_lazy_dependencies_blocks n s block_a retry_limit
  have hk1 := process_block_lazy_dependencies_backlog_keys n s block_a retry_limit
  have hnew1 : lazy_blocks_processed n
      (process_block_lazy_dependencies n s block_a retry_limit) block_a.hash = false := by
    unfold lazy_blocks_processed at hnew ⊢
    rw [hb1]
    exact hnew
  rw [lazy_blocks_insert_new n _ block_a.hash hnew1]
  revert hp1 hb1 hk1
  generalize process_block_lazy_dependencies n s block_a retry_limit = s1
  intro hp1 hb1 hk1
  have hf3 := process_block_lazy_balances_frame
    { s1 with lazy_blocks := s1.lazy_blocks ++ [n.hash_digest block_a.hash],
              lazy_blocks_count := s1.lazy_blocks_count + 1 } block_a block_a.hash pull_blocks
  revert hf3
  generalize process_block_lazy_balances
    { s1 with lazy_blocks := s1.lazy_blocks ++ [n.hash_digest block_a.hash],
              lazy_blocks_count := s1.lazy_blocks_count + 1 } block_a block_a.hash pull_blocks
    = s3
  intro hf3
  simp only at hf3
  have q4 := calm_backlog_check n s3 block_a block_a.hash
  have hk := backlog_check_no_key n s3 block_a block_a.hash
  revert q4 hk
  generalize lazy_block_state_backlog_check n s3 block_a block_a.hash = s4
  intro q4 hk
  refine ⟨?_, ?_, ?_⟩
  · show s4.block_processor ++ _ = _
    rw [q4.1, hf3.2.2.2.2.2, hp1]
  · show s4.lazy_blocks = _
    rw [q4.2.1, hf3.2.2.2.1, hb1]
  · intro e he
    refine ⟨?_, hk e he⟩
    have h3 := q4.2.2 e he
    rw [hf3.2.1] at h3
    exact hk1 e h3

/-- What one call hands to the block processor and does to the processed set and the
backlog: either nothing is handed over, the processed set does not grow and no backlog
entry is added; or one new block is handed over, its digest joins the processed set, and
a new backlog entry waits for the predecessor of that block. -/
theorem step_seen (n : node) {s t : bootstrap_attempt_lazy} (h : step n s t) :
    (t.block_processor = s.block_processor ∧ (∀ d ∈ t.lazy_blocks, d ∈ s.lazy_blocks)
        ∧ ∀ e ∈ t.lazy_state_backlog, e ∈ s.lazy_state_backlog)
      ∨ ∃ item : unchecked_info,
          t.block_processor = s.block_processor ++ [item]
            ∧ t.lazy_blocks = s.lazy_blocks ++ [n.hash_digest item.block.hash]
            ∧ ∀ e ∈ t.lazy_state_backlog,
                (e ∈ s.lazy_state_backlog
                  ∨ (e.1 = item.block.previous ∧ e.1 ≠ 0
                    ∧ lazy_blocks_processed n s e.1 = false))
                ∧ e.1 ≠ item.block.hash := by
  have hc : ∀ {u : bootstrap_attempt_lazy}, calm s u →
      (u.block_processor = s.block_processor ∧ (∀ d ∈ u.lazy_blocks, d ∈ s.lazy_blocks)
        ∧ ∀ e ∈ u.lazy_state_backlog, e ∈ s.lazy_state_backlog)
      ∨ ∃ item : unchecked_info,
          u.block_processor = s.block_processor ++ [item]
            ∧ u.lazy_blocks = s.lazy_blocks ++ [n.hash_digest item.block.hash]
            ∧ ∀ e ∈ u.lazy_state_backlog,
                (e ∈ s.lazy_state_backlog
                  ∨ (e.1 = item.block.previous ∧ e.1 ≠ 0
                    ∧ lazy_blocks_processed n s e.1 = false))
                ∧ e.1 ≠ item.block.hash :=
    fun q => Or.inl ⟨q.1, fun d hd => q.2.1 ▸ hd, q.2.2⟩
  cases h with
  | lazy_start e b _ seed confirmed =>
    apply hc
    unfold lazy_start
    split
    · exact calm_of_eq rfl rfl rfl
    · exact calm_refl s
  | lazy_finished e b =>
    apply hc
    unfold lazy_finished
    split
    · exact calm_refl s
    · exact calm_of_eq rfl rfl rfl
  | process_block e b _ block_a known_account_a pull_blocks max_blocks block_expected
      retry_limit =>
    cases block_expected with
    | false => exact hc (calm_refl s)
    | true =>
      show _ ∨ _
      simp only [process_block, if_true]
      cases hnew : lazy_blocks_processed (n.with_storage e b) s block_a.hash with
      | true =>
        rw [process_block_lazy_seen (n.with_storage e b) s block_a known_account_a pull_blocks
          max_blocks retry_limit hnew]
        exact hc (calm_refl s)
      | false =>
        have ht := process_block_lazy_seen_hashes (n.with_storage e b) s block_a
          known_account_a pull_blocks max_blocks retry_limit hnew
        exact Or.inr ⟨_, ht.1, ht.2.1, ht.2.2⟩
  | requeue_pull_lazy e b _ pull_a network_error =>
    exact hc (calm_requeue_pull_lazy (n.with_storage e b) s pull_a network_error)
  | lazy_requeue e b _ hash_a previous_a confirmed_a =>
    left
    unfold lazy_requeue
    split
    · have q := calm_requeue_pull_lazy (n.with_storage e b)
        (lazy_blocks_erase (n.with_storage e b) s hash_a)
        (pull_info.make hash_a hash_a previous_a 1
          (if confirmed_a then unsigned_max else n.lazy_destinations_retry_limit)) false
      have herase : (lazy_blocks_erase (n.with_storage e b) s hash_a).block_processor
            = s.block_processor
          ∧ (∀ d ∈ (lazy_blocks_erase (n.with_storage e b) s hash_a).lazy_blocks,
              d ∈ s.lazy_blocks)
          ∧ (lazy_blocks_erase (n.with_storage e b) s hash_a).lazy_state_backlog
            = s.lazy_state_backlog := by
        unfold lazy_blocks_erase
        split
        · exact ⟨rfl, fun d hd => List.mem_of_mem_erase hd, rfl⟩
        · exact ⟨rfl, fun _ hd => hd, rfl⟩
      refine ⟨q.1.trans herase.1, fun d hd => herase.2.1 d (q.2.1 ▸ hd), ?_⟩
      intro x hx
      exact herase.2.2 ▸ q.2.2 x hx
    · exact ⟨rfl, fun _ hd => hd, fun _ hx => hx⟩
  | lazy_pull_flush e b now =>
    apply hc
    unfold lazy_pull_flush
    split
    · exact calm_of_eq rfl rfl rfl
    · exact calm_refl s
  | lazy_backlog_cleanup e b =>
    apply hc
    unfold lazy_backlog_cleanup
    split
    · exact calm_refl s
    · exact calm_lazy_backlog_cleanup_loop (n.with_storage e b) _ s
  | lazy_destinations_flush e b =>
    apply hc
    unfold lazy_destinations_flush
    simp only
    split
    · exact calm_of_eq rfl rfl rfl
    · rw [lazy_destinations_flush_loop_exact]
      exact calm_of_eq rfl rfl rfl
  | request_pull_lazy e b connection_l =>
    apply hc
    unfold request_pull_lazy
    split
    · split
      · exact calm_refl s
      · exact calm_of_eq rfl rfl rfl
    · exact calm_refl s
  | lazy_run_start now => exact hc (calm_of_eq rfl rfl rfl)
  | stop => exact hc (calm_of_eq rfl rfl rfl)

theorem hashes_seen_of_append (l1 l2 : List unchecked_info) :
    hashes_seen_of (l1 ++ l2) = hashes_seen_of l1 ++ hashes_seen_of l2 := by
  induction l1 with
  | nil => rfl
  | cons item rest ih => simp [hashes_seen_of, ih]

/-- The hashes seen after one call are those seen before and, when the call took a new
block, the hashes of that block. -/
theorem step_hashes_seen (n : node) {s t : bootstrap_attempt_lazy} (h : step n s t) :
    ∀ a ∈ hashes_seen s, a ∈ hashes_seen t := by
  intro a ha
  unfold hashes_seen at *
  rcases step_seen n h with ⟨hbp, _, _⟩ | ⟨item, hbp, _, _⟩
  · rw [hbp]; exact ha
  · rw [hbp, hashes_seen_of_append]
    exact List.mem_append_left _ ha

/-- Every key of the backlog of a reachable attempt is among the hashes seen. -/
theorem reachable_backlog_seen (n : node) {s : bootstrap_attempt_lazy} (hr : reachable n s) :
    ∀ e ∈ s.lazy_state_backlog, e.1 ∈ hashes_seen s := by
  induction hr with
  | start now => intro e he; cases he
  | @next s0 t _ hstep ih =>
    intro e he
    rcases step_seen n hstep with ⟨_, _, hback⟩ | ⟨item, hbp, _, hback⟩
    · exact step_hashes_seen n hstep _ (ih e (hback e he))
    · rcases (hback e he).1 with h | ⟨h1, h2, _⟩
      · exact step_hashes_seen n hstep _ (ih e h)
      · unfold hashes_seen
        rw [hbp, hashes_seen_of_append]
        apply List.mem_append_right
        have hprev : ¬ item.block.previous = 0 := h1 ▸ h2
        simp [hashes_seen_of, block_hashes, hprev, h1]

/-- C26: if the digest is collision-free on the hashes seen (the hashes and predecessor
hashes of the blocks the attempt took as new), then in every state reachable from the
empty attempt by any sequence of calls (`process_block_lazy`, `lazy_requeue`,
`lazy_backlog_cleanup`, `lazy_start` and every other member function) no key of
`lazy_state_backlog` is reported as processed by `lazy_blocks_processed`. -/
theorem lazy_state_backlog_unprocessed (n : node) (s : bootstrap_attempt_lazy)
    (hr : reachable n s)
    (hdigest : ∀ a ∈ hashes_seen s, ∀ b ∈ hashes_seen s,
      n.hash_digest a = n.hash_digest b → a = b) :
    ∀ e ∈ s.lazy_state_backlog, lazy_blocks_processed n s e.1 = false := by
  revert hdigest
  induction hr with
  | start now => intro _ e he; cases he
  | @next s0 t hr0 hstep ih =>
    intro hdigest e he
    have hdigest0 : ∀ a ∈ hashes_seen s0, ∀ b ∈ hashes_seen s0,
        n.hash_digest a = n.hash_digest b → a = b :=
      fun a ha b hb => hdigest a (step_hashes_seen n hstep a ha) b (step_hashes_seen n hstep b hb)
    rcases step_seen n hstep with ⟨_, hblocks, hback⟩ | ⟨item, hbp, hblocks, hback⟩
    · have h0 := ih hdigest0 e (hback e he)
      unfold lazy_blocks_processed at h0 ⊢
      simp only [decide_eq_false_iff_not] at h0 ⊢
      exact fun hmem => h0 (hblocks _ hmem)
    · have h0 : lazy_blocks_processed n s0 e.1 = false := by
        rcases (hback e he).1 with h | ⟨_, _, h⟩
        · exact ih hdigest0 e h
        · exact h
      have hkey : e.1 ∈ hashes_seen t := reachable_backlog_seen n (reachable.next hr0 hstep) e he
      have hhash : item.block.hash ∈ hashes_seen t := by
        unfold hashes_seen
        rw [hbp, hashes_seen_of_append]
        apply List.mem_append_right
        simp [hashes_seen_of, block_hashes]
      have hne : n.hash_digest e.1 ≠ n.hash_digest item.block.hash :=
        fun hd => (hback e he).2 (hdigest _ hkey _ hhash hd)
      unfold lazy_blocks_processed at h0 ⊢
      rw [hblocks]
      simp only [decide_eq_false_iff_not, List.mem_append, List.mem_singleton, not_or] at h0 ⊢
      exact ⟨h0, hne⟩

theorem lazy_state_backlog_unprocessed_witness :
    (process_block node_legacy { attempt_fresh with last_lazy_flush := 0 }
        (block.state 7 6 50 3) 0 0 0 true 2).2.lazy_state_backlog
        = [(6, { link := 3, balance := 50, retry_limit := 2 })]
      ∧ hashes_seen (process_block node_legacy { attempt_fresh with last_lazy_flush := 0 }
          (block.state 7 6 50 3) 0 0 0 true 2).2 = [7, 6]
      ∧ ∀ e ∈ (process_block node_legacy { attempt_fresh with last_lazy_flush := 0 }
          (block.state 7 6 50 3) 0 0 0 true 2).2.lazy_state_backlog,
          lazy_blocks_processed node_legacy
            (process_block node_legacy { attempt_fresh with last_lazy_flush := 0 }
              (block.state 7 6 50 3) 0 0 0 true 2).2 e.1 = false :=
  ⟨by decide, by decide,
    lazy_state_backlog_unprocessed node_legacy _
      (reachable.next (reachable.start 0)
        (step.process_block node_legacy.block_exists node_legacy.balance
          { attempt_fresh with last_lazy_flush := 0 } (block.state 7 6 50 3) 0 0 0 true 2))
      (by decide)⟩

/-! ## The counter of the processed set -/

theorem lazy_blocks_insert_counts (n : node) (s : bootstrap_attempt_lazy) (h : block_hash)
    (hinv : s.lazy_blocks_count = s.lazy_blocks.length ∧ s.lazy_blocks.Nodup) :
    (lazy_blocks_insert n s h).lazy_blocks_count = (lazy_blocks_insert n s h).lazy_blocks.length
      ∧ (lazy_blocks_insert n s h).lazy_blocks.Nodup := by
  unfold lazy_blocks_insert
  split
  · exact hinv
  · rename_i hmem
    simp only [set_insert, hmem, if_false, List.length_append, List.length_singleton, hinv.1,
      true_and]
    rw [List.nodup_append]
    refine ⟨hinv.2, List.nodup_singleton _, ?_⟩
    intro x hx hx2
    rw [List.mem_singleton] at hx2
    exact hmem (hx2 ▸ hx)

theorem lazy_blocks_erase_counts (n : node) (s : bootstrap_attempt_lazy) (h : block_hash)
    (hinv : s.lazy_blocks_count = s.lazy_blocks.length ∧ s.lazy_blocks.Nodup) :
    (lazy_blocks_erase n s h).lazy_blocks_count = (lazy_blocks_erase n s h).lazy_blocks.length
      ∧ (lazy_blocks_erase n s h).lazy_blocks.Nodup := by
  unfold lazy_blocks_erase
  split
  · rename_i hmem
    refine ⟨?_, hinv.2.erase _⟩
    show s.lazy_blocks_count - 1 = (s.lazy_blocks.erase (n.hash_digest h)).length
    rw [List.length_erase_of_mem hmem, hinv.1]
  · exact hinv

theorem lazy_blocks_calls_counts (n : node) :
    ∀ (calls : List (Bool × block_hash)) (s : bootstrap_attempt_lazy),
      (s.lazy_blocks_count = s.lazy_blocks.length ∧ s.lazy_blocks.Nodup) →
      (lazy_blocks_calls n calls s).lazy_blocks_count
          = (lazy_blocks_calls n calls s).lazy_blocks.length
        ∧ (lazy_blocks_calls n calls s).lazy_blocks.Nodup := by
  intro calls
  induction calls with
  | nil => intro s h; exact h
  | cons call rest ih =>
    intro s h
    obtain ⟨flag, hash_a⟩ := call
    cases flag with
    | true => exact ih _ (lazy_blocks_insert_counts n s hash_a h)
    | false => exact ih _ (lazy_blocks_erase_counts n s hash_a h)

theorem reachable_lazy_blocks (n : node) {s : bootstrap_attempt_lazy} (hr : reachable n s) :
    s.lazy_blocks_count = s.lazy_blocks.length ∧ s.lazy_blocks.Nodup := by
  induction hr with
  | start now => exact ⟨rfl, List.nodup_nil⟩
  | @next s0 t _ hstep ih =>
    rcases (step_tracks n hstep).2.2 with ⟨hb, hc, _⟩ | ⟨h, hnew, hb, hc, _⟩
      | ⟨h, hproc, hb, hc, _⟩
    · rw [hb, hc]; exact ih
    · have hmem : n.hash_digest h ∉ s0.lazy_blocks := by
        simpa [lazy_blocks_processed] using hnew
      rw [hb, hc, List.length_append, List.length_singleton, ih.1]
      refine ⟨rfl, ?_⟩
      rw [List.nodup_append]
      refine ⟨ih.2, List.nodup_singleton _, ?_⟩
      intro x hx hx2
      rw [List.mem_singleton] at hx2
      exact hmem (hx2 ▸ hx)
    · have hmem : n.hash_digest h ∈ s0.lazy_blocks := by
        simpa [lazy_blocks_processed] using hproc
      rw [hb, hc, List.length_erase_of_mem hmem, ih.1]
      exact ⟨rfl, ih.2.erase _⟩

theorem lazy_blocks_erase_unprocessed (n : node) (s : bootstrap_attempt_lazy) (h : block_hash)
    (hnodup : s.lazy_blocks.Nodup) :
    lazy_blocks_processed n (lazy_blocks_erase n s h) h = false := by
  unfold lazy_blocks_erase
  split
  · unfold lazy_blocks_processed
    simp only [decide_eq_false_iff_not]
    intro hmem
    exact ((hnodup.mem_erase_iff).mp hmem).1 rfl
  · rename_i hmem
    simpa [lazy_blocks_processed] using hmem

/-- C27: `lazy_blocks_count` equals the number of elements of `lazy_blocks` after every
sequence of `lazy_blocks_insert` and `lazy_blocks_erase` calls made on the empty attempt
(inserting a present hash and erasing an absent one included), and in every state
reachable by any sequence of member function calls; `lazy_blocks_insert (h)` makes
`lazy_blocks_processed (h)` true, and a following `lazy_blocks_erase (h)` makes it
false. -/
theorem lazy_blocks_count_exact (n : node) :
    (∀ calls : List (Bool × block_hash),
        (lazy_blocks_calls n calls attempt_fresh).lazy_blocks_count
          = (lazy_blocks_calls n calls attempt_fresh).lazy_blocks.length)
      ∧ (∀ s, reachable n s → s.lazy_blocks_count = s.lazy_blocks.length)
      ∧ (∀ s h, lazy_blocks_processed n (lazy_blocks_insert n s h) h = true)
      ∧ (∀ (calls : List (Bool × block_hash)) (h : block_hash),
          lazy_blocks_processed n
            (lazy_blocks_erase n (lazy_blocks_insert n (lazy_blocks_calls n calls attempt_fresh) h)
              h) h = false)
      ∧ (∀ s h, reachable n s →
          lazy_blocks_processed n (lazy_blocks_erase n (lazy_blocks_insert n s h) h) h
            = false) := by
  have hfresh : attempt_fresh.lazy_blocks_count = attempt_fresh.lazy_blocks.length
      ∧ attempt_fresh.lazy_blocks.Nodup := ⟨rfl, List.nodup_nil⟩
  refine ⟨fun calls => (lazy_blocks_calls_counts n calls attempt_fresh hfresh).1,
    fun s hr => (reachable_lazy_blocks n hr).1, ?_, ?_, ?_⟩
  · intro s h
    unfold lazy_blocks_insert
    split
    · rename_i hmem
      simpa [lazy_blocks_processed] using hmem
    · rename_i hmem
      simp [lazy_blocks_processed, set_insert, hmem]
  · intro calls h
    exact lazy_blocks_erase_unprocessed n _ h
      (lazy_blocks_insert_counts n _ h (lazy_blocks_calls_counts n calls attempt_fresh hfresh)).2
  · intro s h hr
    exact lazy_blocks_erase_unprocessed n _ h
      (lazy_blocks_insert_counts n _ h (reachable_lazy_blocks n hr)).2

theorem lazy_blocks_count_exact_witness :
    (lazy_blocks_calls node_legacy [(true, 3), (true, 3), (false, 9), (true, 7), (false, 3)]
        attempt_fresh).lazy_blocks = [7]
      ∧ (lazy_blocks_calls node_legacy [(true, 3), (true, 3), (false, 9), (true, 7), (false, 3)]
          attempt_fresh).lazy_blocks_count
        = (lazy_blocks_calls node_legacy [(true, 3), (true, 3), (false, 9), (true, 7), (false, 3)]
          attempt_fresh).lazy_blocks.length :=
  ⟨by decide, (lazy_blocks_count_exact node_legacy).1
    [(true, 3), (true, 3), (false, 9), (true, 7), (false, 3)]⟩

/-! ## Flushing the destinations -/

theorem take_min_length {α : Type} (l : List α) (k : Nat) :
    l.take (min l.length k) = l.take k := by
  rcases Nat.le_total l.length k with h | h
  · rw [Nat.min_eq_left h, List.take_of_length_le h, List.take_of_length_le (Nat.le_refl _)]
  · rw [Nat.min_eq_right h]

theorem drop_min_length {α : Type} (l : List α) (k : Nat) :
    l.drop (min l.length k) = l.drop k := by
  rcases Nat.le_total l.length k with h | h
  · rw [Nat.min_eq_left h, List.drop_of_length_le h, List.drop_of_length_le (Nat.le_refl _)]
  · rw [Nat.min_eq_right h]

/-- The destinations of a reachable attempt are ordered by count, largest first. -/
theorem reachable_destinations_sorted (n : node) {s : bootstrap_attempt_lazy}
    (hr : reachable n s) : destinations_sorted s.lazy_destinations := by
  induction hr with
  | start now => exact List.Pairwise.nil
  | @next s0 t _ hstep ih => exact (step_tracks n hstep).2.1 ih

/-- C28: `lazy_destinations_flush` on an attempt that is not stopped, whose container
holds its entries in descending order of count (as the count index does), removes the
first `min (size, lazy_destinations_request_limit)` entries: every removed count is at
least every remaining count; each removed account that is not processed is appended to
`lazy_pulls`, in that order, with retry limit `lazy_destinations_retry_limit`; and
`lazy_destinations_flushed` is set.  Nothing else changes. -/
theorem lazy_destinations_flush_order (n : node) (s : bootstrap_attempt_lazy)
    (hrun : s.stopped = false) (hsorted : destinations_sorted s.lazy_destinations) :
    lazy_destinations_flush n s
        = { s with
              lazy_destinations_flushed := true,
              lazy_pulls := s.lazy_pulls ++
                ((s.lazy_destinations.take
                    (min s.lazy_destinations.length n.lazy_destinations_request_limit)).filter
                  (fun d => !(lazy_blocks_processed n s d.account))).map
                  (fun d => (d.account, n.lazy_destinations_retry_limit)),
              lazy_destinations := s.lazy_destinations.drop
                (min s.lazy_destinations.length n.lazy_destinations_request_limit) }
      ∧ (lazy_destinations_flush n s).lazy_destinations.length
          = s.lazy_destinations.length
            - min s.lazy_destinations.length n.lazy_destinations_request_limit
      ∧ destinations_sorted (s.lazy_destinations.take
          (min s.lazy_destinations.length n.lazy_destinations_request_limit))
      ∧ (∀ x ∈ s.lazy_destinations.take
            (min s.lazy_destinations.length n.lazy_destinations_request_limit),
          ∀ y ∈ (lazy_destinations_flush n s).lazy_destinations, y.count ≤ x.count) := by
  have hres : lazy_destinations_flush n s
      = { s with
            lazy_destinations_flushed := true,
            lazy_pulls := s.lazy_pulls ++
              ((s.lazy_destinations.take
                  (min s.lazy_destinations.length n.lazy_destinations_request_limit)).filter
                (fun d => !(lazy_blocks_processed n s d.account))).map
                (fun d => (d.account, n.lazy_destinations_retry_limit)),
            lazy_destinations := s.lazy_destinations.drop
              (min s.lazy_destinations.length n.lazy_destinations_request_limit) } := by
    unfold lazy_destinations_flush
    simp only [hrun, Bool.false_eq_true, if_false]
    rw [lazy_destinations_flush_loop_exact, take_min_length, drop_min_length]
    rfl
  refine ⟨hres, ?_, ?_, ?_⟩
  · rw [hres]
    simp only [List.length_drop]
  · unfold destinations_sorted at *
    exact hsorted.sublist (List.take_sublist _ _)
  · rw [hres]
    simp only
    intro x hx y hy
    unfold destinations_sorted at hsorted
    rw [← List.take_append_drop
      (min s.lazy_destinations.length n.lazy_destinations_request_limit) s.lazy_destinations,
      List.pairwise_append] at hsorted
    exact hsorted.2.2 x hx y hy

theorem lazy_destinations_flush_order_witness :
    lazy_destinations_flush node_lazy_only_two_requests attempt_destinations
      = { attempt_destinations with
            lazy_destinations_flushed := true,
            lazy_pulls := [(8, 4)],
            lazy_destinations := [{ account := 4, count := 1 }] } :=
  (lazy_destinations_flush_order node_lazy_only_two_requests attempt_destinations (by decide)
    (by decide)).1

/-! ## The guard of the legacy-predecessor path -/

/-- The backlog check for a block that is neither a state nor a send block, when the link
of the entry is among the undefined links: only the entry is erased. -/
theorem backlog_check_guarded (n : node) (s : bootstrap_attempt_lazy) (block_a : block)
    (hash_a : block_hash) (next_block : lazy_state_backlog_item)
    (hfind : map_find hash_a s.lazy_state_backlog = some next_block)
    (htype : block_a.type ≠ block_type.state ∧ block_a.type ≠ block_type.send)
    (hmem : next_block.link ∈ s.lazy_undefined_links) :
    lazy_block_state_backlog_check n s block_a hash_a
      = { s with lazy_state_backlog := map_erase hash_a s.lazy_state_backlog } := by
  have hnot : ¬ (block_a.type = block_type.state ∨ block_a.type = block_type.send) :=
    fun h => h.elim htype.1 htype.2
  simp only [lazy_block_state_backlog_check, hfind]
  rw [if_neg hnot, if_neg (not_not.mpr hmem)]

/-- C29: when the block arriving for a backlog entry is neither a state nor a send block,
`lazy_block_state_backlog_check` erases the entry and, only if the link of the entry is
not in `lazy_undefined_links`, applies `lazy_add (link, lazy_retry_limit)` and records the
link there; if the link is recorded already nothing but the erasure happens.  After the
call the link is recorded, it stays recorded over every sequence of calls, and so every
later backlog check that meets the link on this path leaves `lazy_pulls` as it is. -/
theorem lazy_undefined_links_guard (n : node) (s : bootstrap_attempt_lazy) (block_a : block)
    (hash_a : block_hash) (next_block : lazy_state_backlog_item)
    (hfind : map_find hash_a s.lazy_state_backlog = some next_block)
    (htype : block_a.type ≠ block_type.state ∧ block_a.type ≠ block_type.send) :
    (next_block.link ∉ s.lazy_undefined_links →
        lazy_block_state_backlog_check n s block_a hash_a
          = { s with
                lazy_pulls := s.lazy_pulls ++
                  (if lazy_blocks_processed n s next_block.link then []
                    else [(next_block.link, n.lazy_retry_limit)]),
                lazy_undefined_links := s.lazy_undefined_links ++ [next_block.link],
                lazy_state_backlog := map_erase hash_a s.lazy_state_backlog })
      ∧ (next_block.link ∈ s.lazy_undefined_links →
          lazy_block_state_backlog_check n s block_a hash_a
            = { s with lazy_state_backlog := map_erase hash_a s.lazy_state_backlog })
      ∧ map_find hash_a (lazy_block_state_backlog_check n s block_a hash_a).lazy_state_backlog
          = none
      ∧ (∀ t, Relation.ReflTransGen (step n) (lazy_block_state_backlog_check n s block_a hash_a) t →
          next_block.link ∈ t.lazy_undefined_links
            ∧ ∀ (e : block_hash → Bool) (b : block_hash → Nat) (block_b : block)
                (hash_b : block_hash) (entry : lazy_state_backlog_item),
                map_find hash_b t.lazy_state_backlog = some entry →
                entry.link = next_block.link →
                (block_b.type ≠ block_type.state ∧ block_b.type ≠ block_type.send) →
                (lazy_block_state_backlog_check (n.with_storage e b) t block_b hash_b).lazy_pulls
                  = t.lazy_pulls) := by
  have hnot : ¬ (block_a.type = block_type.state ∨ block_a.type = block_type.send) :=
    fun h => h.elim htype.1 htype.2
  have hfresh : next_block.link ∉ s.lazy_undefined_links →
      lazy_block_state_backlog_check n s block_a hash_a
        = { s with
              lazy_pulls := s.lazy_pulls ++
                (if lazy_blocks_processed n s next_block.link then []
                  else [(next_block.link, n.lazy_retry_limit)]),
              lazy_undefined_links := s.lazy_undefined_links ++ [next_block.link],
              lazy_state_backlog := map_erase hash_a s.lazy_state_backlog } := by
    intro hmem
    simp only [lazy_block_state_backlog_check, hfind]
    rw [if_neg hnot, if_pos hmem, lazy_add_pulls]
    simp only [set_insert, hmem, if_false]
  have hrecorded : next_block.link
      ∈ (lazy_block_state_backlog_check n s block_a hash_a).lazy_undefined_links := by
    by_cases hmem : next_block.link ∈ s.lazy_undefined_links
    · rw [backlog_check_guarded n s block_a hash_a next_block hfind htype hmem]
      exact hmem
    · rw [hfresh hmem]
      exact List.mem_append_right _ (List.mem_singleton.mpr rfl)
  refine ⟨hfresh, backlog_check_guarded n s block_a hash_a next_block hfind htype, ?_, ?_⟩
  · by_cases hmem : next_block.link ∈ s.lazy_undefined_links
    · rw [backlog_check_guarded n s block_a hash_a next_block hfind htype hmem]
      exact map_find_erase_self hash_a _
    · rw [hfresh hmem]
      exact map_find_erase_self hash_a _
  · intro t ht
    have hstays : next_block.link ∈ t.lazy_undefined_links := by
      induction ht with
      | refl => exact hrecorded
      | tail _ hstep ih => exact (step_tracks n hstep).1 _ ih
    refine ⟨hstays, ?_⟩
    intro e b block_b hash_b entry hfind_b hlink htype_b
    rw [backlog_check_guarded (n.with_storage e b) t block_b hash_b entry hfind_b htype_b
      (hlink ▸ hstays)]

theorem lazy_undefined_links_guard_witness :
    lazy_block_state_backlog_check node_legacy attempt_backlog (block.receive 7 6 9) 7
      = { attempt_backlog with
            lazy_pulls := [(3, 160)],
            lazy_undefined_links := [3],
            lazy_state_backlog := [] } :=
  (lazy_undefined_links_guard node_legacy attempt_backlog (block.receive 7 6 9) 7
    { link := 3, balance := 50, retry_limit := 2 } (by decide) (by decide)).1 (by decide)

/-! ## Endpoint parser -/

theorem split_last_colon_append (address port : List Char) (hport : ∀ c ∈ port, c ≠ ':') :
    split_last_colon (address ++ ':' :: port) = some (address, port) := by
  have hrev : (address ++ ':' :: port).reverse = port.reverse ++ ':' :: address.reverse := by
    simp
  have hall : ∀ c ∈ port.reverse, (fun c : Char => c != ':') c = true := by
    intro c hc
    simpa using hport c (List.mem_reverse.mp hc)
  have hdrop : ∀ (l1 l2 : List Char), (∀ c ∈ l1, (fun c : Char => c != ':') c = true) →
      (l1 ++ ':' :: l2).dropWhile (fun c => c != ':') = ':' :: l2
        ∧ (l1 ++ ':' :: l2).takeWhile (fun c => c != ':') = l1 := by
    intro l1 l2
    induction l1 with
    | nil => intro _; simp [List.dropWhile_cons, List.takeWhile_cons]
    | cons x xs ih =>
      intro h
      have hx := h x (List.mem_cons_self _ _)
      have ih2 := ih (fun c hc => h c (List.mem_cons_of_mem _ hc))
      simp only [List.cons_append, List.dropWhile_cons, List.takeWhile_cons, hx, if_true]
      exact ⟨ih2.1, by rw [ih2.2]⟩
  obtain ⟨h1, h2⟩ := hdrop port.reverse address.reverse hall
  unfold split_last_colon
  rw [hrev, h1, h2]
  simp

theorem split_last_colon_some (string address port : List Char)
    (h : split_last_colon string = some (address, port)) :
    string = address ++ ':' :: port ∧ ∀ c ∈ port, c ≠ ':' := by
  unfold split_last_colon at h
  have hsplit := List.takeWhile_append_dropWhile (fun c : Char => c != ':') string.reverse
  cases hd : string.reverse.dropWhile (fun c => c != ':') with
  | nil => rw [hd] at h; cases h
  | cons x rest =>
    rw [hd] at h hsplit
    simp only [Option.some.injEq, Prod.mk.injEq] at h
    have hx : x = ':' := by
      have hne : (string.reverse.dropWhile (fun c => c != ':')) ≠ [] := by rw [hd]; simp
      have := List.head_dropWhile_not (fun c : Char => c != ':') string.reverse hne
      simp only [hd, List.head_cons] at this
      simpa using this
    subst hx
    constructor
    · have := congrArg List.reverse hsplit
      rw [List.reverse_reverse, List.reverse_append, List.reverse_cons, h.1, h.2] at this
      rw [← this]
      simp
    · intro c hc
      rw [← h.2, List.mem_reverse] at hc
      have := List.mem_takeWhile_imp hc
      simpa using this

theorem split_last_colon_none (string : List Char) (h : ∀ c ∈ string, c ≠ ':') :
    split_last_colon string = none := by
  cases hs : split_last_colon string with
  | none => rfl
  | some r =>
    obtain ⟨address, port⟩ := r
    have := (split_last_colon_some string address port hs).1
    exact absurd rfl (h ':' (by rw [this]; simp))

/-- C21: on the six strings of the tests the parser modelled from the spec does what the
tests expect: `::1:24000` gives no error and the endpoint (loopback, 24000); `::1:24a00`,
`::q:24000`, `:24000`, `::1:` and `::1` give an error.  In general, a string without a
colon, a string that ends in its last colon (missing port), a port with a character that
is no digit, an address that does not parse and a missing address give an error, and a
string is accepted exactly if it is an IPv6 address that parses, a colon, and a port that
parses; the endpoint then holds their values. -/
theorem parse_endpoint_accepts :
    parse_endpoint "::1:24000".toList = some { address := address_v6_loopback, port := 24000 }
      ∧ parse_endpoint "::1:24a00".toList = none
      ∧ parse_endpoint "::q:24000".toList = none
      ∧ parse_endpoint ":24000".toList = none
      ∧ parse_endpoint "::1:".toList = none
      ∧ parse_endpoint "::1".toList = none
      ∧ (∀ string : List Char, (∀ c ∈ string, c ≠ ':') → parse_endpoint string = none)
      ∧ (∀ address : List Char, parse_endpoint (address ++ [':']) = none)
      ∧ (∀ address port : List Char, (∀ c ∈ port, c ≠ ':') →
          (∃ c ∈ port, c.isDigit = false) → parse_endpoint (address ++ ':' :: port) = none)
      ∧ (∀ address port : List Char, (∀ c ∈ port, c ≠ ':') →
          parse_address_v6 address = none → parse_endpoint (address ++ ':' :: port) = none)
      ∧ (∀ port : List Char, (∀ c ∈ port, c ≠ ':') → parse_endpoint (':' :: port) = none)
      ∧ (∀ (string : List Char) (e : endpoint),
          parse_endpoint string = some e ↔
            ∃ address port : List Char, string = address ++ ':' :: port
              ∧ (∀ c ∈ port, c ≠ ':')
              ∧ parse_address_v6 address = some e.address ∧ parse_port port = some e.port) := by
  refine ⟨by decide, by decide, by decide, by decide, by decide, by decide, ?_, ?_, ?_, ?_, ?_,
    ?_⟩
  · intro string h
    unfold parse_endpoint
    rw [split_last_colon_none string h]
  · intro address
    unfold parse_endpoint
    rw [split_last_colon_append address [] (by simp)]
    simp [parse_port]
  · intro address port hport hdigit
    have hp : parse_port port = none := by
      unfold parse_port
      rw [if_neg]
      intro h
      obtain ⟨c, hc, hcd⟩ := hdigit
      have := List.all_eq_true.mp h.2.1 c hc
      rw [hcd] at this
      cases this
    unfold parse_endpoint
    rw [split_last_colon_append address port hport]
    simp only [hp]
    split <;> rfl
  · intro address port hport haddress
    unfold parse_endpoint
    rw [split_last_colon_append address port hport]
    simp only [haddress]
    split
    · rfl
    · cases parse_port port <;> rfl
  · intro port hport
    unfold parse_endpoint
    have := split_last_colon_append [] port hport
    rw [List.nil_append] at this
    rw [this]
    simp
  · intro string e
    constructor
    · intro h
      unfold parse_endpoint at h
      cases hs : split_last_colon string with
      | none => rw [hs] at h; cases h
      | some r =>
        obtain ⟨address, port⟩ := r
        rw [hs] at h
        simp only at h
        obtain ⟨h1, h2⟩ := split_last_colon_some string address port hs
        refine ⟨address, port, h1, h2, ?_⟩
        split at h
        · cases h
        · cases hp : parse_port port with
          | none => rw [hp] at h; cases h
          | some p =>
            cases ha : parse_address_v6 address with
            | none => rw [hp, ha] at h; cases h
            | some a =>
              rw [hp, ha] at h
              simp only [Option.some.injEq] at h
              rw [← h]
              exact ⟨rfl, rfl⟩
    · rintro ⟨address, port, h1, h2, h3, h4⟩
      have hne : address ≠ [] := by
        intro h
        rw [h] at h3
        cases h3
      unfold parse_endpoint
      rw [h1, split_last_colon_append address port h2]
      simp only [hne, if_false, h3, h4]

theorem parse_endpoint_accepts_witness :
    parse_endpoint "1:2:3:4:5:6:7:8:".toList = none
      ∧ parse_endpoint "::1:7075".toList = some { address := address_v6_loopback, port := 7075 } :=
  ⟨parse_endpoint_accepts.2.2.2.2.2.2.2.1 "1:2:3:4:5:6:7:8".toList,
    (parse_endpoint_accepts.2.2.2.2.2.2.2.2.2.2.2 "::1:7075".toList
      { address := address_v6_loopback, port := 7075 }).mpr
      ⟨"::1".toList, "7075".toList, by decide, by decide, by decide, by decide⟩⟩

end nano
